import Mathlib

/-!
# Layered dot-product pipeline (`neural_network_complete.cpp`)

A shallow embedding of the program's unit task (`neuron_compute`), stage
workers (`inputLayerProcess`, `layerProcess`), channel transport
(`writeToPipe`, `readFromPipe`), weight provider (`readWeights`) and driver
(`main`), followed by theorems about them.

The C++ type `double` is kept abstract: a type `D` with the operations the
program applies to it (`0.0`, `1`, `2.0`, `+`, `-`, `*`, `/`).  No law of
arithmetic is assumed, so every general theorem holds for IEEE-754 binary64 as
for any other interpretation; concrete scenarios are evaluated over `ℚ`, where
the dyadic values involved are computed exactly.

A result of type `Option` is `none` where the C++ program has no defined
result: an out-of-bounds `operator[]`, a read of an indeterminate value, an
uncaught `std::length_error`, or an overflow of signed `int` arithmetic.

Counts, indices and line numbers, `int` or `size_t` in the program, are natural
numbers, the non-negative values of these variables.  The line numbers of the
weight provider and the layer count are 32-bit `int`s: `start_line + num_lines`
and `current_line++` in `readWeights`, `line_offset += neurons_per_layer` and
`total_layers = 1 + num_hidden_layers + 1` in `main` have a defined value only
below `2^31`.  The one narrowing conversion,
`int size = data.size()` in `writeToPipe`, is modelled with its wrap-around to
32 bits.
-/

namespace NeuralNet

/-! ## Unit task -/

/-- The `NeuronData` record handed to one unit thread. -/
structure NeuronData (D : Type) where
  inputs : List D
  weights : List D
  output : D
  neuron_id : Nat
deriving DecidableEq

/-- The loop `for (i = 0; i < inputs.size(); i++) sum += inputs[i] * weights[i];`
of `neuron_compute`: `k` iterations remain, `i` is the loop index.  The test
`i < inputs.size()` guards `inputs[i]`; `weights[i]` is unguarded. -/
def neuronLoop {D : Type} [Add D] [Mul D] (inputs weights : List D) : Nat → Nat → D → Option D
  | 0, _, sum => some sum
  | k + 1, i, sum =>
    match inputs[i]?, weights[i]? with
    | some x, some w => neuronLoop inputs weights k (i + 1) (sum + x * w)
    | _, _ => none

/-- The thread body `neuron_compute`: `sum` starts at `0.0`, the loop runs
`inputs.size()` times, then `data->output = sum`. -/
def neuron_compute {D : Type} [Zero D] [Add D] [Mul D] (data : NeuronData D) :
    Option (NeuronData D) :=
  match neuronLoop data.inputs data.weights data.inputs.length 0 0 with
  | some sum => some { data with output := sum }
  | none => none

/-- The dot product as the specification words it: the products
`inputs[i] * weights[i]` added up from `0` in index order. -/
def dotProduct {D : Type} [Zero D] [Add D] [Mul D] (inputs weights : List D) : D :=
  (List.zipWith (fun x w => x * w) inputs weights).foldl (fun sum p => sum + p) 0

/-- What a completed unit thread leaves in its record, in the specification's
words: the dot product in `output`, every other field as it was. -/
def computed {D : Type} [Zero D] [Add D] [Mul D] (u : NeuronData D) : NeuronData D :=
  { u with output := dotProduct u.inputs u.weights }

/-! ## Stage worker: fan-out, completion, fan-in -/

/-- The creation loop of a stage worker (`inputLayerProcess` lines 113-120,
`layerProcess` lines 167-174): unit `i` receives a copy of the stage input, the
row `weights[i]`, the id `i` and the output `0.0`.  `k` units remain to be
created; `weights[i]` is read without a bounds test. -/
def createUnits {D : Type} [Zero D] (inputs : List D) (weights : List (List D)) :
    Nat → Nat → Option (List (NeuronData D))
  | 0, _ => some []
  | k + 1, i =>
    match weights[i]? with
    | some row =>
      match createUnits inputs weights k (i + 1) with
      | some rest => some ({ inputs := inputs, weights := row, output := 0, neuron_id := i } :: rest)
      | none => none
    | none => none

/-- The unit threads of one stage running to completion in the order `sched`
(a list of unit indices, earliest completion first): thread `t` runs
`neuron_compute` on `neuron_data[t]` and on nothing else. -/
def runThreads {D : Type} [Zero D] [Add D] [Mul D] :
    List Nat → List (NeuronData D) → Option (List (NeuronData D))
  | [], units => some units
  | t :: rest, units =>
    match units[t]? with
    | some u =>
      match neuron_compute u with
      | some u' => runThreads rest (units.set t u')
      | none => none
    | none => none

/-- The join loop of a stage worker: after `pthread_join(threads[i])` the value
`neuron_data[i].output` is pushed to `outputs`, for `i` in index order. -/
def collectOutputs {D : Type} (units : List (NeuronData D)) : List D :=
  units.map fun u => u.output

/-- The vector `outputs` of a stage worker with `num_neurons` units whose
threads complete in the order `sched`. -/
def stageOutputs {D : Type} [Zero D] [Add D] [Mul D] (sched : List Nat) (inputs : List D)
    (weights : List (List D)) (num_neurons : Nat) : Option (List D) :=
  match createUnits inputs weights num_neurons 0 with
  | some units =>
    match runThreads sched units with
    | some done => some (collectOutputs done)
    | none => none
  | none => none

/-! ## Channel transport -/

/-- One byte of memory or of a pipe.  The four bytes of an `int` are plain
byte values; the object representation of a `double` is kept symbolic, `frag d k`
being byte `k` of the eight bytes of `d`. -/
inductive MemByte (D : Type) where
  | raw (b : Nat)
  | frag (d : D) (k : Nat)
deriving DecidableEq

/-- The conversion `int size = data.size();` from `size_t` to a 32-bit `int`. -/
def toInt32 (n : Nat) : Int :=
  if n % 4294967296 < 2147483648 then ((n % 4294967296 : Nat) : Int)
  else ((n % 4294967296 : Nat) : Int) - 4294967296

/-- The four bytes `write(fd, &size, sizeof(int))` takes from an `int`. -/
def encodeInt {D : Type} (v : Int) : List (MemByte D) :=
  let u := (v % 4294967296).toNat
  [MemByte.raw (u % 256), MemByte.raw (u / 256 % 256), MemByte.raw (u / 65536 % 256),
    MemByte.raw (u / 16777216 % 256)]

/-- The value of the `int size` after `read(fd, &size, sizeof(int))` stored the
given bytes into it.  `size` is declared without an initialiser, so fewer than
four bytes leave it indeterminate. -/
def decodeInt {D : Type} : List (MemByte D) → Option Int
  | [MemByte.raw b0, MemByte.raw b1, MemByte.raw b2, MemByte.raw b3] =>
    let u := b0 + 256 * b1 + 65536 * b2 + 16777216 * b3
    some (if u < 2147483648 then (u : Int) else (u : Int) - 4294967296)
  | _ => none

/-- The eight bytes of the object representation of a `double`. -/
def doubleBytes {D : Type} (d : D) : List (MemByte D) :=
  (List.range 8).map fun k => MemByte.frag d k

/-- The `double` held by eight bytes of a `vector<double>` buffer: the value
whose representation was stored there, `0.0` where the zero-initialised slot
was left untouched, and no known value for any other mixture of bytes. -/
def decodeDouble {D : Type} [DecidableEq D] [Zero D] (chunk : List (MemByte D)) : Option D :=
  if chunk = List.replicate 8 (MemByte.raw 0) then some 0
  else
    match chunk with
    | MemByte.frag d _ :: _ => if chunk = doubleBytes d then some d else none
    | _ => none

/-- The `n` elements of a `vector<double>` whose buffer holds the bytes `buf`. -/
def decodeDoubles {D : Type} [DecidableEq D] [Zero D] : Nat → List (MemByte D) → Option (List D)
  | 0, _ => some []
  | n + 1, buf =>
    match decodeDouble (buf.take 8), decodeDoubles n (buf.drop 8) with
    | some d, some ds => some (d :: ds)
    | _, _ => none

/-- A pipe: the bytes in transit, as the fragments in which the transport hands
them to the reader, oldest first. -/
abbrev Pipe (D : Type) := List (List (MemByte D))

/-- The call `write(fd, buf, count)`: the bytes enter the pipe as one fragment. -/
def sysWrite {D : Type} (pipe : Pipe D) (bytes : List (MemByte D)) : Pipe D :=
  pipe ++ [bytes]

/-- The call `read(fd, buf, count)`: at most `count` bytes of the oldest
fragment are transferred; nothing is transferred at end of file. -/
def sysRead {D : Type} (pipe : Pipe D) (count : Nat) : List (MemByte D) × Pipe D :=
  match pipe with
  | [] => ([], [])
  | f :: rest => if f.length ≤ count then (f, rest) else (f.take count, f.drop count :: rest)

/-- The function `writeToPipe`: the length as an `int`, then, when it is
positive, `size * sizeof(double)` bytes of the vector's buffer. -/
def writeToPipe {D : Type} (pipe : Pipe D) (data : List D) : Pipe D :=
  let size := toInt32 data.length
  let pipe1 := sysWrite pipe (encodeInt size)
  if size > 0 then sysWrite pipe1 ((data.take size.toNat).flatMap doubleBytes) else pipe1

/-- The function `readFromPipe`: one `read` for the length, the construction
`vector<double> data(size)` (zero-filled; `std::length_error` for a negative
`size`), and, when `size` is positive, one `read` into the buffer, whose
return value is not looked at.  The result is the vector and the pipe left. -/
def readFromPipe {D : Type} [DecidableEq D] [Zero D] (pipe : Pipe D) : Option (List D × Pipe D) :=
  match decodeInt (sysRead pipe 4).1 with
  | none => none
  | some size =>
    if size < 0 then none
    else if size > 0 then
      let got := (sysRead (sysRead pipe 4).2 (size.toNat * 8)).1
      let buf := got ++ List.replicate (size.toNat * 8 - got.length) (MemByte.raw 0)
      match decodeDoubles size.toNat buf with
      | some data => some (data, (sysRead (sysRead pipe 4).2 (size.toNat * 8)).2)
      | none => none
    else some ([], (sysRead pipe 4).2)

/-! ## Stage processes -/

/-- The function `inputLayerProcess`: two units over `initial_inputs`, then
`writeToPipe(pipe_fd[1], outputs)`.  The result is the pipe after the write. -/
def inputLayerProcess {D : Type} [Zero D] [Add D] [Mul D] (sched : List Nat) (pipe_fd : Pipe D)
    (initial_inputs : List D) (weights : List (List D)) : Option (Pipe D) :=
  match stageOutputs sched initial_inputs weights 2 with
  | some outputs => some (writeToPipe pipe_fd outputs)
  | none => none

/-- The loop `for (double val : outputs) sum += val;` of the output layer. -/
def outputSum {D : Type} [Zero D] [Add D] (outputs : List D) : D :=
  outputs.foldl (fun sum val => sum + val) 0

/-- The values `fx1 = (sum * sum + sum + 1) / 2.0` and
`fx2 = (sum * sum - sum) / 2.0` of the output layer. -/
def backwardOf {D : Type} [One D] [Add D] [Sub D] [Mul D] [Div D] [OfNat D 2] (sum : D) : List D :=
  [(sum * sum + sum + 1) / 2, (sum * sum - sum) / 2]

/-- The function `layerProcess`: `readFromPipe(read_fd)`, `num_neurons` units
over the vector read, then one `writeToPipe(write_fd, ...)`.  The result is the
inbound pipe after the read, the outbound pipe after the write, and the
by-reference vector `backward_values` at return. -/
def layerProcess {D : Type} [DecidableEq D] [Zero D] [One D] [Add D] [Sub D] [Mul D] [Div D]
    [OfNat D 2] (sched : List Nat) (read_fd write_fd : Pipe D) (num_neurons : Nat)
    (weights : List (List D)) (is_output : Bool) (backward_values : List D) :
    Option (Pipe D × Pipe D × List D) :=
  match readFromPipe read_fd with
  | none => none
  | some (inputs, read_rest) =>
    match stageOutputs sched inputs weights num_neurons with
    | none => none
    | some outputs =>
      if is_output then
        some (read_rest, writeToPipe write_fd (backwardOf (outputSum outputs)),
          backwardOf (outputSum outputs))
      else some (read_rest, writeToPipe write_fd outputs, backward_values)

/-! ## Weight provider -/

/-- The `getline` loop of `readWeights`: `current_line` counts the lines read,
and a line whose number lies in `[start_line, start_line + num_lines)` is parsed
and pushed to `weights`.  The line numbers are `int`s: the sum
`start_line + num_lines`, which the test evaluates for every line with
`current_line >= start_line`, and the increment `current_line++` overflow from
`2^31` on, which is undefined behaviour (`none`). -/
def readWeightsLoop {L D : Type} (parseLine : L → List D) (start_line num_lines : Nat) :
    List L → Nat → List (List D) → Option (List (List D))
  | [], _, weights => some weights
  | line :: rest, current_line, weights =>
    if start_line ≤ current_line ∧ 2147483648 ≤ start_line + num_lines then none
    else if 2147483648 ≤ current_line + 1 then none
    else if start_line ≤ current_line ∧ current_line < start_line + num_lines then
      readWeightsLoop parseLine start_line num_lines rest (current_line + 1)
        (weights ++ [parseLine line])
    else readWeightsLoop parseLine start_line num_lines rest (current_line + 1) weights

/-- The function `readWeights` on a file given as the list of its lines; `none`
when its `int` line arithmetic overflows. -/
def readWeights {L D : Type} (parseLine : L → List D) (file : List L)
    (start_line num_lines : Nat) : Option (List (List D)) :=
  readWeightsLoop parseLine start_line num_lines file 0 []

/-! ## Driver

Unit counts, layer counts and line numbers are the non-negative values of the
program's `int` variables and are natural numbers here; where the program adds
line numbers the sum must stay below `2^31`.  Logging (`cout`,
`logFile`, `layer_num`, `displayBackwardProp`) has no effect on the data path
and is left out. -/

/-- The write end handed to a stage process. -/
inductive Chan where
  | forward (i : Nat)
  | backward
deriving DecidableEq

/-- What a forked child runs: `inputLayerProcess(forward_pipes[pipe], ...)` or
`layerProcess(forward_pipes[read_fd][0], write_fd, ...)`, with the arguments
the driver passes. -/
inductive Stage (D : Type) where
  | input (pipe : Nat) (initial_inputs : List D) (weights : List (List D))
  | layer (read_fd : Nat) (write_fd : Chan) (num_neurons : Nat) (weights : List (List D))
      (is_output : Bool)
deriving DecidableEq

/-- The number of unit threads a stage process creates. -/
def Stage.unitCount {D : Type} : Stage D → Nat
  | Stage.input _ _ _ => 2
  | Stage.layer _ _ num_neurons _ _ => num_neurons

/-- The weight matrix a stage process is given. -/
def Stage.weightMatrix {D : Type} : Stage D → List (List D)
  | Stage.input _ _ weights => weights
  | Stage.layer _ _ _ weights _ => weights

/-- The forward pipe a stage process reads, if any. -/
def Stage.inbound {D : Type} : Stage D → Option Nat
  | Stage.input _ _ _ => none
  | Stage.layer read_fd _ _ _ _ => some read_fd

/-- The pipe a stage process writes. -/
def Stage.outbound {D : Type} : Stage D → Chan
  | Stage.input pipe _ _ => Chan.forward pipe
  | Stage.layer _ write_fd _ _ _ => write_fd

/-- The pipes of one pass: the array `forward_pipes` and `backward_pipe`. -/
structure Pipes (D : Type) where
  forward_pipes : List (Pipe D)
  backward_pipe : Pipe D

/-- The loop `for (i = 0; i < total_layers; i++) pipe(forward_pipes[i]);`. -/
def createPipes {D : Type} (total_layers : Nat) : List (Pipe D) :=
  List.replicate total_layers []

/-- The pipe behind a write end. -/
def Pipes.get {D : Type} (pipes : Pipes D) : Chan → Option (Pipe D)
  | Chan.forward i => pipes.forward_pipes[i]?
  | Chan.backward => some pipes.backward_pipe

/-- The pipes after the pipe behind a write end changed. -/
def Pipes.put {D : Type} (pipes : Pipes D) (pipe : Pipe D) : Chan → Pipes D
  | Chan.forward i => { pipes with forward_pipes := pipes.forward_pipes.set i pipe }
  | Chan.backward => { pipes with backward_pipe := pipe }

/-- The hidden-layer loop of `main` (lines 300-320 and 394-412): iteration `i`
reads `neurons_per_layer` rows at `line_offset`, advances `line_offset`, and
forks `layerProcess(forward_pipes[i][0], forward_pipes[i+1][1], ..., false, ...)`.
`k` iterations remain.  The result is the children forked and the final
`line_offset`; it is `none` when `readWeights` has no defined result or the
`int` addition `line_offset += neurons_per_layer` overflows. -/
def forkHidden {L D : Type} (parseLine : L → List D) (file : List L) (neurons_per_layer : Nat) :
    Nat → Nat → Nat → Option (List (Stage D) × Nat)
  | 0, _, line_offset => some ([], line_offset)
  | k + 1, i, line_offset =>
    match readWeights parseLine file line_offset neurons_per_layer with
    | none => none
    | some layer_weights =>
      if 2147483648 ≤ line_offset + neurons_per_layer then none
      else
        match forkHidden parseLine file neurons_per_layer k (i + 1)
            (line_offset + neurons_per_layer) with
        | none => none
        | some rest =>
          some (Stage.layer i (Chan.forward (i + 1)) neurons_per_layer layer_weights false
            :: rest.1, rest.2)

/-- What the driver holds once the children of the first pass are forked. -/
structure FirstPass (D : Type) where
  initial_inputs : List D
  input_weights : List (List D)
  output_weights : List (List D)
  stages : List (Stage D)

/-- Lines 259-341 of `main`: the initial inputs from line 0 (`getline` on an
empty file leaves the line empty, which parses to no value), the input weights
from `line_offset = 1`, the `int total_layers = 1 + num_hidden_layers + 1`, then
the children in fork order; `none` when `total_layers` or the line arithmetic
of a `readWeights` call or of the hidden-layer loop overflows. -/
def forkFirstPass {L D : Type} (parseLine : L → List D) (file : List L)
    (num_hidden_layers neurons_per_layer : Nat) : Option (FirstPass D) :=
  let initial_inputs := match file with
    | [] => []
    | line :: _ => parseLine line
  let line_offset := 1
  match readWeights parseLine file line_offset 2 with
  | none => none
  | some input_weights =>
    let line_offset := line_offset + 2
    let total_layers := 1 + num_hidden_layers + 1
    if 2147483648 ≤ total_layers then none
    else
      match forkHidden parseLine file neurons_per_layer num_hidden_layers 0 line_offset with
      | none => none
      | some hidden =>
        match readWeights parseLine file hidden.2 neurons_per_layer with
        | none => none
        | some output_weights =>
          some { initial_inputs := initial_inputs
                 input_weights := input_weights
                 output_weights := output_weights
                 stages := Stage.input 0 initial_inputs input_weights :: hidden.1 ++
                   [Stage.layer num_hidden_layers Chan.backward neurons_per_layer
                     output_weights true] }

/-- Lines 379-428 of `main`: the children of the second pass in fork order.
The input child gets `backward_values` and the `input_weights` kept from the
first pass, the hidden weights are read again from `line_offset = 3`, the
output child gets the `output_weights` kept from the first pass. -/
def forkSecondPass {L D : Type} (parseLine : L → List D) (file : List L)
    (num_hidden_layers neurons_per_layer : Nat) (backward_values : List D)
    (input_weights output_weights : List (List D)) : Option (List (Stage D)) :=
  let line_offset := 3
  match forkHidden parseLine file neurons_per_layer num_hidden_layers 0 line_offset with
  | none => none
  | some hidden =>
    some (Stage.input 0 backward_values input_weights :: hidden.1 ++
      [Stage.layer num_hidden_layers Chan.backward neurons_per_layer output_weights true])

/-- One child process from start to `exit(0)`: the pipes after it ran and the
vector it passed by reference as `backward_values` (empty on entry; the input
child has none).  `sched` is the completion order of its unit threads. -/
def runStage {D : Type} [DecidableEq D] [Zero D] [One D] [Add D] [Sub D] [Mul D] [Div D]
    [OfNat D 2] (sched : List Nat) (stage : Stage D) (pipes : Pipes D) :
    Option (Pipes D × List D) :=
  match stage with
  | Stage.input pipe initial_inputs weights =>
    match pipes.forward_pipes[pipe]? with
    | some pipe_fd =>
      match inputLayerProcess sched pipe_fd initial_inputs weights with
      | some written => some (pipes.put written (Chan.forward pipe), [])
      | none => none
    | none => none
  | Stage.layer read_fd write_fd num_neurons weights is_output =>
    match pipes.forward_pipes[read_fd]?, pipes.get write_fd with
    | some rd, some wr =>
      match layerProcess sched rd wr num_neurons weights is_output [] with
      | some (read_rest, written, backward_values) =>
        some ((pipes.put read_rest (Chan.forward read_fd)).put written write_fd, backward_values)
      | none => none
    | _, _ => none

/-- The children of one pass run in pipeline order, the order the blocking
reads impose: child `k` of the pass has thread completion order `sched k`.  The
result is the pipes once every child has exited and the by-reference vector
of the last child. -/
def runStages {D : Type} [DecidableEq D] [Zero D] [One D] [Add D] [Sub D] [Mul D] [Div D]
    [OfNat D 2] (sched : Nat → List Nat) : Nat → List (Stage D) → Pipes D → List D →
    Option (Pipes D × List D)
  | _, [], pipes, last => some (pipes, last)
  | k, stage :: rest, pipes, _ =>
    match runStage (sched k) stage pipes with
    | some (pipes', backward_values) => runStages sched (k + 1) rest pipes' backward_values
    | none => none

/-- What a run of `main` did. -/
structure MainResult (D : Type) where
  /-- The children forked in the first pass. -/
  first_stages : List (Stage D)
  /-- The pipes of the first pass after the driver's read at line 354. -/
  first_pipes : Pipes D
  /-- The vector the output child of the first pass handed to `writeToPipe`. -/
  terminal_sent : List D
  /-- The driver's `backward_values` after line 354. -/
  backward_values : List D
  /-- The children forked in the second pass. -/
  second_stages : List (Stage D)
  /-- The pipes of the second pass when the driver returns. -/
  second_pipes : Pipes D

/-- The function `main` on a readable `input.txt`: first pass, one
`readFromPipe(backward_pipe[0])` after the `waitpid` calls, then the second
pass on fresh pipes, after which `backward_pipe[0]` is closed unread. -/
def main {L D : Type} [DecidableEq D] [Zero D] [One D] [Add D] [Sub D] [Mul D] [Div D]
    [OfNat D 2] (parseLine : L → List D) (file : List L)
    (num_hidden_layers neurons_per_layer : Nat) (sched1 sched2 : Nat → List Nat) :
    Option (MainResult D) :=
  match forkFirstPass parseLine file num_hidden_layers neurons_per_layer with
  | none => none
  | some first =>
    let total_layers := 1 + num_hidden_layers + 1
    match runStages sched1 0 first.stages
        { forward_pipes := createPipes total_layers, backward_pipe := [] } [] with
    | none => none
    | some (pipes1, terminal_sent) =>
      match readFromPipe pipes1.backward_pipe with
      | none => none
      | some (backward_values, backward_rest) =>
        match forkSecondPass parseLine file num_hidden_layers neurons_per_layer
            backward_values first.input_weights first.output_weights with
        | none => none
        | some second =>
          match runStages sched2 0 second
              { forward_pipes := createPipes total_layers, backward_pipe := [] } [] with
          | none => none
          | some (pipes2, _) =>
            some { first_stages := first.stages
                   first_pipes := { pipes1 with backward_pipe := backward_rest }
                   terminal_sent := terminal_sent
                   backward_values := backward_values
                   second_stages := second
                   second_pipes := pipes2 }

/-! ## Unit tasks and channel operations of a run -/

/-- The `NeuronData` records a child builds in its creation loop when it runs
on `pipes`: over `initial_inputs` for the input child, over the vector
`readFromPipe(read_fd)` returns for a layer child. -/
def stageUnits {D : Type} [DecidableEq D] [Zero D] (stage : Stage D) (pipes : Pipes D) :
    Option (List (NeuronData D)) :=
  match stage with
  | Stage.input _ initial_inputs weights => createUnits initial_inputs weights 2 0
  | Stage.layer read_fd _ num_neurons weights _ =>
    match pipes.forward_pipes[read_fd]? with
    | some rd =>
      match readFromPipe rd with
      | some (inputs, _) => createUnits inputs weights num_neurons 0
      | none => none
    | none => none

/-- The `NeuronData` records built in one pass, child after child in pipeline
order. -/
def passUnits {D : Type} [DecidableEq D] [Zero D] [One D] [Add D] [Sub D] [Mul D] [Div D]
    [OfNat D 2] (sched : Nat → List Nat) : Nat → List (Stage D) → Pipes D →
    Option (List (NeuronData D))
  | _, [], _ => some []
  | k, stage :: rest, pipes =>
    match stageUnits stage pipes, runStage (sched k) stage pipes with
    | some units, some (pipes', _) =>
      match passUnits sched (k + 1) rest pipes' with
      | some more => some (units ++ more)
      | none => none
    | _, _ => none

/-- The `NeuronData` records built in the first and in the second pass of a
run of `main`. -/
def mainUnits {L D : Type} [DecidableEq D] [Zero D] [One D] [Add D] [Sub D] [Mul D] [Div D]
    [OfNat D 2] (parseLine : L → List D) (file : List L)
    (num_hidden_layers neurons_per_layer : Nat) (sched1 sched2 : Nat → List Nat) :
    Option (List (NeuronData D) × List (NeuronData D)) :=
  match forkFirstPass parseLine file num_hidden_layers neurons_per_layer with
  | none => none
  | some first =>
    let total_layers := 1 + num_hidden_layers + 1
    match passUnits sched1 0 first.stages
        { forward_pipes := createPipes total_layers, backward_pipe := [] },
      runStages sched1 0 first.stages
        { forward_pipes := createPipes total_layers, backward_pipe := [] } [] with
    | some units1, some (pipes1, _) =>
      match readFromPipe pipes1.backward_pipe with
      | some (backward_values, _) =>
        match forkSecondPass parseLine file num_hidden_layers neurons_per_layer backward_values
            first.input_weights first.output_weights with
        | some second =>
          match passUnits sched2 0 second
              { forward_pipes := createPipes total_layers, backward_pipe := [] } with
          | some units2 => some (units1, units2)
          | none => none
        | none => none
      | none => none
    | _, _ => none

/-- A call of `readFromPipe` or of `writeToPipe` on a pipe. -/
inductive ChanOp where
  | read (chan : Chan)
  | write (chan : Chan)
deriving DecidableEq

/-- The pipe calls of a child, in program order: `inputLayerProcess` calls
`writeToPipe` once; `layerProcess` calls `readFromPipe` once and then, in
either branch on `is_output`, `writeToPipe` once. -/
def Stage.ops {D : Type} : Stage D → List ChanOp
  | Stage.input pipe _ _ => [ChanOp.write (Chan.forward pipe)]
  | Stage.layer read_fd write_fd _ _ _ => [ChanOp.read (Chan.forward read_fd), ChanOp.write write_fd]

/-- The pipe calls of the first pass: those of its children and, after the
`waitpid` calls, the driver's `readFromPipe(backward_pipe[0])` (line 354). -/
def firstPassOps {D : Type} (stages : List (Stage D)) : List ChanOp :=
  stages.flatMap Stage.ops ++ [ChanOp.read Chan.backward]

/-- The pipe calls of the second pass: those of its children; after the waits
the driver calls `close(backward_pipe[0])` (line 440) and no `readFromPipe`. -/
def secondPassOps {D : Type} (stages : List (Stage D)) : List ChanOp :=
  stages.flatMap Stage.ops

/-! ## Concurrent stage processes

The children of a pass are forked together and run concurrently.  A child
touches only its own memory, the pipe it reads and the pipe it writes, and it
is the only reader of the one and the only writer of the other: what the other
processes can change for it is when it may go on (a `read` on an empty pipe
blocks) and how much of a message its `read` finds in the pipe.  A scheduling
is therefore a sequence of turns, each giving one child the processor until it
exits or blocks, together with a transport that decides in which pieces a
written message reaches the reader. -/

/-- The children of a pass that have exited, and the pipes. -/
structure RunState (D : Type) where
  pipes : Pipes D
  exited : List Nat

/-- A child sleeping in the first `read` of `readFromPipe`: its inbound pipe
holds no byte yet.  The input child reads no pipe. -/
def Stage.blocked {D : Type} (stage : Stage D) (pipes : Pipes D) : Bool :=
  match stage with
  | Stage.input _ _ _ => false
  | Stage.layer read_fd _ _ _ _ =>
    match pipes.forward_pipes[read_fd]? with
    | some [] => true
    | _ => false

/-- A transport that hands every written block to the reader whole. -/
def wholeDelivery {D : Type} (pipe : Pipe D) : Pipe D := pipe

/-- A transport with a buffer of `capacity` bytes: a written block of more
than `capacity` bytes reaches the reader in two pieces, the first of `capacity`
bytes. -/
def pipeBuffer {D : Type} (capacity : Nat) (pipe : Pipe D) : Pipe D :=
  pipe.flatMap fun block =>
    if block.length ≤ capacity then [block] else [block.take capacity, block.drop capacity]

/-- One turn of the scheduler for child `k` of the pass: nothing happens when
the child has exited or sleeps in its `read`; otherwise it runs to its
`exit(0)`, and what it wrote reaches its reader as `transport` delivers it. -/
def scheduleTurn {D : Type} [DecidableEq D] [Zero D] [One D] [Add D] [Sub D] [Mul D] [Div D]
    [OfNat D 2] (transport : Pipe D → Pipe D) (sched : Nat → List Nat) (stages : List (Stage D))
    (state : RunState D) (k : Nat) : Option (RunState D) :=
  if k ∈ state.exited then some state
  else
    match stages[k]? with
    | none => some state
    | some stage =>
      if stage.blocked state.pipes then some state
      else
        match runStage (sched k) stage state.pipes with
        | none => none
        | some (pipes', _) =>
          match pipes'.get stage.outbound with
          | some written =>
            some { pipes := pipes'.put (transport written) stage.outbound,
                   exited := k :: state.exited }
          | none => none

/-- The turns `order` of the scheduler, one after the other. -/
def runSchedule {D : Type} [DecidableEq D] [Zero D] [One D] [Add D] [Sub D] [Mul D] [Div D]
    [OfNat D 2] (transport : Pipe D → Pipe D) (sched : Nat → List Nat) (stages : List (Stage D)) :
    List Nat → RunState D → Option (RunState D)
  | [], state => some state
  | k :: rest, state =>
    match scheduleTurn transport sched stages state k with
    | some state' => runSchedule transport sched stages rest state'
    | none => none

/-! ## Sequential evaluation, in the specification's words -/

/-- The map `L_k`: the dot products of `x` with the rows of a weight matrix. -/
def layerMap {D : Type} [Zero D] [Add D] [Mul D] (weights : List (List D)) (x : List D) : List D :=
  weights.map fun row => dotProduct x row

/-- The vector `L_k(... L_1(L_0(x)) ...)`, `weight k` being the weight matrix of
stage `k`. -/
def afterStage {D : Type} [Zero D] [Add D] [Mul D] (weight : Nat → List (List D)) (x : List D) :
    Nat → List D
  | 0 => layerMap (weight 0) x
  | k + 1 => layerMap (weight (k + 1)) (afterStage weight x k)

/-- The vector `T(L_{H+1}(L_H(... L_0(x) ...)))`, `T` being the terminal
transform. -/
def sequentialEval {D : Type} [Zero D] [One D] [Add D] [Sub D] [Mul D] [Div D] [OfNat D 2]
    (weight : Nat → List (List D)) (x : List D) (num_hidden_layers : Nat) : List D :=
  backwardOf (outputSum (afterStage weight x (num_hidden_layers + 1)))

/-- The weight matrix of stage `k` in the specification's words: the parses of
the file lines 1..2 for the input stage, of the `neurons_per_layer` lines from
line `3 + (k-1) * neurons_per_layer` for stage `k ≥ 1`, as far as the file has
these lines. -/
def stageWeights {L D : Type} (parseLine : L → List D) (file : List L) (neurons_per_layer : Nat) :
    Nat → List (List D)
  | 0 => ((file.drop 1).take 2).map parseLine
  | j + 1 =>
    ((file.drop (3 + j * neurons_per_layer)).take neurons_per_layer).map parseLine

/-- The children of a pass over `x` in fork order, stage `k` with the weight
matrix `weight k`: the input child, then the layer children `1..H+1`, child
`j + 1` reading forward pipe `j` and writing forward pipe `j + 1`, the last one
the backward pipe. -/
def pipelineStages {D : Type} (weight : Nat → List (List D)) (x : List D)
    (num_hidden_layers neurons_per_layer : Nat) : List (Stage D) :=
  Stage.input 0 x (weight 0) :: (List.range (num_hidden_layers + 1)).map fun j =>
    Stage.layer j (if j = num_hidden_layers then Chan.backward else Chan.forward (j + 1))
      neurons_per_layer (weight (j + 1)) (decide (j = num_hidden_layers))

/-- The pipes of a pass once its first `j` children have exited, every message
delivered whole: the message of child `j - 1` waits in forward pipe `j - 1`, or,
after the last child, the backward message in the backward pipe. -/
def pipesAfter {D : Type} [Zero D] [One D] [Add D] [Sub D] [Mul D] [Div D] [OfNat D 2]
    (weight : Nat → List (List D)) (x : List D) (num_hidden_layers j : Nat) : Pipes D :=
  { forward_pipes :=
      if 1 ≤ j ∧ j ≤ num_hidden_layers + 1 then
        (createPipes (1 + num_hidden_layers + 1)).set (j - 1)
          (writeToPipe [] (afterStage weight x (j - 1)))
      else createPipes (1 + num_hidden_layers + 1)
    backward_pipe :=
      if num_hidden_layers + 2 ≤ j then writeToPipe [] (sequentialEval weight x num_hidden_layers)
      else [] }

/-- The vector stage `k` of a pass over `x` receives in the sequential
evaluation. -/
def stageInput {D : Type} [Zero D] [Add D] [Mul D] (weight : Nat → List (List D)) (x : List D) :
    Nat → List D
  | 0 => x
  | k + 1 => afterStage weight x k

/-- The weight matrices are well-formed for a pass over an input vector of
length `m`: two rows of length `m` for the input stage, `neurons_per_layer`
rows for every later stage, of length 2 for the stage after the input stage
and of length `neurons_per_layer` for the stages after it. -/
def WellFormed {D : Type} (weight : Nat → List (List D)) (m num_hidden_layers
    neurons_per_layer : Nat) : Prop :=
  neurons_per_layer < 2147483648
    ∧ (weight 0).length = 2
    ∧ (∀ k, 1 ≤ k → k ≤ num_hidden_layers + 1 → (weight k).length = neurons_per_layer)
    ∧ (∀ row ∈ weight 0, row.length = m)
    ∧ (∀ row ∈ weight 1, row.length = 2)
    ∧ (∀ k, 2 ≤ k → k ≤ num_hidden_layers + 1 → ∀ row ∈ weight k,
        row.length = neurons_per_layer)

/-- The weight matrices of a pass over `x` fit its stages: fewer than `2^31`
units per layer, two rows for the input stage and `neurons_per_layer` rows for
every later stage, and no row shorter than the vector its stage receives (`x`
for the input stage, the two input-stage outputs for stage 1, the
`neurons_per_layer` outputs of the stage before for every later stage). -/
def WellSized {D : Type} (weight : Nat → List (List D)) (x : List D)
    (num_hidden_layers neurons_per_layer : Nat) : Prop :=
  neurons_per_layer < 2147483648
    ∧ (weight 0).length = 2
    ∧ (∀ k, 1 ≤ k → k ≤ num_hidden_layers + 1 → (weight k).length = neurons_per_layer)
    ∧ (∀ row ∈ weight 0, x.length ≤ row.length)
    ∧ (∀ row ∈ weight 1, 2 ≤ row.length)
    ∧ (∀ k, 2 ≤ k → k ≤ num_hidden_layers + 1 → ∀ row ∈ weight k, neurons_per_layer ≤ row.length)

/-- In every child of a pass each unit thread completes exactly once: `sched k`
is an ordering of the unit indices of child `k`. -/
def ThreadOrders (sched : Nat → List Nat) (num_hidden_layers neurons_per_layer : Nat) : Prop :=
  (sched 0).Perm (List.range 2)
    ∧ ∀ k, 1 ≤ k → k ≤ num_hidden_layers + 1 → (sched k).Perm (List.range neurons_per_layer)

/-! ## Theorems -/

section UnitTask

variable {D : Type} [Add D] [Mul D]

theorem neuronLoop_append (pre_x pre_w xs ws : List D) (hpre : pre_x.length = pre_w.length)
    (hlen : xs.length ≤ ws.length) (sum : D) :
    neuronLoop (pre_x ++ xs) (pre_w ++ ws) xs.length pre_x.length sum
      = some ((List.zipWith (fun x w => x * w) xs ws).foldl (fun s p => s + p) sum) := by
  induction xs generalizing pre_x pre_w ws sum with
  | nil => simp [neuronLoop]
  | cons x xs ih =>
    cases ws with
    | nil => simp at hlen
    | cons w ws =>
      have hx : (pre_x ++ x :: xs)[pre_x.length]? = some x := by
        rw [List.getElem?_append_right (le_refl _)]; simp
      have hw : (pre_w ++ w :: ws)[pre_x.length]? = some w := by
        rw [hpre, List.getElem?_append_right (le_refl _)]; simp
      have h := ih (pre_x ++ [x]) (pre_w ++ [w]) ws (by simp [hpre])
        (by simpa using hlen) (sum + x * w)
      simp only [List.length_cons, neuronLoop, hx, hw]
      simpa using h

theorem neuronLoop_short (pre_x pre_w xs ws : List D) (hpre : pre_x.length = pre_w.length)
    (hlen : ws.length < xs.length) (sum : D) :
    neuronLoop (pre_x ++ xs) (pre_w ++ ws) xs.length pre_x.length sum = none := by
  induction xs generalizing pre_x pre_w ws sum with
  | nil => simp at hlen
  | cons x xs ih =>
    have hx : (pre_x ++ x :: xs)[pre_x.length]? = some x := by
      rw [List.getElem?_append_right (le_refl _)]; simp
    cases ws with
    | nil =>
      have hw : (pre_w ++ ([] : List D))[pre_x.length]? = none := by simp [hpre]
      simp only [List.length_cons, neuronLoop, hx, hw]
    | cons w ws =>
      have hw : (pre_w ++ w :: ws)[pre_x.length]? = some w := by
        rw [hpre, List.getElem?_append_right (le_refl _)]; simp
      have h := ih (pre_x ++ [x]) (pre_w ++ [w]) ws (by simp [hpre])
        (by simpa using hlen) (sum + x * w)
      simp only [List.length_cons, neuronLoop, hx, hw]
      simpa using h

variable [Zero D]

theorem neuron_compute_of_le (data : NeuronData D)
    (hlen : data.inputs.length ≤ data.weights.length) :
    neuron_compute data
      = some { data with output := dotProduct data.inputs data.weights } := by
  have h := neuronLoop_append [] [] data.inputs data.weights rfl hlen 0
  simp only [List.nil_append, List.length_nil] at h
  simp [neuron_compute, h, dotProduct]

theorem neuron_compute_of_lt (data : NeuronData D)
    (hlen : data.weights.length < data.inputs.length) : neuron_compute data = none := by
  have h := neuronLoop_short [] [] data.inputs data.weights rfl hlen 0
  simp only [List.nil_append, List.length_nil] at h
  simp [neuron_compute, h]

theorem dotProduct_take (inputs weights : List D) :
    dotProduct inputs (weights.take inputs.length) = dotProduct inputs weights := by
  unfold dotProduct
  congr 1
  induction inputs generalizing weights with
  | nil => simp
  | cons x xs ih =>
    cases weights with
    | nil => simp
    | cons w ws => simp [ih]

end UnitTask

section StageWorker

variable {D : Type} [Zero D]

theorem createUnits_spec (inputs : List D) (weights : List (List D)) (k i : Nat)
    (h : i + k ≤ weights.length) :
    ∃ units, createUnits inputs weights k i = some units
      ∧ units.map (fun u => u.weights) = (weights.drop i).take k
      ∧ ∀ u ∈ units, u.inputs = inputs := by
  induction k generalizing i with
  | zero => exact ⟨[], by simp [createUnits]⟩
  | succ k ih =>
    have hi : i < weights.length := by omega
    obtain ⟨rest, hrest, hw, hin⟩ := ih (i + 1) (by omega)
    refine ⟨{ inputs := inputs, weights := weights[i], output := 0, neuron_id := i } :: rest,
      ?_, ?_, ?_⟩
    · simp [createUnits, List.getElem?_eq_getElem hi, hrest]
    · rw [List.map_cons, hw, List.drop_eq_getElem_cons hi, List.take_succ_cons]
    · intro u hu
      rcases List.mem_cons.1 hu with rfl | hu
      · rfl
      · exact hin u hu

theorem createUnits_length (inputs : List D) (weights : List (List D)) (k i : Nat)
    (units : List (NeuronData D)) (h : createUnits inputs weights k i = some units) :
    units.length = k := by
  induction k generalizing i units with
  | zero => simp [createUnits] at h; simp [← h]
  | succ k ih =>
    simp only [createUnits] at h
    split at h
    · split at h
      · rename_i rest hrest
        simp only [Option.some.injEq] at h
        simp [← h, ih (i + 1) rest hrest]
      · simp at h
    · simp at h

variable [Add D] [Mul D]

theorem runThreads_spec (sched : List Nat) (units : List (NeuronData D))
    (hnodup : sched.Nodup) (hbound : ∀ t ∈ sched, t < units.length)
    (hsize : ∀ u ∈ units, u.inputs.length ≤ u.weights.length) :
    ∃ done, runThreads sched units = some done
      ∧ ∀ i, done[i]? = if i ∈ sched then (units[i]?).map computed else units[i]? := by
  induction sched generalizing units with
  | nil => exact ⟨units, by simp [runThreads]⟩
  | cons t rest ih =>
    have ht : t < units.length := hbound t (List.mem_cons_self _ _)
    have hu : units[t]? = some units[t] := List.getElem?_eq_getElem ht
    have hc := neuron_compute_of_le units[t] (hsize _ (List.getElem_mem ht))
    obtain ⟨hnot, hnodup'⟩ := List.nodup_cons.1 hnodup
    have hsize' : ∀ u ∈ units.set t (computed units[t]), u.inputs.length ≤ u.weights.length := by
      intro u hmem
      rcases List.mem_or_eq_of_mem_set hmem with hmem | rfl
      · exact hsize u hmem
      · exact hsize units[t] (List.getElem_mem ht)
    obtain ⟨done, hrun, hdone⟩ := ih (units.set t (computed units[t])) hnodup'
      (by intro s hs; simpa using hbound s (List.mem_cons_of_mem _ hs)) hsize'
    refine ⟨done, ?_, ?_⟩
    · simp only [runThreads, hu, hc]
      exact hrun
    · intro i
      rw [hdone i]
      by_cases hit : i = t
      · subst hit
        simp [hnot, hu, List.getElem?_set, ht]
      · have hti : ¬ t = i := fun h => hit h.symm
        simp [List.mem_cons, hit, List.getElem?_set, hti]

theorem runThreads_perm (sched : List Nat) (units : List (NeuronData D))
    (hperm : sched.Perm (List.range units.length))
    (hsize : ∀ u ∈ units, u.inputs.length ≤ u.weights.length) :
    runThreads sched units = some (units.map computed) := by
  have hmem : ∀ t, t ∈ sched ↔ t < units.length := by
    intro t; rw [hperm.mem_iff, List.mem_range]
  obtain ⟨done, hrun, hdone⟩ := runThreads_spec sched units
    (hperm.nodup_iff.2 (List.nodup_range _)) (fun t ht => (hmem t).1 ht) hsize
  rw [hrun]
  congr 1
  apply List.ext_getElem?
  intro i
  rw [hdone i, List.getElem?_map]
  by_cases hi : i < units.length
  · simp [(hmem i).2 hi]
  · have hnone : units[i]? = none := List.getElem?_eq_none (by omega)
    simp [hnone]

theorem stageOutputs_eq (sched : List Nat) (inputs : List D) (weights : List (List D))
    (hperm : sched.Perm (List.range weights.length))
    (hrows : ∀ row ∈ weights, inputs.length ≤ row.length) :
    stageOutputs sched inputs weights weights.length
      = some (weights.map fun row => dotProduct inputs row) := by
  obtain ⟨units, hcreate, hw, hin⟩ := createUnits_spec inputs weights weights.length 0 (by simp)
  have hlen : units.length = weights.length := createUnits_length _ _ _ _ _ hcreate
  simp only [List.drop_zero, List.take_length] at hw
  have hsize : ∀ u ∈ units, u.inputs.length ≤ u.weights.length := by
    intro u hu
    rw [hin u hu]
    exact hrows _ (by rw [← hw]; exact List.mem_map_of_mem _ hu)
  have hrun := runThreads_perm sched units (by rw [hlen]; exact hperm) hsize
  simp only [stageOutputs, hcreate, hrun, collectOutputs, Option.some.injEq]
  rw [← hw, List.map_map, List.map_map]
  apply List.map_congr_left
  intro u hu
  simp [computed, hin u hu]

end StageWorker

section Transport

variable {D : Type}

theorem toInt32_of_lt (n : Nat) (h : n < 2147483648) : toInt32 n = (n : Int) := by
  have hmod : n % 4294967296 = n := Nat.mod_eq_of_lt (by omega)
  simp [toInt32, hmod, h]

theorem decodeInt_encodeInt (v : Int) (hlo : -2147483648 ≤ v) (hhi : v < 2147483648) :
    decodeInt (encodeInt v : List (MemByte D)) = some v := by
  have hnn : 0 ≤ v % 4294967296 := Int.emod_nonneg _ (by norm_num)
  have hlt : v % 4294967296 < 4294967296 := Int.emod_lt_of_pos _ (by norm_num)
  obtain ⟨u, hu⟩ := Int.eq_ofNat_of_zero_le hnn
  have hsum : u % 256 + 256 * (u / 256 % 256) + 65536 * (u / 65536 % 256)
      + 16777216 * (u / 16777216 % 256) = u := by omega
  simp only [encodeInt, decodeInt, hu, Int.toNat_ofNat, hsum, Option.some.injEq]
  split <;> omega

theorem encodeInt_length (v : Int) : (encodeInt v : List (MemByte D)).length = 4 := rfl

theorem doubleBytes_length (d : D) : (doubleBytes d).length = 8 := rfl

theorem doubleBytes_eq (d : D) :
    doubleBytes d = [MemByte.frag d 0, MemByte.frag d 1, MemByte.frag d 2, MemByte.frag d 3,
      MemByte.frag d 4, MemByte.frag d 5, MemByte.frag d 6, MemByte.frag d 7] := rfl

theorem flatMap_doubleBytes_length (data : List D) :
    (data.flatMap doubleBytes).length = 8 * data.length := by
  induction data with
  | nil => rfl
  | cons d ds ih => simp [List.flatMap_cons, doubleBytes_length, ih]; omega

theorem writeToPipe_of_nonpos (pipe : Pipe D) (data : List D) (h : toInt32 data.length ≤ 0) :
    writeToPipe pipe data = pipe ++ [encodeInt (toInt32 data.length)] := by
  have hn : ¬ toInt32 data.length > 0 := by omega
  simp only [writeToPipe, hn, if_false, sysWrite]

theorem writeToPipe_nil (pipe : Pipe D) : writeToPipe pipe [] = pipe ++ [encodeInt 0] := by
  simp [writeToPipe, toInt32, sysWrite]

theorem writeToPipe_cons (pipe : Pipe D) (d : D) (ds : List D)
    (h : (d :: ds).length < 2147483648) :
    writeToPipe pipe (d :: ds)
      = pipe ++ [encodeInt ((d :: ds).length : Int), (d :: ds).flatMap doubleBytes] := by
  have hpos : (0 : Int) < ((d :: ds).length : Int) := by simp
  simp only [writeToPipe, toInt32_of_lt _ h, sysWrite, hpos, gt_iff_lt, if_true,
    Int.toNat_ofNat, List.take_length, List.append_assoc, List.singleton_append]

theorem writeToPipe_bytes (data : List D) (h : data.length < 2147483648) :
    (writeToPipe ([] : Pipe D) data).flatten.length = 4 + 8 * data.length := by
  cases data with
  | nil => simp [writeToPipe_nil, encodeInt_length]
  | cons d ds =>
    rw [writeToPipe_cons [] d ds h]
    simp only [List.nil_append, List.flatten_cons, List.flatten_nil,
      List.append_nil, List.length_append, encodeInt_length, flatMap_doubleBytes_length]

variable [DecidableEq D] [Zero D]

theorem decodeDouble_doubleBytes (d : D) : decodeDouble (doubleBytes d) = some d := by
  simp [decodeDouble, doubleBytes_eq, List.replicate]

theorem decodeDoubles_flatMap (data : List D) (tail : List (MemByte D)) :
    decodeDoubles data.length (data.flatMap doubleBytes ++ tail) = some data := by
  induction data with
  | nil => simp [decodeDoubles]
  | cons d ds ih =>
    have htake : List.take 8 (doubleBytes d ++ (ds.flatMap doubleBytes ++ tail)) = doubleBytes d :=
      List.take_left' (doubleBytes_length d)
    have hdrop : List.drop 8 (doubleBytes d ++ (ds.flatMap doubleBytes ++ tail))
        = ds.flatMap doubleBytes ++ tail := List.drop_left' (doubleBytes_length d)
    simp only [List.length_cons, List.flatMap_cons, List.append_assoc, decodeDoubles, htake,
      hdrop, decodeDouble_doubleBytes, ih]

theorem readFromPipe_writeToPipe (data : List D) (rest : Pipe D)
    (h : data.length < 2147483648) :
    readFromPipe (writeToPipe [] data ++ rest) = some (data, rest) := by
  cases data with
  | nil =>
    have hdec : decodeInt (encodeInt 0 : List (MemByte D)) = some 0 := rfl
    simp [writeToPipe_nil, readFromPipe, sysRead, encodeInt_length, hdec]
  | cons d ds =>
    rw [writeToPipe_cons [] d ds h]
    have hlen : ((d :: ds).length : Int) < 2147483648 := by exact_mod_cast h
    have hdec := decodeInt_encodeInt (D := D) ((d :: ds).length : Int) (by omega) hlen
    have hpos : (0 : Int) < ((d :: ds).length : Int) := by simp
    have hneg : ¬ ((d :: ds).length : Int) < 0 := by omega
    have hbytes : ((d :: ds).flatMap doubleBytes).length ≤ (d :: ds).length * 8 := by
      rw [flatMap_doubleBytes_length]; omega
    have hdd := decodeDoubles_flatMap (d :: ds)
      (List.replicate ((d :: ds).length * 8 - ((d :: ds).flatMap doubleBytes).length)
        (MemByte.raw 0))
    simp only [List.nil_append, List.cons_append, readFromPipe, sysRead,
      encodeInt_length, le_refl, if_true, hdec, hneg, hpos, gt_iff_lt, Int.toNat_ofNat, hbytes,
      hdd, if_false]

end Transport

section Weights

variable {L D : Type}

theorem window_cons (parseLine : L → List D) (start_line num_lines : Nat) (line : L)
    (rest : List L) (current_line : Nat) (weights : List (List D)) :
    weights ++ ((((line :: rest).drop (start_line - current_line)).take
        (start_line + num_lines - max start_line current_line)).map parseLine)
      = (if start_line ≤ current_line ∧ current_line < start_line + num_lines then
          weights ++ [parseLine line] else weights)
        ++ (((rest.drop (start_line - (current_line + 1))).take
          (start_line + num_lines - max start_line (current_line + 1))).map parseLine) := by
  by_cases h1 : start_line ≤ current_line
  · by_cases h2 : current_line < start_line + num_lines
    · have e1 : start_line - current_line = 0 := by omega
      have e2 : start_line - (current_line + 1) = 0 := by omega
      have e3 : start_line + num_lines - max start_line current_line
          = (start_line + num_lines - max start_line (current_line + 1)) + 1 := by
        rw [max_eq_right h1, max_eq_right (by omega)]; omega
      simp only [h1, h2, and_self, if_true, e1, e2, e3, List.drop_zero,
        List.take_succ_cons, List.map_cons, List.append_assoc, List.singleton_append]
    · have e1 : start_line + num_lines - max start_line current_line = 0 := by
        rw [max_eq_right h1]; omega
      have e2 : start_line + num_lines - max start_line (current_line + 1) = 0 := by
        rw [max_eq_right (by omega)]; omega
      simp only [h2, and_false, if_false, e1, e2, List.take_zero, List.map_nil]
  · have h3 : ¬ (start_line ≤ current_line ∧ current_line < start_line + num_lines) :=
      fun h => h1 h.1
    have e1 : start_line - current_line = (start_line - (current_line + 1)) + 1 := by omega
    have e2 : max start_line (current_line + 1) = max start_line current_line := by
      rw [max_eq_left (by omega), max_eq_left (by omega)]
    simp only [h3, if_false, e1, e2, List.drop_succ_cons]

theorem readWeightsLoop_some (parseLine : L → List D) (start_line num_lines : Nat)
    (file : List L) (current_line : Nat) (weights w : List (List D))
    (h : readWeightsLoop parseLine start_line num_lines file current_line weights = some w) :
    w = weights ++ (((file.drop (start_line - current_line)).take
          (start_line + num_lines - max start_line current_line)).map parseLine) := by
  induction file generalizing current_line weights with
  | nil =>
    simp only [readWeightsLoop, Option.some.injEq] at h
    simp [h]
  | cons line rest ih =>
    rw [window_cons]
    by_cases g1 : start_line ≤ current_line ∧ 2147483648 ≤ start_line + num_lines
    · rw [readWeightsLoop, if_pos g1] at h
      exact absurd h (by simp)
    · by_cases g2 : 2147483648 ≤ current_line + 1
      · rw [readWeightsLoop, if_neg g1, if_pos g2] at h
        exact absurd h (by simp)
      · by_cases g3 : start_line ≤ current_line ∧ current_line < start_line + num_lines
        · rw [readWeightsLoop, if_neg g1, if_neg g2, if_pos g3] at h
          rw [if_pos g3]
          exact ih _ _ h
        · rw [readWeightsLoop, if_neg g1, if_neg g2, if_neg g3] at h
          rw [if_neg g3]
          exact ih _ _ h

theorem readWeightsLoop_eq (parseLine : L → List D) (start_line num_lines : Nat) (file : List L)
    (current_line : Nat) (weights : List (List D))
    (hfile : current_line + file.length < 2147483648)
    (hsum : start_line + num_lines < 2147483648) :
    readWeightsLoop parseLine start_line num_lines file current_line weights
      = some (weights ++ (((file.drop (start_line - current_line)).take
          (start_line + num_lines - max start_line current_line)).map parseLine)) := by
  induction file generalizing current_line weights with
  | nil => simp [readWeightsLoop]
  | cons line rest ih =>
    rw [window_cons]
    rw [List.length_cons] at hfile
    have g1 : ¬ (start_line ≤ current_line ∧ 2147483648 ≤ start_line + num_lines) := by omega
    have g2 : ¬ (2147483648 ≤ current_line + 1) := by omega
    by_cases g3 : start_line ≤ current_line ∧ current_line < start_line + num_lines
    · rw [readWeightsLoop, if_neg g1, if_neg g2, if_pos g3, if_pos g3]
      exact ih (current_line + 1) _ (by omega)
    · rw [readWeightsLoop, if_neg g1, if_neg g2, if_neg g3, if_neg g3]
      exact ih (current_line + 1) _ (by omega)

theorem readWeightsLoop_overflow (parseLine : L → List D) (start_line num_lines : Nat)
    (file : List L) (current_line : Nat) (weights : List (List D))
    (hpos : 0 < file.length) (hline : start_line < current_line + file.length)
    (hsum : 2147483648 ≤ start_line + num_lines) :
    readWeightsLoop parseLine start_line num_lines file current_line weights = none := by
  induction file generalizing current_line weights with
  | nil => simp at hpos
  | cons line rest ih =>
    rw [List.length_cons] at hline
    by_cases h1 : start_line ≤ current_line
    · have g1 : start_line ≤ current_line ∧ 2147483648 ≤ start_line + num_lines := ⟨h1, hsum⟩
      rw [readWeightsLoop, if_pos g1]
    · have g1 : ¬ (start_line ≤ current_line ∧ 2147483648 ≤ start_line + num_lines) :=
        fun h => h1 h.1
      have g3 : ¬ (start_line ≤ current_line ∧ current_line < start_line + num_lines) :=
        fun h => h1 h.1
      by_cases g2 : 2147483648 ≤ current_line + 1
      · rw [readWeightsLoop, if_neg g1, if_pos g2]
      · rw [readWeightsLoop, if_neg g1, if_neg g2, if_neg g3]
        exact ih (current_line + 1) _ (by omega) (by omega)

theorem readWeights_some (parseLine : L → List D) (file : List L) (start_line num_lines : Nat)
    (w : List (List D)) (h : readWeights parseLine file start_line num_lines = some w) :
    w = ((file.drop start_line).take num_lines).map parseLine := by
  have hw := readWeightsLoop_some parseLine start_line num_lines file 0 [] w h
  simpa using hw

theorem readWeights_eq (parseLine : L → List D) (file : List L) (start_line num_lines : Nat)
    (hfile : file.length < 2147483648) (hsum : start_line + num_lines < 2147483648) :
    readWeights parseLine file start_line num_lines
      = some (((file.drop start_line).take num_lines).map parseLine) := by
  have hw := readWeightsLoop_eq parseLine start_line num_lines file 0 [] (by omega) hsum
  simpa [readWeights] using hw

theorem readWeights_overflow (parseLine : L → List D) (file : List L)
    (start_line num_lines : Nat) (hline : start_line < file.length)
    (hsum : 2147483648 ≤ start_line + num_lines) :
    readWeights parseLine file start_line num_lines = none :=
  readWeightsLoop_overflow parseLine start_line num_lines file 0 [] (by omega) (by omega) hsum

theorem forkHidden_some (parseLine : L → List D) (file : List L) (n k i line_offset : Nat)
    (hidden : List (Stage D) × Nat)
    (h : forkHidden parseLine file n k i line_offset = some hidden) :
    hidden = ((List.range k).map fun j =>
          Stage.layer (i + j) (Chan.forward (i + j + 1)) n
            (((file.drop (line_offset + j * n)).take n).map parseLine) false,
         line_offset + k * n) := by
  induction k generalizing i line_offset hidden with
  | zero =>
    simp only [forkHidden, Option.some.injEq] at h
    simp [← h]
  | succ k ih =>
    rw [forkHidden] at h
    cases hw : readWeights parseLine file line_offset n with
    | none => simp [hw] at h
    | some layer_weights =>
      simp only [hw] at h
      by_cases g : 2147483648 ≤ line_offset + n
      · simp [g] at h
      · simp only [g, if_false] at h
        cases hrest : forkHidden parseLine file n k (i + 1) (line_offset + n) with
        | none => simp [hrest] at h
        | some rest =>
          simp only [hrest, Option.some.injEq] at h
          rw [← h, ih _ _ _ hrest, readWeights_some _ _ _ _ _ hw]
          simp only [List.range_succ_eq_map, List.map_cons, List.map_map,
            Nat.add_zero, Nat.zero_mul, Prod.mk.injEq, List.cons.injEq, true_and]
          constructor
          · apply List.map_congr_left
            intro j _
            simp only [Function.comp_apply, Nat.succ_eq_add_one]
            have e1 : i + 1 + j = i + (j + 1) := by omega
            have e2 : line_offset + n + j * n = line_offset + (j + 1) * n := by
              rw [Nat.add_mul]; omega
            rw [e1, e2]
          · rw [Nat.add_mul]; omega

theorem forkHidden_eq (parseLine : L → List D) (file : List L) (n k i line_offset : Nat)
    (hfile : file.length < 2147483648) (hoff : line_offset + k * n < 2147483648) :
    forkHidden parseLine file n k i line_offset
      = some ((List.range k).map fun j =>
          Stage.layer (i + j) (Chan.forward (i + j + 1)) n
            (((file.drop (line_offset + j * n)).take n).map parseLine) false,
         line_offset + k * n) := by
  have hdef : ∃ hidden, forkHidden parseLine file n k i line_offset = some hidden := by
    induction k generalizing i line_offset with
    | zero => exact ⟨_, rfl⟩
    | succ k ih =>
      have hmul : (k + 1) * n = k * n + n := by rw [Nat.add_mul]; omega
      have g : ¬ (2147483648 ≤ line_offset + n) := by
        have := Nat.zero_le (k * n)
        omega
      obtain ⟨rest, hrest⟩ := ih (i + 1) (line_offset + n) (by omega)
      rw [forkHidden, readWeights_eq parseLine file line_offset n hfile (by omega)]
      simp only [g, if_false, hrest]
      exact ⟨_, rfl⟩
  obtain ⟨hidden, hh⟩ := hdef
  rw [hh, forkHidden_some parseLine file n k i line_offset hidden hh]

theorem forkFirstPass_some (parseLine : L → List D) (file : List L) (h n : Nat)
    (first : FirstPass D) (hfirst : forkFirstPass parseLine file h n = some first) :
    ∃ hidden, forkHidden parseLine file n h 0 3 = some hidden
      ∧ readWeights parseLine file 1 2 = some first.input_weights
      ∧ readWeights parseLine file hidden.2 n = some first.output_weights
      ∧ first.initial_inputs = (file.head?.map parseLine).getD []
      ∧ first.stages = Stage.input 0 first.initial_inputs first.input_weights :: hidden.1 ++
          [Stage.layer h Chan.backward n first.output_weights true] := by
  simp only [forkFirstPass] at hfirst
  cases hiw : readWeights parseLine file 1 2 with
  | none => simp [hiw] at hfirst
  | some iw =>
    simp only [hiw] at hfirst
    by_cases hlayers : 2147483648 ≤ 1 + h + 1
    · simp [hlayers] at hfirst
    · simp only [hlayers, if_false] at hfirst
      cases hhid : forkHidden parseLine file n h 0 (1 + 2) with
      | none => simp [hhid] at hfirst
      | some hidden =>
        simp only [hhid] at hfirst
        cases how : readWeights parseLine file hidden.2 n with
        | none => simp [how] at hfirst
        | some ow =>
          simp only [how, Option.some.injEq] at hfirst
          subst hfirst
          refine ⟨hidden, rfl, rfl, how, ?_, rfl⟩
          cases file <;> rfl

theorem forkFirstPass_layers (parseLine : L → List D) (file : List L) (h n : Nat)
    (first : FirstPass D) (hfirst : forkFirstPass parseLine file h n = some first) :
    1 + h + 1 < 2147483648 := by
  simp only [forkFirstPass] at hfirst
  cases hiw : readWeights parseLine file 1 2 with
  | none => simp [hiw] at hfirst
  | some iw =>
    simp only [hiw] at hfirst
    by_cases hlayers : 2147483648 ≤ 1 + h + 1
    · simp [hlayers] at hfirst
    · omega

theorem forkSecondPass_some (parseLine : L → List D) (file : List L) (h n : Nat)
    (hidden : List (Stage D) × Nat) (hhid : forkHidden parseLine file n h 0 3 = some hidden)
    (backward_values : List D) (input_weights output_weights : List (List D)) :
    forkSecondPass parseLine file h n backward_values input_weights output_weights
      = some (Stage.input 0 backward_values input_weights :: hidden.1 ++
          [Stage.layer h Chan.backward n output_weights true]) := by
  simp only [forkSecondPass, hhid]

theorem forkFirstPass_eq (parseLine : L → List D) (file : List L) (h n : Nat)
    (hfile : file.length < 2147483648) (hlayers : h + 2 < 2147483648)
    (hsum : 3 + (h + 1) * n < 2147483648) :
    ∃ first, forkFirstPass parseLine file h n = some first := by
  have hmul : (h + 1) * n = h * n + n := by rw [Nat.add_mul]; omega
  have hguard : ¬ (2147483648 ≤ 1 + h + 1) := by omega
  simp only [forkFirstPass, hguard, if_false, readWeights_eq parseLine file 1 2 hfile (by omega),
    forkHidden_eq parseLine file n h 0 (1 + 2) hfile (by omega),
    readWeights_eq parseLine file (1 + 2 + h * n) n hfile (by omega)]
  exact ⟨_, rfl⟩

end Weights

section PipeTable

theorem put_untouched {D : Type} (pipes : Pipes D) (pipe : Pipe D) (chan : Chan) (i : Nat)
    (h : chan ≠ Chan.forward i) :
    (pipes.put pipe chan).forward_pipes[i]? = pipes.forward_pipes[i]? := by
  cases chan with
  | backward => rfl
  | forward j =>
    have hne : j ≠ i := fun e => h (by rw [e])
    simp [Pipes.put, List.getElem?_set, hne]

end PipeTable

section Driver

variable {D : Type} [DecidableEq D] [Zero D] [One D] [Add D] [Sub D] [Mul D] [Div D] [OfNat D 2]

theorem runStages_append (sched : Nat → List Nat) (xs ys : List (Stage D)) (k : Nat)
    (pipes : Pipes D) (last : List D) :
    runStages sched k (xs ++ ys) pipes last
      = match runStages sched k xs pipes last with
        | some (pipes', last') => runStages sched (k + xs.length) ys pipes' last'
        | none => none := by
  induction xs generalizing k pipes last with
  | nil => simp [runStages]
  | cons x xs ih =>
    simp only [List.cons_append, runStages, List.length_cons]
    cases hx : runStage (sched k) x pipes with
    | none => rfl
    | some res =>
      obtain ⟨pipes', last'⟩ := res
      show runStages sched (k + 1) (xs ++ ys) pipes' last' = _
      rw [ih]
      have e : k + 1 + xs.length = k + (xs.length + 1) := by omega
      rw [e]

theorem runStage_backward (sched : List Nat) (stage : Stage D) (pipes pipes' : Pipes D)
    (last : List D) (hout : stage.outbound ≠ Chan.backward)
    (h : runStage sched stage pipes = some (pipes', last)) :
    pipes'.backward_pipe = pipes.backward_pipe := by
  cases stage with
  | input pipe initial_inputs weights =>
    simp only [runStage] at h
    split at h
    · split at h
      · simp only [Option.some.injEq, Prod.mk.injEq] at h
        rw [← h.1]; rfl
      · simp at h
    · simp at h
  | layer read_fd write_fd num_neurons weights is_output =>
    cases write_fd with
    | backward => exact absurd rfl hout
    | forward j =>
      simp only [runStage] at h
      split at h
      · split at h
        · simp only [Option.some.injEq, Prod.mk.injEq] at h
          rw [← h.1]; rfl
        · simp at h
      · simp at h

theorem runStages_backward (sched : Nat → List Nat) (stages : List (Stage D)) (k : Nat)
    (pipes pipes' : Pipes D) (last last' : List D)
    (hout : ∀ stage ∈ stages, stage.outbound ≠ Chan.backward)
    (h : runStages sched k stages pipes last = some (pipes', last')) :
    pipes'.backward_pipe = pipes.backward_pipe := by
  induction stages generalizing k pipes last with
  | nil =>
    simp only [runStages, Option.some.injEq, Prod.mk.injEq] at h
    rw [← h.1]
  | cons stage rest ih =>
    simp only [runStages] at h
    cases hx : runStage (sched k) stage pipes with
    | none => simp [hx] at h
    | some res =>
      obtain ⟨mid, bv⟩ := res
      simp only [hx] at h
      rw [ih (k + 1) mid bv (fun st hst => hout st (List.mem_cons_of_mem _ hst)) h]
      exact runStage_backward _ _ _ _ _ (hout stage (List.mem_cons_self _ _)) hx

theorem layerProcess_output (sched : List Nat) (rd wr : Pipe D) (num_neurons : Nat)
    (weights : List (List D)) (backward_values : List D) (read_rest written : Pipe D)
    (bv : List D)
    (h : layerProcess sched rd wr num_neurons weights true backward_values
      = some (read_rest, written, bv)) :
    bv.length = 2 ∧ written = writeToPipe wr bv := by
  simp only [layerProcess] at h
  cases hread : readFromPipe rd with
  | none => simp [hread] at h
  | some res =>
    obtain ⟨inputs, rest⟩ := res
    simp only [hread] at h
    cases hout : stageOutputs sched inputs weights num_neurons with
    | none => simp [hout] at h
    | some outputs =>
      simp only [hout, if_true, Option.some.injEq, Prod.mk.injEq] at h
      obtain ⟨_, h2, h3⟩ := h
      subst h3
      exact ⟨rfl, h2.symm⟩

theorem runStage_output (sched : List Nat) (read_fd num_neurons : Nat) (weights : List (List D))
    (pipes pipes' : Pipes D) (sent : List D)
    (h : runStage sched (Stage.layer read_fd Chan.backward num_neurons weights true) pipes
      = some (pipes', sent)) :
    sent.length = 2 ∧ pipes'.backward_pipe = writeToPipe pipes.backward_pipe sent := by
  simp only [runStage, Pipes.get] at h
  cases hrd : pipes.forward_pipes[read_fd]? with
  | none => simp [hrd] at h
  | some rd =>
    simp only [hrd] at h
    cases hlp : layerProcess sched rd pipes.backward_pipe num_neurons weights true [] with
    | none => simp [hlp] at h
    | some res =>
      obtain ⟨read_rest, written, bv⟩ := res
      simp only [hlp, Option.some.injEq, Prod.mk.injEq] at h
      obtain ⟨h1, h2⟩ := h
      obtain ⟨hlen, hw⟩ := layerProcess_output sched rd pipes.backward_pipe num_neurons weights []
        read_rest written bv hlp
      subst h2
      refine ⟨hlen, ?_⟩
      rw [← h1, ← hw]
      rfl

theorem runStage_untouched (sched : List Nat) (stage : Stage D) (pipes pipes' : Pipes D)
    (last : List D) (i : Nat) (hin : stage.inbound ≠ some i)
    (hout : stage.outbound ≠ Chan.forward i)
    (h : runStage sched stage pipes = some (pipes', last)) :
    pipes'.forward_pipes[i]? = pipes.forward_pipes[i]? := by
  cases stage with
  | input pipe initial_inputs weights =>
    simp only [runStage] at h
    split at h
    · split at h
      · simp only [Option.some.injEq, Prod.mk.injEq] at h
        rw [← h.1]
        exact put_untouched _ _ _ _ hout
      · simp at h
    · simp at h
  | layer read_fd write_fd num_neurons weights is_output =>
    have hrd : Chan.forward read_fd ≠ Chan.forward i := by
      intro e
      exact hin (by rw [Chan.forward.injEq] at e; simp [Stage.inbound, e])
    have hwr : write_fd ≠ Chan.forward i := hout
    simp only [runStage] at h
    split at h
    · split at h
      · simp only [Option.some.injEq, Prod.mk.injEq] at h
        rw [← h.1, put_untouched _ _ _ _ hwr, put_untouched _ _ _ _ hrd]
      · simp at h
    · simp at h

theorem runStages_untouched (sched : Nat → List Nat) (stages : List (Stage D)) (k : Nat)
    (pipes pipes' : Pipes D) (last last' : List D) (i : Nat)
    (hwire : ∀ stage ∈ stages, stage.inbound ≠ some i ∧ stage.outbound ≠ Chan.forward i)
    (h : runStages sched k stages pipes last = some (pipes', last')) :
    pipes'.forward_pipes[i]? = pipes.forward_pipes[i]? := by
  induction stages generalizing k pipes last with
  | nil =>
    simp only [runStages, Option.some.injEq, Prod.mk.injEq] at h
    rw [← h.1]
  | cons stage rest ih =>
    simp only [runStages] at h
    cases hx : runStage (sched k) stage pipes with
    | none => simp [hx] at h
    | some res =>
      obtain ⟨mid, bv⟩ := res
      simp only [hx] at h
      rw [ih (k + 1) mid bv (fun st hst => hwire st (List.mem_cons_of_mem _ hst)) h]
      exact runStage_untouched _ _ _ _ _ _ (hwire stage (List.mem_cons_self _ _)).1
        (hwire stage (List.mem_cons_self _ _)).2 hx

theorem pass_backward (sched : Nat → List Nat) (pre : List (Stage D)) (read_fd n : Nat)
    (weights : List (List D)) (forward_pipes : List (Pipe D)) (pipes1 : Pipes D) (sent : List D)
    (hpre : ∀ stage ∈ pre, stage.outbound ≠ Chan.backward)
    (h : runStages sched 0 (pre ++ [Stage.layer read_fd Chan.backward n weights true])
      { forward_pipes := forward_pipes, backward_pipe := [] } [] = some (pipes1, sent)) :
    sent.length = 2 ∧ pipes1.backward_pipe = writeToPipe [] sent
      ∧ readFromPipe pipes1.backward_pipe = some (sent, []) := by
  rw [runStages_append] at h
  cases hrun : runStages sched 0 pre { forward_pipes := forward_pipes, backward_pipe := [] } [] with
  | none => simp [hrun] at h
  | some res =>
    obtain ⟨mid, bv⟩ := res
    simp only [hrun, runStages, Nat.zero_add] at h
    have hmid : mid.backward_pipe = [] := runStages_backward sched pre 0 _ mid [] bv hpre hrun
    cases hlast : runStage (sched pre.length)
        (Stage.layer read_fd Chan.backward n weights true) mid with
    | none => simp [hlast] at h
    | some res' =>
      obtain ⟨pipes', sent'⟩ := res'
      simp only [hlast, Option.some.injEq, Prod.mk.injEq] at h
      obtain ⟨h1, h2⟩ := h
      subst h1 h2
      obtain ⟨hlen, hback⟩ := runStage_output _ _ _ _ _ _ _ hlast
      rw [hmid] at hback
      refine ⟨hlen, hback, ?_⟩
      rw [hback]
      have hrt := readFromPipe_writeToPipe sent' [] (by omega)
      simpa using hrt

theorem runStages_zero_hidden (sched : Nat → List Nat) (x : List D) (w0 w1 : List (List D))
    (hperm0 : (sched 0).Perm (List.range 2)) (hw0 : w0.length = 2)
    (hrows0 : ∀ row ∈ w0, x.length ≤ row.length)
    (hperm1 : (sched 1).Perm (List.range w1.length))
    (hrows1 : ∀ row ∈ w1, 2 ≤ row.length) :
    runStages sched 0 [Stage.input 0 x w0, Stage.layer 0 Chan.backward w1.length w1 true]
        { forward_pipes := createPipes 2, backward_pipe := [] } []
      = some ({ forward_pipes := [[], []],
                backward_pipe := writeToPipe [] (backwardOf (outputSum
                  (w1.map fun row => dotProduct (w0.map fun r => dotProduct x r) row))) },
              backwardOf (outputSum
                (w1.map fun row => dotProduct (w0.map fun r => dotProduct x r) row))) := by
  have hout0 := stageOutputs_eq (sched 0) x w0 (by rw [hw0]; exact hperm0) hrows0
  rw [hw0] at hout0
  have hout1 := stageOutputs_eq (sched 1) (w0.map fun r => dotProduct x r) w1 hperm1
    (by simpa [hw0] using hrows1)
  have hrt := readFromPipe_writeToPipe (w0.map fun r => dotProduct x r) [] (by simp [hw0])
  rw [List.append_nil] at hrt
  simp [runStages, runStage, createPipes, inputLayerProcess, hout0, Pipes.put, Pipes.get,
    layerProcess, hrt, hout1, List.replicate]

end Driver

section Provider

variable {L D : Type}

theorem readWeightsLoop_map (parseLine : L → List D) (start_line num_lines : Nat)
    (file : List L) (current_line : Nat) (weights : List (List D)) :
    readWeightsLoop parseLine start_line num_lines file current_line weights
      = readWeightsLoop id start_line num_lines (file.map parseLine) current_line weights := by
  induction file generalizing current_line weights with
  | nil => rfl
  | cons line rest ih =>
    simp only [List.map_cons, readWeightsLoop, ih, id_eq]

theorem readWeights_map (parseLine : L → List D) (file : List L) (start_line num_lines : Nat) :
    readWeights parseLine file start_line num_lines
      = readWeights id (file.map parseLine) start_line num_lines :=
  readWeightsLoop_map parseLine start_line num_lines file 0 []

theorem forkHidden_map (parseLine : L → List D) (file : List L) (n k i line_offset : Nat) :
    forkHidden parseLine file n k i line_offset
      = forkHidden id (file.map parseLine) n k i line_offset := by
  induction k generalizing i line_offset with
  | zero => rfl
  | succ k ih => simp only [forkHidden, ih, readWeights_map parseLine]

theorem forkFirstPass_map (parseLine : L → List D) (file : List L) (h n : Nat) :
    forkFirstPass parseLine file h n = forkFirstPass id (file.map parseLine) h n := by
  cases file with
  | nil => simp only [forkFirstPass, forkHidden_map parseLine, readWeights_map parseLine, List.map_nil]
  | cons line rest =>
    simp only [forkFirstPass, forkHidden_map parseLine, readWeights_map parseLine, List.map_cons,
      id_eq]

theorem forkSecondPass_map (parseLine : L → List D) (file : List L) (h n : Nat)
    (backward_values : List D) (input_weights output_weights : List (List D)) :
    forkSecondPass parseLine file h n backward_values input_weights output_weights
      = forkSecondPass id (file.map parseLine) h n backward_values input_weights
          output_weights := by
  simp only [forkSecondPass, forkHidden_map parseLine]

theorem main_map [DecidableEq D] [Zero D] [One D] [Add D] [Sub D] [Mul D] [Div D] [OfNat D 2]
    (parseLine : L → List D) (file : List L) (h n : Nat) (sched1 sched2 : Nat → List Nat) :
    main parseLine file h n sched1 sched2 = main id (file.map parseLine) h n sched1 sched2 := by
  simp only [main, forkFirstPass_map parseLine, forkSecondPass_map parseLine]

theorem forkHidden_wiring (parseLine : L → List D) (file : List L) (n k line_offset : Nat)
    (hidden : List (Stage D) × Nat)
    (hhid : forkHidden parseLine file n k 0 line_offset = some hidden) :
    ∀ stage ∈ hidden.1,
      ∃ j, j < k ∧ stage.inbound = some j ∧ stage.outbound = Chan.forward (j + 1) := by
  intro stage hstage
  rw [forkHidden_some parseLine file n k 0 line_offset hidden hhid] at hstage
  obtain ⟨j, hj, rfl⟩ := List.mem_map.1 hstage
  exact ⟨j, List.mem_range.1 hj, by simp [Stage.inbound], by simp [Stage.outbound]⟩

theorem main_some [DecidableEq D] [Zero D] [One D] [Add D] [Sub D] [Mul D] [Div D] [OfNat D 2]
    (parseLine : L → List D) (file : List L) (h n : Nat) (sched1 sched2 : Nat → List Nat)
    (r : MainResult D) (hmain : main parseLine file h n sched1 sched2 = some r) :
    ∃ first pipes1 backward_rest second pipes2 last2,
      forkFirstPass parseLine file h n = some first
        ∧ runStages sched1 0 first.stages
            { forward_pipes := createPipes (1 + h + 1), backward_pipe := [] } []
          = some (pipes1, r.terminal_sent)
        ∧ readFromPipe pipes1.backward_pipe = some (r.backward_values, backward_rest)
        ∧ forkSecondPass parseLine file h n r.backward_values first.input_weights
            first.output_weights = some second
        ∧ runStages sched2 0 second
            { forward_pipes := createPipes (1 + h + 1), backward_pipe := [] } []
          = some (pipes2, last2)
        ∧ r.first_stages = first.stages
        ∧ r.first_pipes = { pipes1 with backward_pipe := backward_rest }
        ∧ r.second_stages = second
        ∧ r.second_pipes = pipes2 := by
  simp only [main] at hmain
  cases hfirst : forkFirstPass parseLine file h n with
  | none => simp [hfirst] at hmain
  | some first =>
    simp only [hfirst] at hmain
    cases hrun : runStages sched1 0 first.stages
        { forward_pipes := createPipes (1 + h + 1), backward_pipe := [] } [] with
    | none => simp [hrun] at hmain
    | some res =>
      obtain ⟨pipes1, sent⟩ := res
      simp only [hrun] at hmain
      cases hread : readFromPipe pipes1.backward_pipe with
      | none => simp [hread] at hmain
      | some res1 =>
        obtain ⟨bv, backward_rest⟩ := res1
        simp only [hread] at hmain
        cases hsecond : forkSecondPass parseLine file h n bv first.input_weights
            first.output_weights with
        | none => simp [hsecond] at hmain
        | some second =>
          simp only [hsecond] at hmain
          cases hrun2 : runStages sched2 0 second
              { forward_pipes := createPipes (1 + h + 1), backward_pipe := [] } [] with
          | none => simp [hrun2] at hmain
          | some res2 =>
            obtain ⟨pipes2, last2⟩ := res2
            simp only [hrun2, Option.some.injEq] at hmain
            subst hmain
            exact ⟨first, pipes1, backward_rest, second, pipes2, last2, rfl, hrun, hread,
              hsecond, hrun2, rfl, rfl, rfl, rfl⟩

end Provider

section Scenario

theorem backwardOf_scenario : backwardOf (2.5 : ℚ) = [4.875, 1.875] := by
  norm_num [backwardOf]

theorem scenario_firstPass :
    forkFirstPass id [[(1 : ℚ), 2], [0.5, 0.5], [1, 0], [1, 1]] 0 1
      = some { initial_inputs := [1, 2],
               input_weights := [[0.5, 0.5], [1, 0]],
               output_weights := [[1, 1]],
               stages := [Stage.input 0 [1, 2] [[0.5, 0.5], [1, 0]],
                 Stage.layer 0 Chan.backward 1 [[1, 1]] true] } := by
  simp [forkFirstPass, forkHidden, readWeights, readWeightsLoop]

theorem scenario_secondPass (bv : List ℚ) :
    forkSecondPass id [[(1 : ℚ), 2], [0.5, 0.5], [1, 0], [1, 1]] 0 1 bv
        [[0.5, 0.5], [1, 0]] [[1, 1]]
      = some [Stage.input 0 bv [[0.5, 0.5], [1, 0]],
          Stage.layer 0 Chan.backward 1 [[1, 1]] true] := by
  simp [forkSecondPass, forkHidden]

theorem main_scenario (sched1 sched2 : Nat → List Nat)
    (h10 : (sched1 0).Perm [0, 1]) (h11 : (sched1 1).Perm [0])
    (h20 : (sched2 0).Perm [0, 1]) (h21 : (sched2 1).Perm [0]) :
    main id [[(1 : ℚ), 2], [0.5, 0.5], [1, 0], [1, 1]] 0 1 sched1 sched2
      = some
        { first_stages := [Stage.input 0 [1, 2] [[0.5, 0.5], [1, 0]],
            Stage.layer 0 Chan.backward 1 [[1, 1]] true],
          first_pipes := { forward_pipes := [[], []], backward_pipe := [] },
          terminal_sent := [4.875, 1.875],
          backward_values := [4.875, 1.875],
          second_stages := [Stage.input 0 [4.875, 1.875] [[0.5, 0.5], [1, 0]],
            Stage.layer 0 Chan.backward 1 [[1, 1]] true],
          second_pipes :=
            { forward_pipes := [[], []],
              backward_pipe := writeToPipe [] [38.65625, 29.90625] } } := by
  have hrun1 := runStages_zero_hidden sched1 [(1 : ℚ), 2] [[0.5, 0.5], [1, 0]] [[1, 1]]
    h10 rfl (by simp) h11 (by simp)
  have hrun2 := runStages_zero_hidden sched2 [(4.875 : ℚ), 1.875] [[0.5, 0.5], [1, 0]] [[1, 1]]
    h20 rfl (by simp) h21 (by simp)
  have hv1 : backwardOf (outputSum (([[1, 1]] : List (List ℚ)).map fun row =>
      dotProduct (([[0.5, 0.5], [1, 0]] : List (List ℚ)).map fun r => dotProduct [1, 2] r) row))
      = [4.875, 1.875] := by
    norm_num [backwardOf, outputSum, dotProduct]
  have hv2 : backwardOf (outputSum (([[1, 1]] : List (List ℚ)).map fun row =>
      dotProduct (([[0.5, 0.5], [1, 0]] : List (List ℚ)).map fun r =>
        dotProduct [4.875, 1.875] r) row))
      = [38.65625, 29.90625] := by
    norm_num [backwardOf, outputSum, dotProduct]
  rw [hv1] at hrun1
  rw [hv2] at hrun2
  have hrt : readFromPipe (writeToPipe [] [(4.875 : ℚ), 1.875]) = some ([4.875, 1.875], []) := by
    simpa using readFromPipe_writeToPipe [(4.875 : ℚ), 1.875] [] (by decide)
  simp only [main, scenario_firstPass, List.length_cons, List.length_nil] at hrun1 hrun2 ⊢
  simp only [hrun1, hrt, scenario_secondPass, hrun2]

end Scenario

section ShortRead

variable {D : Type}

theorem flatMap_doubleBytes_take (data : List D) (k : Nat) :
    (data.flatMap doubleBytes).take (8 * k) = (data.take k).flatMap doubleBytes := by
  induction data generalizing k with
  | nil => simp
  | cons d ds ih =>
    cases k with
    | zero => simp
    | succ k =>
      have e : 8 * (k + 1) = (doubleBytes d).length + 8 * k := by
        rw [doubleBytes_length]; omega
      rw [List.flatMap_cons, e, List.take_append, List.take_succ_cons, List.flatMap_cons, ih]

theorem flatMap_doubleBytes_drop (data : List D) (k : Nat) :
    (data.flatMap doubleBytes).drop (8 * k) = (data.drop k).flatMap doubleBytes := by
  induction data generalizing k with
  | nil => simp
  | cons d ds ih =>
    cases k with
    | zero => simp
    | succ k =>
      have e : 8 * (k + 1) = (doubleBytes d).length + 8 * k := by
        rw [doubleBytes_length]; omega
      rw [List.flatMap_cons, e, List.drop_append, List.drop_succ_cons, ih]

theorem pipeBuffer_pair (capacity : Nat) (header bytes : List (MemByte D))
    (h4 : header.length ≤ capacity) :
    pipeBuffer capacity [header, bytes]
      = if bytes.length ≤ capacity then [header, bytes]
        else [header, bytes.take capacity, bytes.drop capacity] := by
  simp only [pipeBuffer, List.flatMap_cons, List.flatMap_nil, h4, if_true, List.append_nil,
    List.singleton_append]
  split <;> rfl

theorem pipeBuffer_whole (capacity : Nat) (data : List D) (hlen : data.length < 2147483648)
    (h4 : 4 ≤ capacity) (hcap : 8 * data.length ≤ capacity) :
    pipeBuffer capacity (writeToPipe [] data) = writeToPipe [] data := by
  cases data with
  | nil => simp [writeToPipe_nil, pipeBuffer, encodeInt_length, h4]
  | cons d ds =>
    rw [writeToPipe_cons [] d ds hlen, List.nil_append,
      pipeBuffer_pair _ _ _ (by rw [encodeInt_length]; exact h4),
      if_pos (by rw [flatMap_doubleBytes_length]; exact hcap)]

theorem pipeBuffer_split (k : Nat) (data : List D) (hlen : data.length < 2147483648)
    (hk : 1 ≤ k) (hkn : k < data.length) :
    pipeBuffer (8 * k) (writeToPipe [] data)
      = [encodeInt (data.length : Int), (data.take k).flatMap doubleBytes,
          (data.drop k).flatMap doubleBytes] := by
  cases data with
  | nil => simp at hkn
  | cons d ds =>
    rw [writeToPipe_cons [] d ds hlen, List.nil_append,
      pipeBuffer_pair _ _ _ (by rw [encodeInt_length]; omega),
      if_neg (by rw [flatMap_doubleBytes_length]; omega),
      flatMap_doubleBytes_take, flatMap_doubleBytes_drop]

variable [DecidableEq D] [Zero D]

theorem decodeDoubles_zeros (m : Nat) :
    decodeDoubles m (List.replicate (8 * m) (MemByte.raw 0 : MemByte D))
      = some (List.replicate m 0) := by
  induction m with
  | zero => simp [decodeDoubles]
  | succ m ih =>
    have e : 8 * (m + 1) = 8 + 8 * m := by omega
    have hrep : List.replicate (8 * (m + 1)) (MemByte.raw 0 : MemByte D)
        = List.replicate 8 (MemByte.raw 0) ++ List.replicate (8 * m) (MemByte.raw 0) := by
      rw [e, List.replicate_add]
    have htake : List.take 8 (List.replicate 8 (MemByte.raw 0 : MemByte D)
        ++ List.replicate (8 * m) (MemByte.raw 0)) = List.replicate 8 (MemByte.raw 0) :=
      List.take_left' (by simp)
    have hdrop : List.drop 8 (List.replicate 8 (MemByte.raw 0 : MemByte D)
        ++ List.replicate (8 * m) (MemByte.raw 0)) = List.replicate (8 * m) (MemByte.raw 0) :=
      List.drop_left' (by simp)
    have hzero : decodeDouble (List.replicate 8 (MemByte.raw 0 : MemByte D)) = some 0 := by
      simp [decodeDouble]
    rw [hrep]
    simp only [decodeDoubles, htake, hdrop, hzero, ih]
    rfl

theorem decodeDoubles_append (data : List D) (m : Nat) (tail : List (MemByte D)) :
    decodeDoubles (data.length + m) (data.flatMap doubleBytes ++ tail)
      = (decodeDoubles m tail).map fun rest => data ++ rest := by
  induction data with
  | nil => simp
  | cons d ds ih =>
    have htake : List.take 8 (doubleBytes d ++ (ds.flatMap doubleBytes ++ tail)) = doubleBytes d :=
      List.take_left' (doubleBytes_length d)
    have hdrop : List.drop 8 (doubleBytes d ++ (ds.flatMap doubleBytes ++ tail))
        = ds.flatMap doubleBytes ++ tail := List.drop_left' (doubleBytes_length d)
    have e : (d :: ds).length + m = (ds.length + m) + 1 := by simp; omega
    rw [e]
    simp only [List.flatMap_cons, List.append_assoc, decodeDoubles, htake, hdrop,
      decodeDouble_doubleBytes, ih]
    cases decodeDoubles m tail <;> simp

theorem readFromPipe_short (a b : List D) (rest : Pipe D)
    (hlen : (a ++ b).length < 2147483648) (hpos : 0 < (a ++ b).length) :
    readFromPipe ([encodeInt ((a ++ b).length : Int), a.flatMap doubleBytes,
        b.flatMap doubleBytes] ++ rest)
      = some (a ++ List.replicate b.length 0, b.flatMap doubleBytes :: rest) := by
  have hlen' : ((a ++ b).length : Int) < 2147483648 := by exact_mod_cast hlen
  have hdec := decodeInt_encodeInt (D := D) ((a ++ b).length : Int) (by omega) hlen'
  have hpos' : (0 : Int) < ((a ++ b).length : Int) := by exact_mod_cast hpos
  have hneg : ¬ ((a ++ b).length : Int) < 0 := by omega
  have hbytes : (a.flatMap doubleBytes).length ≤ (a ++ b).length * 8 := by
    rw [flatMap_doubleBytes_length, List.length_append]; omega
  have hfill : (a ++ b).length * 8 - (a.flatMap doubleBytes).length = 8 * b.length := by
    rw [flatMap_doubleBytes_length, List.length_append]; omega
  have hdd : decodeDoubles (a ++ b).length
      (a.flatMap doubleBytes ++ List.replicate (8 * b.length) (MemByte.raw 0))
      = some (a ++ List.replicate b.length 0) := by
    rw [List.length_append, decodeDoubles_append, decodeDoubles_zeros]
    rfl
  simp only [List.cons_append, List.nil_append, readFromPipe, sysRead, encodeInt_length, le_refl,
    if_true, hdec, hneg, hpos', gt_iff_lt, Int.toNat_ofNat, hbytes, hfill, hdd, if_false]

end ShortRead

section Pipeline

variable {D : Type}

theorem afterStage_length [Zero D] [Add D] [Mul D] (weight : Nat → List (List D)) (x : List D) (k : Nat) :
    (afterStage weight x k).length = (weight k).length := by
  cases k <;> simp [afterStage, layerMap]

theorem writeToPipe_ne_nil (data : List D) : writeToPipe ([] : Pipe D) data ≠ [] := by
  simp only [writeToPipe, sysWrite]
  split <;> simp

theorem fresh_set_set (total a : Nat) (m : Pipe D) :
    ((createPipes total : List (Pipe D)).set a m).set a [] = createPipes total := by
  apply List.ext_getElem?
  intro i
  simp only [createPipes, List.getElem?_set, List.length_set, List.length_replicate,
    List.getElem?_replicate]
  by_cases h : a = i
  · subst h; simp
  · simp [h]

theorem fresh_set_nil (total a : Nat) :
    (createPipes total : List (Pipe D)).set a [] = createPipes total := by
  apply List.ext_getElem?
  intro i
  simp only [createPipes, List.getElem?_set, List.length_replicate, List.getElem?_replicate]
  by_cases h : a = i
  · subst h; simp
  · simp [h]

theorem fresh_getElem (total i : Nat) (h : i < total) :
    (createPipes total : List (Pipe D))[i]? = some [] := by
  simp [createPipes, List.getElem?_replicate, h]

theorem pipelineStages_zero (weight : Nat → List (List D)) (x : List D) (h n : Nat) :
    (pipelineStages weight x h n)[0]? = some (Stage.input 0 x (weight 0)) := by
  simp [pipelineStages]

theorem pipelineStages_succ (weight : Nat → List (List D)) (x : List D) (h n j : Nat)
    (hj : j ≤ h) :
    (pipelineStages weight x h n)[j + 1]?
      = some (Stage.layer j (if j = h then Chan.backward else Chan.forward (j + 1)) n
          (weight (j + 1)) (decide (j = h))) := by
  have hlt : j < h + 1 := by omega
  simp [pipelineStages, List.getElem?_map, List.getElem?_range hlt]

theorem pipelineStages_none (weight : Nat → List (List D)) (x : List D) (h n k : Nat)
    (hk : h + 2 ≤ k) : (pipelineStages weight x h n)[k]? = none := by
  apply List.getElem?_eq_none
  simp [pipelineStages]
  omega

theorem pipelineStages_length (weight : Nat → List (List D)) (x : List D) (h n : Nat) :
    (pipelineStages weight x h n).length = h + 2 := by
  simp [pipelineStages]

theorem pipelineStages_unitCount (weight : Nat → List (List D)) (x : List D) (h n : Nat) :
    (pipelineStages weight x h n).map Stage.unitCount = 2 :: List.replicate (h + 1) n := by
  simp only [pipelineStages, List.map_cons, List.map_map, Stage.unitCount, List.cons.injEq,
    true_and]
  apply List.ext_getElem
  · simp
  · intro i h1 h2
    simp [Stage.unitCount]

theorem pipelineStages_weightMatrix (weight : Nat → List (List D)) (x : List D) (h n : Nat) :
    (pipelineStages weight x h n).map Stage.weightMatrix
      = weight 0 :: (List.range (h + 1)).map fun j => weight (j + 1) := by
  simp only [pipelineStages, List.map_cons, List.map_map, Stage.weightMatrix, List.cons.injEq,
    true_and]
  apply List.map_congr_left
  intro j _
  rfl

theorem pipelineStages_inbound (weight : Nat → List (List D)) (x : List D) (h n : Nat) :
    (pipelineStages weight x h n).map Stage.inbound
      = none :: (List.range (h + 1)).map some := by
  simp only [pipelineStages, List.map_cons, List.map_map, Stage.inbound, List.cons.injEq,
    true_and]
  apply List.map_congr_left
  intro j _
  rfl

theorem pipelineStages_outbound (weight : Nat → List (List D)) (x : List D) (h n : Nat) :
    (pipelineStages weight x h n).map Stage.outbound
      = (List.range (h + 1)).map Chan.forward ++ [Chan.backward] := by
  have hrhs : (List.range (h + 1)).map Chan.forward
      = Chan.forward 0 :: (List.range h).map fun j => Chan.forward (j + 1) := by
    rw [List.range_succ_eq_map, List.map_cons, List.map_map]
    rfl
  have hmid : (List.range h).map (Stage.outbound ∘ fun j =>
      Stage.layer j (if j = h then Chan.backward else Chan.forward (j + 1)) n (weight (j + 1))
        (decide (j = h)))
      = (List.range h).map fun j => Chan.forward (j + 1) := by
    apply List.map_congr_left
    intro j hj
    have hne : j ≠ h := Nat.ne_of_lt (List.mem_range.1 hj)
    simp [Stage.outbound, hne]
  rw [hrhs, pipelineStages, List.map_cons, List.map_map, List.range_succ, List.map_append, hmid]
  simp [Stage.outbound]

theorem pipelineStages_unused (weight : Nat → List (List D)) (x : List D) (h n : Nat) :
    ∀ stage ∈ pipelineStages weight x h n,
      stage.inbound ≠ some (h + 1) ∧ stage.outbound ≠ Chan.forward (h + 1) := by
  intro stage hstage
  rw [pipelineStages] at hstage
  rcases List.mem_cons.1 hstage with rfl | hstage
  · simp [Stage.inbound, Stage.outbound]
  · obtain ⟨j, hj, rfl⟩ := List.mem_map.1 hstage
    have hj1 : j < h + 1 := List.mem_range.1 hj
    constructor
    · simp only [Stage.inbound, ne_eq, Option.some.injEq]
      omega
    · by_cases hjh : j = h
      · simp [Stage.outbound, hjh]
      · simp only [Stage.outbound, hjh, if_false, ne_eq, Chan.forward.injEq]
        omega

theorem pipelineStages_same_shape (weight : Nat → List (List D)) (x y : List D) (h n : Nat) :
    (pipelineStages weight y h n).head? = some (Stage.input 0 y (weight 0))
      ∧ (pipelineStages weight y h n).tail = (pipelineStages weight x h n).tail
      ∧ (pipelineStages weight y h n).map
          (fun stage => (stage.unitCount, stage.weightMatrix, stage.inbound, stage.outbound))
        = (pipelineStages weight x h n).map
          (fun stage => (stage.unitCount, stage.weightMatrix, stage.inbound, stage.outbound)) :=
  ⟨rfl, rfl, rfl⟩

theorem runStage_input_step [DecidableEq D] [Zero D] [One D] [Add D] [Sub D] [Mul D] [Div D]
    [OfNat D 2] (weight : Nat → List (List D)) (x : List D) (h : Nat) (sched : List Nat)
    (hperm : sched.Perm (List.range 2)) (hw0 : (weight 0).length = 2)
    (hrows : ∀ row ∈ weight 0, x.length ≤ row.length) :
    runStage sched (Stage.input 0 x (weight 0)) (pipesAfter weight x h 0)
      = some (pipesAfter weight x h 1, []) := by
  have hout := stageOutputs_eq sched x (weight 0) (by rw [hw0]; exact hperm) hrows
  rw [hw0] at hout
  have hfresh : (createPipes (1 + h + 1) : List (Pipe D))[0]? = some [] :=
    fresh_getElem _ _ (by omega)
  simp [runStage, pipesAfter, hfresh, inputLayerProcess, hout, Pipes.put, afterStage, layerMap]

theorem runStage_layer_step [DecidableEq D] [Zero D] [One D] [Add D] [Sub D] [Mul D] [Div D]
    [OfNat D 2] (weight : Nat → List (List D)) (x : List D) (h n j : Nat) (sched : List Nat)
    (hj : j ≤ h) (hlen : (afterStage weight x j).length < 2147483648)
    (hperm : sched.Perm (List.range n)) (hwn : (weight (j + 1)).length = n)
    (hrows : ∀ row ∈ weight (j + 1), (afterStage weight x j).length ≤ row.length) :
    runStage sched
        (Stage.layer j (if j = h then Chan.backward else Chan.forward (j + 1)) n
          (weight (j + 1)) (decide (j = h)))
        (pipesAfter weight x h (j + 1))
      = some (pipesAfter weight x h (j + 2), if j = h then sequentialEval weight x h else []) := by
  have hout := stageOutputs_eq sched (afterStage weight x j) (weight (j + 1))
    (by rw [hwn]; exact hperm) hrows
  rw [hwn] at hout
  have hrt := readFromPipe_writeToPipe (afterStage weight x j) [] hlen
  rw [List.append_nil] at hrt
  have hcond : 1 ≤ j + 1 ∧ j + 1 ≤ h + 1 := by omega
  have hmsg : ((createPipes (1 + h + 1) : List (Pipe D)).set j
      (writeToPipe [] (afterStage weight x j)))[j]? = some (writeToPipe [] (afterStage weight x j)) := by
    rw [List.getElem?_set_self]
    simp [createPipes]; omega
  by_cases hlast : j = h
  · subst hlast
    have hc2 : ¬ (1 ≤ j + 2 ∧ j + 2 ≤ j + 1) := by omega
    simp [runStage, pipesAfter, hmsg, Pipes.get, Pipes.put, layerProcess, hrt, hout,
      fresh_set_set, fresh_set_nil, sequentialEval, afterStage, layerMap]
  · have hjlt : j < h := by omega
    have hc2 : 1 ≤ j + 2 ∧ j + 2 ≤ h + 1 := by omega
    have hnext : ((createPipes (1 + h + 1) : List (Pipe D)).set j
        (writeToPipe [] (afterStage weight x j)))[j + 1]? = some [] := by
      rw [List.getElem?_set_ne (by omega)]
      exact fresh_getElem _ _ (by omega)
    have hb : ¬ h + 2 ≤ j + 1 := by omega
    have hb2 : ¬ h + 2 ≤ j + 2 := by omega
    simp [runStage, pipesAfter, hcond, hc2, hb, hb2, hlast, hmsg, hnext, Pipes.get, Pipes.put,
      layerProcess, hrt, hout, fresh_set_set, fresh_set_nil, afterStage, layerMap]

theorem put_get_self (pipes : Pipes D) (chan : Chan) (pipe : Pipe D)
    (h : pipes.get chan = some pipe) : pipes.put pipe chan = pipes := by
  cases chan with
  | backward =>
    simp only [Pipes.get, Option.some.injEq] at h
    subst h
    rfl
  | forward i =>
    simp only [Pipes.get] at h
    have hset : pipes.forward_pipes.set i pipe = pipes.forward_pipes := by
      apply List.ext_getElem?
      intro a
      rw [List.getElem?_set]
      by_cases hia : i = a
      · subst hia
        have hlt : i < pipes.forward_pipes.length := by
          by_contra hge
          rw [List.getElem?_eq_none (by omega)] at h
          simp at h
        simp [hlt, h]
      · simp [hia]
    cases pipes
    simp only [Pipes.put] at hset ⊢
    rw [hset]

theorem pipesAfter_forward_length [Zero D] [One D] [Add D] [Sub D] [Mul D] [Div D] [OfNat D 2]
    (weight : Nat → List (List D)) (x : List D) (h j : Nat) :
    (pipesAfter weight x h j).forward_pipes.length = h + 2 := by
  simp only [pipesAfter]
  split <;> simp [createPipes] <;> omega

theorem pipesAfter_empty [Zero D] [One D] [Add D] [Sub D] [Mul D] [Div D] [OfNat D 2]
    (weight : Nat → List (List D)) (x : List D) (h j i : Nat) (hi : i < h + 2)
    (hne : i + 1 ≠ j) : (pipesAfter weight x h j).forward_pipes[i]? = some [] := by
  simp only [pipesAfter]
  split
  · rw [List.getElem?_set_ne (by omega)]
    exact fresh_getElem _ _ (by omega)
  · exact fresh_getElem _ _ (by omega)

theorem pipesAfter_message [Zero D] [One D] [Add D] [Sub D] [Mul D] [Div D] [OfNat D 2]
    (weight : Nat → List (List D)) (x : List D) (h j : Nat) (hj : j ≤ h) :
    (pipesAfter weight x h (j + 1)).forward_pipes[j]?
      = some (writeToPipe [] (afterStage weight x j)) := by
  have hcond : 1 ≤ j + 1 ∧ j + 1 ≤ h + 1 := by omega
  simp only [pipesAfter, hcond, and_self, if_true, Nat.add_sub_cancel]
  rw [List.getElem?_set_self]
  simp [createPipes]; omega

theorem pipesAfter_backward [Zero D] [One D] [Add D] [Sub D] [Mul D] [Div D] [OfNat D 2]
    (weight : Nat → List (List D)) (x : List D) (h : Nat) :
    (pipesAfter weight x h (h + 2)).backward_pipe = writeToPipe [] (sequentialEval weight x h)
      ∧ (pipesAfter weight x h (h + 2)).forward_pipes = createPipes (1 + h + 1) := by
  have hc : ¬ (1 ≤ h + 2 ∧ h + 2 ≤ h + 1) := by omega
  simp [pipesAfter, hc]

theorem pipeline_step [DecidableEq D] [Zero D] [One D] [Add D] [Sub D] [Mul D] [Div D]
    [OfNat D 2] (weight : Nat → List (List D)) (x : List D) (h n : Nat) (sched : Nat → List Nat)
    (hws : WellSized weight x h n) (hto : ThreadOrders sched h n) (j : Nat) (hj : j ≤ h + 1) :
    ∃ stage, (pipelineStages weight x h n)[j]? = some stage
      ∧ stage.blocked (pipesAfter weight x h j) = false
      ∧ (stage.inbound = if j = 0 then none else some (j - 1))
      ∧ (stage.outbound = if j = h + 1 then Chan.backward else Chan.forward j)
      ∧ runStage (sched j) stage (pipesAfter weight x h j)
        = some (pipesAfter weight x h (j + 1),
            if j = h + 1 then sequentialEval weight x h else []) := by
  obtain ⟨hn, hw0, hwk, hrows0, hrows1, hrowsk⟩ := hws
  cases j with
  | zero =>
    refine ⟨_, pipelineStages_zero weight x h n, rfl, rfl, ?_, ?_⟩
    · simp [Stage.outbound]
    · simpa using runStage_input_step weight x h (sched 0) hto.1 hw0 hrows0
  | succ i =>
    have hi : i ≤ h := by omega
    have hlen : (afterStage weight x i).length < 2147483648 := by
      rw [afterStage_length]
      cases i with
      | zero => rw [hw0]; decide
      | succ i' => rw [hwk (i' + 1) (by omega) (by omega)]; exact hn
    have hrows : ∀ row ∈ weight (i + 1), (afterStage weight x i).length ≤ row.length := by
      intro row hrow
      rw [afterStage_length]
      cases i with
      | zero => rw [hw0]; exact hrows1 row hrow
      | succ i' =>
        rw [hwk (i' + 1) (by omega) (by omega)]
        exact hrowsk (i' + 1 + 1) (by omega) (by omega) row hrow
    have hstep := runStage_layer_step weight x h n i (sched (i + 1)) hi hlen
      (hto.2 (i + 1) (by omega) (by omega)) (hwk (i + 1) (by omega) (by omega)) hrows
    refine ⟨_, pipelineStages_succ weight x h n i hi, ?_, ?_, ?_, ?_⟩
    · simp only [Stage.blocked, pipesAfter_message weight x h i hi]
      split
      · rename_i heq
        simp only [Option.some.injEq] at heq
        exact absurd heq (writeToPipe_ne_nil _)
      · rfl
    · simp [Stage.inbound]
    · by_cases hlast : i = h <;> simp [Stage.outbound, hlast]
    · by_cases hlast : i = h <;> simpa [hlast] using hstep

theorem drop_of_getElem? {α : Type} (l : List α) (j : Nat) (a : α) (h : l[j]? = some a) :
    l.drop j = a :: l.drop (j + 1) := by
  induction l generalizing j with
  | nil => simp at h
  | cons b l ih =>
    cases j with
    | zero =>
      simp only [List.getElem?_cons_zero, Option.some.injEq] at h
      simp [h]
    | succ j =>
      simp only [List.getElem?_cons_succ] at h
      simpa using ih j h

theorem runStages_pipeline [DecidableEq D] [Zero D] [One D] [Add D] [Sub D] [Mul D] [Div D]
    [OfNat D 2] (weight : Nat → List (List D)) (x : List D) (h n : Nat) (sched : Nat → List Nat)
    (hws : WellSized weight x h n) (hto : ThreadOrders sched h n) (d j : Nat)
    (hd : j + d = h + 2) (last : List D) :
    runStages sched j ((pipelineStages weight x h n).drop j) (pipesAfter weight x h j) last
      = some (pipesAfter weight x h (h + 2),
          if d = 0 then last else sequentialEval weight x h) := by
  induction d generalizing j last with
  | zero =>
    have hj : j = h + 2 := by omega
    subst hj
    have hdrop : (pipelineStages weight x h n).drop (h + 2) = [] :=
      List.drop_eq_nil_of_le (by rw [pipelineStages_length])
    simp [hdrop, runStages]
  | succ d ih =>
    obtain ⟨stage, hstage, _, _, _, hrun⟩ := pipeline_step weight x h n sched hws hto j (by omega)
    rw [drop_of_getElem? _ _ _ hstage]
    simp only [runStages, hrun]
    rw [ih (j + 1) (by omega)]
    by_cases hd0 : d = 0
    · have hj : j = h + 1 := by omega
      simp [hd0, hj]
    · simp [hd0]

theorem scheduleTurn_whole [DecidableEq D] [Zero D] [One D] [Add D] [Sub D] [Mul D] [Div D]
    [OfNat D 2] (weight : Nat → List (List D)) (x : List D) (h n : Nat) (sched : Nat → List Nat)
    (hws : WellSized weight x h n) (hto : ThreadOrders sched h n) (j k : Nat)
    (exited : List Nat) (hex : ∀ i, i ∈ exited ↔ i < j) (hj : j ≤ h + 2) :
    scheduleTurn wholeDelivery sched (pipelineStages weight x h n)
        { pipes := pipesAfter weight x h j, exited := exited } k
      = if k = j ∧ j ≤ h + 1 then
          some { pipes := pipesAfter weight x h (j + 1), exited := j :: exited }
        else some { pipes := pipesAfter weight x h j, exited := exited } := by
  by_cases hkj : k < j
  · have hmem : k ∈ exited := (hex k).2 hkj
    have hne : ¬ (k = j ∧ j ≤ h + 1) := by omega
    simp [scheduleTurn, hmem, hne]
  · have hnot : k ∉ exited := fun hmem => hkj ((hex k).1 hmem)
    by_cases hbig : h + 2 ≤ k
    · have hne : ¬ (k = j ∧ j ≤ h + 1) := by omega
      simp [scheduleTurn, hnot, pipelineStages_none weight x h n k hbig, hne]
    · by_cases heq : k = j
      · subst heq
        obtain ⟨stage, hstage, hblocked, _, hout, hrun⟩ :=
          pipeline_step weight x h n sched hws hto k (by omega)
        have hcond : k = k ∧ k ≤ h + 1 := ⟨rfl, by omega⟩
        have hget : ∃ written, (pipesAfter weight x h (k + 1)).get stage.outbound = some written
            ∧ (pipesAfter weight x h (k + 1)).put (wholeDelivery written) stage.outbound
              = pipesAfter weight x h (k + 1) := by
          cases hg : (pipesAfter weight x h (k + 1)).get stage.outbound with
          | some written => exact ⟨written, rfl, put_get_self _ _ _ hg⟩
          | none =>
            exfalso
            rw [hout] at hg
            split at hg
            · simp [Pipes.get] at hg
            · simp only [Pipes.get] at hg
              have hlen := pipesAfter_forward_length weight x h (k + 1)
              rw [List.getElem?_eq_none_iff] at hg
              omega
        obtain ⟨written, hg, hput⟩ := hget
        simp [scheduleTurn, hnot, hstage, hblocked, hrun, hg, hput, hcond]
      · have hk1 : 1 ≤ k := by omega
        obtain ⟨i, rfl⟩ : ∃ i, k = i + 1 := ⟨k - 1, by omega⟩
        have hi : i ≤ h := by omega
        have hempty := pipesAfter_empty weight x h j i (by omega) (by omega)
        have hne : ¬ (i + 1 = j ∧ j ≤ h + 1) := by omega
        simp [scheduleTurn, hnot, pipelineStages_succ weight x h n i hi, Stage.blocked, hempty,
          hne]

theorem pipesAfter_zero [Zero D] [One D] [Add D] [Sub D] [Mul D] [Div D] [OfNat D 2]
    (weight : Nat → List (List D)) (x : List D) (h : Nat) :
    pipesAfter weight x h 0
      = { forward_pipes := createPipes (1 + h + 1), backward_pipe := [] } := by
  simp [pipesAfter]

theorem runSchedule_whole [DecidableEq D] [Zero D] [One D] [Add D] [Sub D] [Mul D] [Div D]
    [OfNat D 2] (weight : Nat → List (List D)) (x : List D) (h n : Nat) (sched : Nat → List Nat)
    (hws : WellSized weight x h n) (hto : ThreadOrders sched h n) (order : List Nat) (j : Nat)
    (exited : List Nat) (hex : ∀ i, i ∈ exited ↔ i < j) (hj : j ≤ h + 2) :
    ∃ j' exited', j ≤ j' ∧ j' ≤ h + 2 ∧ (∀ i, i ∈ exited' ↔ i < j')
      ∧ runSchedule wholeDelivery sched (pipelineStages weight x h n) order
          { pipes := pipesAfter weight x h j, exited := exited }
        = some { pipes := pipesAfter weight x h j', exited := exited' } := by
  induction order generalizing j exited with
  | nil => exact ⟨j, exited, le_refl _, hj, hex, rfl⟩
  | cons k rest ih =>
    have hturn := scheduleTurn_whole weight x h n sched hws hto j k exited hex hj
    by_cases hc : k = j ∧ j ≤ h + 1
    · rw [if_pos hc] at hturn
      have hex' : ∀ i, i ∈ j :: exited ↔ i < j + 1 := by
        intro i
        rw [List.mem_cons, hex i]
        omega
      obtain ⟨j', exited', h1, h2, h3, h4⟩ := ih (j + 1) (j :: exited) hex' (by omega)
      exact ⟨j', exited', by omega, h2, h3, by simp only [runSchedule, hturn]; exact h4⟩
    · rw [if_neg hc] at hturn
      obtain ⟨j', exited', h1, h2, h3, h4⟩ := ih j exited hex hj
      exact ⟨j', exited', h1, h2, h3, by simp only [runSchedule, hturn]; exact h4⟩

theorem runSchedule_pipeline_order [DecidableEq D] [Zero D] [One D] [Add D] [Sub D] [Mul D]
    [Div D] [OfNat D 2] (weight : Nat → List (List D)) (x : List D) (h n : Nat)
    (sched : Nat → List Nat) (hws : WellSized weight x h n) (hto : ThreadOrders sched h n)
    (d j : Nat) (hd : j + d = h + 2) (exited : List Nat) (hex : ∀ i, i ∈ exited ↔ i < j) :
    ∃ exited', (∀ i, i ∈ exited' ↔ i < h + 2)
      ∧ runSchedule wholeDelivery sched (pipelineStages weight x h n) (List.range' j d)
          { pipes := pipesAfter weight x h j, exited := exited }
        = some { pipes := pipesAfter weight x h (h + 2), exited := exited' } := by
  induction d generalizing j exited with
  | zero =>
    have hj : j = h + 2 := by omega
    subst hj
    exact ⟨exited, hex, rfl⟩
  | succ d ih =>
    have hturn := scheduleTurn_whole weight x h n sched hws hto j j exited hex (by omega)
    rw [if_pos ⟨rfl, by omega⟩] at hturn
    have hex' : ∀ i, i ∈ j :: exited ↔ i < j + 1 := by
      intro i
      rw [List.mem_cons, hex i]
      omega
    obtain ⟨exited', h1, h2⟩ := ih (j + 1) (by omega) (j :: exited) hex'
    refine ⟨exited', h1, ?_⟩
    simp only [List.range', runSchedule, hturn]
    exact h2

theorem schedule_refines_sequential [DecidableEq D] [Zero D] [One D] [Add D] [Sub D] [Mul D]
    [Div D] [OfNat D 2] (weight : Nat → List (List D)) (x : List D) (h n : Nat)
    (sched : Nat → List Nat) (hws : WellSized weight x h n) (hto : ThreadOrders sched h n)
    (order : List Nat) :
    ∃ state, runSchedule wholeDelivery sched (pipelineStages weight x h n) order
          { pipes := { forward_pipes := createPipes (1 + h + 1), backward_pipe := [] },
            exited := [] } = some state
      ∧ ((∀ i, i < h + 2 → i ∈ state.exited) →
          state.pipes.forward_pipes = createPipes (1 + h + 1)
            ∧ state.pipes.backward_pipe = writeToPipe [] (sequentialEval weight x h)
            ∧ readFromPipe state.pipes.backward_pipe = some (sequentialEval weight x h, [])) := by
  obtain ⟨j', exited', _, hle, hex', hrun⟩ := runSchedule_whole weight x h n sched hws hto order 0
    [] (by simp) (by omega)
  rw [pipesAfter_zero] at hrun
  refine ⟨_, hrun, ?_⟩
  intro hall
  have hj' : j' = h + 2 := by
    have := (hex' (h + 1)).1 (hall (h + 1) (by omega))
    omega
  subst hj'
  obtain ⟨hb, hf⟩ := pipesAfter_backward weight x h
  refine ⟨hf, hb, ?_⟩
  show readFromPipe (pipesAfter weight x h (h + 2)).backward_pipe = _
  rw [hb]
  have hrt := readFromPipe_writeToPipe (sequentialEval weight x h) [] (by simp [sequentialEval, backwardOf])
  simpa using hrt

theorem hidden_stages_eq {L : Type} (parseLine : L → List D) (file : List L) (h n : Nat)
    (hidden : List (Stage D) × Nat) (hhid : forkHidden parseLine file n h 0 3 = some hidden)
    (output_weights : List (List D))
    (hout : output_weights = stageWeights parseLine file n (h + 1)) :
    hidden.1 ++ [Stage.layer h Chan.backward n output_weights true]
      = (List.range (h + 1)).map fun j =>
          Stage.layer j (if j = h then Chan.backward else Chan.forward (j + 1)) n
            (stageWeights parseLine file n (j + 1)) (decide (j = h)) := by
  rw [forkHidden_some parseLine file n h 0 3 hidden hhid, List.range_succ, List.map_append, hout]
  congr 1
  · apply List.map_congr_left
    intro j hj
    have hne : j ≠ h := Nat.ne_of_lt (List.mem_range.1 hj)
    simp [hne, stageWeights]
  · simp [stageWeights]

theorem forkFirstPass_stages {L : Type} (parseLine : L → List D) (file : List L) (h n : Nat)
    (first : FirstPass D) (hfirst : forkFirstPass parseLine file h n = some first) :
    first.stages = pipelineStages (stageWeights parseLine file n) first.initial_inputs h n
      ∧ first.input_weights = stageWeights parseLine file n 0
      ∧ first.output_weights = stageWeights parseLine file n (h + 1) := by
  obtain ⟨hidden, hhid, hiw, how, _, hst⟩ := forkFirstPass_some parseLine file h n first hfirst
  have hiw1 : first.input_weights = stageWeights parseLine file n 0 :=
    readWeights_some parseLine file 1 2 _ hiw
  have hoff : hidden.2 = 3 + h * n := by
    rw [forkHidden_some parseLine file n h 0 3 hidden hhid]
  have how1 : first.output_weights = stageWeights parseLine file n (h + 1) := by
    rw [hoff] at how
    exact readWeights_some parseLine file _ n _ how
  refine ⟨?_, hiw1, how1⟩
  have hh := hidden_stages_eq parseLine file h n hidden hhid _ how1
  rw [hst, List.cons_append, hh, hiw1]
  rfl

theorem forkSecondPass_stages {L : Type} (parseLine : L → List D) (file : List L) (h n : Nat)
    (first : FirstPass D) (hfirst : forkFirstPass parseLine file h n = some first)
    (backward_values : List D) :
    forkSecondPass parseLine file h n backward_values first.input_weights first.output_weights
      = some (pipelineStages (stageWeights parseLine file n) backward_values h n) := by
  obtain ⟨hidden, hhid, _, _, _, _⟩ := forkFirstPass_some parseLine file h n first hfirst
  obtain ⟨_, hiw, how⟩ := forkFirstPass_stages parseLine file h n first hfirst
  have hh := hidden_stages_eq parseLine file h n hidden hhid _ how
  rw [forkSecondPass_some parseLine file h n hidden hhid, List.cons_append, hh, hiw]
  rfl

theorem main_eval {L : Type} [DecidableEq D] [Zero D] [One D] [Add D] [Sub D] [Mul D] [Div D]
    [OfNat D 2] (parseLine : L → List D) (file : List L) (h n : Nat)
    (sched1 sched2 : Nat → List Nat)
    (first : FirstPass D) (hfirst : forkFirstPass parseLine file h n = some first)
    (hws1 : WellSized (stageWeights parseLine file n)
      first.initial_inputs h n)
    (hto1 : ThreadOrders sched1 h n)
    (hws2 : WellSized (stageWeights parseLine file n)
      (sequentialEval (stageWeights parseLine file n)
        first.initial_inputs h) h n)
    (hto2 : ThreadOrders sched2 h n) :
    main parseLine file h n sched1 sched2
      = some
        { first_stages := pipelineStages (stageWeights parseLine file n)
            first.initial_inputs h n,
          first_pipes := { forward_pipes := createPipes (1 + h + 1), backward_pipe := [] },
          terminal_sent := sequentialEval (stageWeights parseLine file n)
            first.initial_inputs h,
          backward_values := sequentialEval (stageWeights parseLine file n)
            first.initial_inputs h,
          second_stages := pipelineStages (stageWeights parseLine file n)
            (sequentialEval (stageWeights parseLine file n)
              first.initial_inputs h) h n,
          second_pipes :=
            { forward_pipes := createPipes (1 + h + 1),
              backward_pipe := writeToPipe [] (sequentialEval (stageWeights parseLine file n)
                (sequentialEval (stageWeights parseLine file n)
                  first.initial_inputs h) h) } } := by
  have hrun1 := runStages_pipeline _ _ h n sched1 hws1 hto1 (h + 2) 0 (by omega) []
  have hrun2 := runStages_pipeline _ _ h n sched2 hws2 hto2 (h + 2) 0 (by omega) []
  rw [List.drop_zero, pipesAfter_zero] at hrun1 hrun2
  obtain ⟨hb1, hf1⟩ := pipesAfter_backward (stageWeights parseLine file n)
    first.initial_inputs h
  obtain ⟨hb2, hf2⟩ := pipesAfter_backward (stageWeights parseLine file n)
    (sequentialEval (stageWeights parseLine file n)
      first.initial_inputs h) h
  have hrt := readFromPipe_writeToPipe (sequentialEval (stageWeights parseLine file n)
    first.initial_inputs h) [] (by simp [sequentialEval, backwardOf])
  rw [List.append_nil] at hrt
  have hne : h + 2 ≠ 0 := by omega
  simp only [hne, if_false] at hrun1 hrun2
  simp only [main, hfirst, (forkFirstPass_stages parseLine file h n first hfirst).1, hrun1, hb1,
    hrt, forkSecondPass_stages parseLine file h n first hfirst, hrun2]
  congr 2
  · cases hp : pipesAfter (stageWeights parseLine file n)
      first.initial_inputs h (h + 2) with
    | mk fwd bwd =>
      rw [hp] at hf1
      simp only at hf1
      simp [hf1]
  · cases hp : pipesAfter (stageWeights parseLine file n)
      (sequentialEval (stageWeights parseLine file n)
        first.initial_inputs h) h (h + 2) with
    | mk fwd bwd =>
      rw [hp] at hf2 hb2
      simp only at hf2 hb2
      simp [hf2, hb2]

theorem main_first_read {L : Type} [DecidableEq D] [Zero D] [One D] [Add D] [Sub D] [Mul D]
    [Div D] [OfNat D 2] (parseLine : L → List D) (file : List L) (h n : Nat)
    (sched1 sched2 : Nat → List Nat)
    (first : FirstPass D) (hfirst : forkFirstPass parseLine file h n = some first)
    (hws1 : WellSized (stageWeights parseLine file n)
      first.initial_inputs h n)
    (hto1 : ThreadOrders sched1 h n) (r : MainResult D)
    (hmain : main parseLine file h n sched1 sched2 = some r) :
    r.terminal_sent = sequentialEval (stageWeights parseLine file n)
        first.initial_inputs h
      ∧ r.backward_values = sequentialEval (stageWeights parseLine file n)
        first.initial_inputs h := by
  have hrun1 := runStages_pipeline _ _ h n sched1 hws1 hto1 (h + 2) 0 (by omega) []
  rw [List.drop_zero, pipesAfter_zero] at hrun1
  obtain ⟨hb1, _⟩ := pipesAfter_backward (stageWeights parseLine file n)
    first.initial_inputs h
  have hrt := readFromPipe_writeToPipe (sequentialEval (stageWeights parseLine file n)
    first.initial_inputs h) [] (by simp [sequentialEval, backwardOf])
  rw [List.append_nil] at hrt
  have hne : h + 2 ≠ 0 := by omega
  simp only [hne, if_false] at hrun1
  simp only [main, hfirst, (forkFirstPass_stages parseLine file h n first hfirst).1, hrun1, hb1,
    hrt, forkSecondPass_stages parseLine file h n first hfirst] at hmain
  split at hmain
  · simp at hmain
  · simp only [Option.some.injEq] at hmain
    subst hmain
    exact ⟨rfl, rfl⟩

theorem short_delivery_run [DecidableEq D] [Zero D] [One D] [Add D] [Sub D] [Mul D] [Div D]
    [OfNat D 2] (weight : Nat → List (List D)) (x : List D) (n k : Nat) (sched : Nat → List Nat)
    (hws : WellSized weight x 1 n) (hto : ThreadOrders sched 1 n) (hk : 2 ≤ k) (hkn : k < n) :
    ∃ state, runSchedule (pipeBuffer (8 * k)) sched (pipelineStages weight x 1 n) [0, 1, 2]
          { pipes := { forward_pipes := createPipes (1 + 1 + 1), backward_pipe := [] },
            exited := [] } = some state
      ∧ state.exited = [2, 1, 0]
      ∧ state.pipes.forward_pipes[1]?
          = some [((afterStage weight x 1).drop k).flatMap doubleBytes]
      ∧ readFromPipe state.pipes.backward_pipe
          = some (backwardOf (outputSum (layerMap (weight 2)
              ((afterStage weight x 1).take k ++ List.replicate (n - k) 0))), []) := by
  have hws' := hws
  obtain ⟨hn, hw0, hwk, hrows0, hrows1, hrowsk⟩ := hws'
  have hlen0 : (afterStage weight x 0).length = 2 := by rw [afterStage_length, hw0]
  have hlen1 : (afterStage weight x 1).length = n := by
    rw [afterStage_length, hwk 1 (by omega) (by omega)]
  -- turn 0: the input child, its 16 data bytes fit the buffer
  obtain ⟨stage0, hstage0, hblocked0, _, hout0, hrun0⟩ :=
    pipeline_step weight x 1 n sched hws hto 0 (by omega)
  have hmsg0 := pipesAfter_message weight x 1 0 (by omega)
  have hwhole0 := pipeBuffer_whole (8 * k) (afterStage weight x 0) (by omega) (by omega)
    (by omega)
  have hturn0 : scheduleTurn (pipeBuffer (8 * k)) sched (pipelineStages weight x 1 n)
      { pipes := pipesAfter weight x 1 0, exited := [] } 0
      = some { pipes := pipesAfter weight x 1 1, exited := [0] } := by
    have hget : (pipesAfter weight x 1 (0 + 1)).get stage0.outbound
        = some (writeToPipe [] (afterStage weight x 0)) := by
      rw [hout0]; simpa [Pipes.get] using hmsg0
    simp [scheduleTurn, hstage0, hblocked0, hrun0, hget, hwhole0, put_get_self _ _ _ hget]
  -- turn 1: the hidden child, its `8 * n` data bytes do not fit
  obtain ⟨stage1, hstage1, hblocked1, _, hout1, hrun1⟩ :=
    pipeline_step weight x 1 n sched hws hto 1 (by omega)
  have hmsg1 := pipesAfter_message weight x 1 1 (by omega)
  have hsplit := pipeBuffer_split k (afterStage weight x 1) (by omega) (by omega) (by omega)
  have hturn1 : scheduleTurn (pipeBuffer (8 * k)) sched (pipelineStages weight x 1 n)
      { pipes := pipesAfter weight x 1 1, exited := [0] } 1
      = some { pipes := (pipesAfter weight x 1 2).put
                [encodeInt ((afterStage weight x 1).length : Int),
                  ((afterStage weight x 1).take k).flatMap doubleBytes,
                  ((afterStage weight x 1).drop k).flatMap doubleBytes] (Chan.forward 1),
               exited := [1, 0] } := by
    have hget : (pipesAfter weight x 1 (1 + 1)).get stage1.outbound
        = some (writeToPipe [] (afterStage weight x 1)) := by
      rw [hout1]; simpa [Pipes.get] using hmsg1
    have hout1' : stage1.outbound = Chan.forward 1 := by rw [hout1]; simp
    rw [hout1'] at hget
    simp only [Nat.reduceAdd] at hget hrun1
    simp [scheduleTurn, hstage1, hblocked1, hrun1, hget, hsplit, hout1']
  -- turn 2: the output child reads the first `k` elements only
  have hstage2 := pipelineStages_succ weight x 1 n 1 (le_refl _)
  simp only [if_true, decide_True] at hstage2
  have hfwd : ((pipesAfter weight x 1 2).put
      [encodeInt ((afterStage weight x 1).length : Int),
        ((afterStage weight x 1).take k).flatMap doubleBytes,
        ((afterStage weight x 1).drop k).flatMap doubleBytes] (Chan.forward 1)).forward_pipes[1]?
      = some [encodeInt ((afterStage weight x 1).length : Int),
        ((afterStage weight x 1).take k).flatMap doubleBytes,
        ((afterStage weight x 1).drop k).flatMap doubleBytes] := by
    simp only [Pipes.put]
    rw [List.getElem?_set_self]
    rw [pipesAfter_forward_length]; omega
  have hbwd : ((pipesAfter weight x 1 2).put
      [encodeInt ((afterStage weight x 1).length : Int),
        ((afterStage weight x 1).take k).flatMap doubleBytes,
        ((afterStage weight x 1).drop k).flatMap doubleBytes] (Chan.forward 1)).backward_pipe
      = [] := by
    simp [Pipes.put, pipesAfter]
  have htd : (afterStage weight x 1).take k ++ (afterStage weight x 1).drop k
      = afterStage weight x 1 := List.take_append_drop _ _
  have hread := readFromPipe_short ((afterStage weight x 1).take k)
    ((afterStage weight x 1).drop k) [] (by rw [htd]; omega) (by rw [htd]; omega)
  have hdl : ((afterStage weight x 1).drop k).length = n - k := by
    rw [List.length_drop, hlen1]
  rw [htd, List.append_nil, hdl] at hread
  have hout := stageOutputs_eq (sched 2)
    ((afterStage weight x 1).take k ++ List.replicate (n - k) 0) (weight 2)
    (by rw [hwk 2 (by omega) (by omega)]; exact hto.2 2 (by omega) (by omega))
    (by
      intro row hrow
      have := hrowsk 2 (by omega) (by omega) row hrow
      simp only [List.length_append, List.length_take, List.length_replicate, hlen1]
      omega)
  rw [hwk 2 (by omega) (by omega)] at hout
  have hout' : stageOutputs (sched 2)
      ((afterStage weight x 1).take k ++ List.replicate (n - k) 0) (weight 2) n
      = some (layerMap (weight 2)
          ((afterStage weight x 1).take k ++ List.replicate (n - k) 0)) := hout
  have hwhole2 := pipeBuffer_whole (8 * k) (backwardOf (outputSum (layerMap (weight 2)
      ((afterStage weight x 1).take k ++ List.replicate (n - k) 0)))) (by simp [backwardOf])
    (by omega) (by simp [backwardOf]; omega)
  obtain ⟨pipes3, hturn2, hfwd3, hbwd3⟩ : ∃ pipes3,
      scheduleTurn (pipeBuffer (8 * k)) sched (pipelineStages weight x 1 n)
        { pipes := (pipesAfter weight x 1 2).put
                  [encodeInt ((afterStage weight x 1).length : Int),
                    ((afterStage weight x 1).take k).flatMap doubleBytes,
                    ((afterStage weight x 1).drop k).flatMap doubleBytes] (Chan.forward 1),
          exited := [1, 0] } 2
        = some { pipes := pipes3, exited := [2, 1, 0] }
      ∧ pipes3.forward_pipes[1]? = some [((afterStage weight x 1).drop k).flatMap doubleBytes]
      ∧ pipes3.backward_pipe = writeToPipe [] (backwardOf (outputSum (layerMap (weight 2)
          ((afterStage weight x 1).take k ++ List.replicate (n - k) 0)))) := by
    refine ⟨(((pipesAfter weight x 1 2).put
                [encodeInt ((afterStage weight x 1).length : Int),
                  ((afterStage weight x 1).take k).flatMap doubleBytes,
                  ((afterStage weight x 1).drop k).flatMap doubleBytes] (Chan.forward 1)).put
                [((afterStage weight x 1).drop k).flatMap doubleBytes] (Chan.forward 1)).put
                (writeToPipe [] (backwardOf (outputSum (layerMap (weight 2)
                  ((afterStage weight x 1).take k ++ List.replicate (n - k) 0)))))
                Chan.backward, ?_, ?_, rfl⟩
    · simp [scheduleTurn, hstage2, Stage.blocked, hfwd, runStage, Pipes.get, hbwd, layerProcess,
        hread, hout', Stage.outbound, hwhole2]
      simp [Pipes.put, hwhole2]
    · simp only [Pipes.put]
      rw [List.getElem?_set_self]
      simp [pipesAfter_forward_length]
  rw [← pipesAfter_zero weight x 1]
  refine ⟨{ pipes := pipes3, exited := [2, 1, 0] },
    by simp only [runSchedule, hturn0, hturn1, hturn2], rfl, hfwd3, ?_⟩
  show readFromPipe pipes3.backward_pipe = _
  rw [hbwd3]
  have hrt := readFromPipe_writeToPipe (backwardOf (outputSum (layerMap (weight 2)
    ((afterStage weight x 1).take k ++ List.replicate (n - k) 0)))) [] (by simp [backwardOf])
  simpa using hrt

theorem stageUnits_step [DecidableEq D] [Zero D] [One D] [Add D] [Sub D] [Mul D] [Div D]
    [OfNat D 2] (weight : Nat → List (List D)) (x : List D) (h n : Nat)
    (hws : WellSized weight x h n) (j : Nat) (hj : j ≤ h + 1) (stage : Stage D)
    (hstage : (pipelineStages weight x h n)[j]? = some stage) :
    ∃ units, stageUnits stage (pipesAfter weight x h j) = some units
      ∧ units.map (fun u => u.weights) = weight j
      ∧ ∀ u ∈ units, u.inputs = stageInput weight x j := by
  obtain ⟨hn, hw0, hwk, _, _, _⟩ := hws
  cases j with
  | zero =>
    rw [pipelineStages_zero] at hstage
    simp only [Option.some.injEq] at hstage
    subst hstage
    obtain ⟨units, hc, hw, hin⟩ := createUnits_spec x (weight 0) 2 0 (by omega)
    refine ⟨units, hc, ?_, hin⟩
    rw [hw, List.drop_zero, ← hw0, List.take_length]
  | succ i =>
    have hi : i ≤ h := by omega
    rw [pipelineStages_succ weight x h n i hi] at hstage
    simp only [Option.some.injEq] at hstage
    subst hstage
    have hlen : (afterStage weight x i).length < 2147483648 := by
      rw [afterStage_length]
      cases i with
      | zero => rw [hw0]; decide
      | succ i' => rw [hwk (i' + 1) (by omega) (by omega)]; exact hn
    have hrt := readFromPipe_writeToPipe (afterStage weight x i) [] hlen
    rw [List.append_nil] at hrt
    have hwn := hwk (i + 1) (by omega) (by omega)
    obtain ⟨units, hc, hw, hin⟩ := createUnits_spec (afterStage weight x i) (weight (i + 1)) n 0
      (by omega)
    refine ⟨units, ?_, ?_, hin⟩
    · simp only [stageUnits, pipesAfter_message weight x h i hi, hrt, hc]
    · rw [hw, List.drop_zero, ← hwn, List.take_length]

theorem passUnits_pipeline [DecidableEq D] [Zero D] [One D] [Add D] [Sub D] [Mul D] [Div D]
    [OfNat D 2] (weight : Nat → List (List D)) (x : List D) (h n : Nat) (sched : Nat → List Nat)
    (hws : WellSized weight x h n) (hto : ThreadOrders sched h n) (d j : Nat)
    (hd : j + d = h + 2) :
    ∃ units, passUnits sched j ((pipelineStages weight x h n).drop j) (pipesAfter weight x h j)
          = some units
      ∧ (∀ u ∈ units, ∃ i, j ≤ i ∧ i ≤ h + 1 ∧ u.inputs = stageInput weight x i
          ∧ u.weights ∈ weight i)
      ∧ (∀ i, j ≤ i → i ≤ h + 1 → ∀ row ∈ weight i,
          ∃ u ∈ units, u.inputs = stageInput weight x i ∧ u.weights = row) := by
  induction d generalizing j with
  | zero =>
    have hj : j = h + 2 := by omega
    subst hj
    have hdrop : (pipelineStages weight x h n).drop (h + 2) = [] :=
      List.drop_eq_nil_of_le (by rw [pipelineStages_length])
    refine ⟨[], by simp [hdrop, passUnits], by simp, ?_⟩
    intro i h1 h2
    omega
  | succ d ih =>
    obtain ⟨stage, hstage, _, _, _, hrun⟩ := pipeline_step weight x h n sched hws hto j (by omega)
    obtain ⟨units, hunits, hw, hin⟩ := stageUnits_step weight x h n hws j (by omega) stage hstage
    obtain ⟨more, hmore, hall, hex⟩ := ih (j + 1) (by omega)
    refine ⟨units ++ more, ?_, ?_, ?_⟩
    · rw [drop_of_getElem? _ _ _ hstage]
      simp only [passUnits, hunits, hrun, hmore]
    · intro u hu
      rcases List.mem_append.1 hu with hu | hu
      · refine ⟨j, le_refl _, by omega, hin u hu, ?_⟩
        rw [← hw]
        exact List.mem_map_of_mem _ hu
      · obtain ⟨i, h1, h2, h3, h4⟩ := hall u hu
        exact ⟨i, by omega, h2, h3, h4⟩
    · intro i h1 h2 row hrow
      by_cases hij : i = j
      · subst hij
        rw [← hw] at hrow
        obtain ⟨u, hu, rfl⟩ := List.mem_map.1 hrow
        exact ⟨u, List.mem_append_left _ hu, hin u hu, rfl⟩
      · obtain ⟨u, hu, h3, h4⟩ := hex i (by omega) h2 row hrow
        exact ⟨u, List.mem_append_right _ hu, h3, h4⟩

theorem mainUnits_eval {L : Type} [DecidableEq D] [Zero D] [One D] [Add D] [Sub D] [Mul D]
    [Div D] [OfNat D 2] (parseLine : L → List D) (file : List L) (h n : Nat)
    (sched1 sched2 : Nat → List Nat)
    (first : FirstPass D) (hfirst : forkFirstPass parseLine file h n = some first)
    (hws1 : WellSized (stageWeights parseLine file n)
      first.initial_inputs h n)
    (hto1 : ThreadOrders sched1 h n)
    (hws2 : WellSized (stageWeights parseLine file n)
      (sequentialEval (stageWeights parseLine file n)
        first.initial_inputs h) h n)
    (hto2 : ThreadOrders sched2 h n) :
    ∃ units1 units2, mainUnits parseLine file h n sched1 sched2 = some (units1, units2)
      ∧ (∀ u ∈ units1, ∃ i, i ≤ h + 1
          ∧ u.inputs = stageInput (stageWeights parseLine file n)
              first.initial_inputs i
          ∧ u.weights ∈ stageWeights parseLine file n i)
      ∧ (∀ u ∈ units2, ∃ i, i ≤ h + 1
          ∧ u.inputs = stageInput (stageWeights parseLine file n)
              (sequentialEval (stageWeights parseLine file n)
                first.initial_inputs h) i
          ∧ u.weights ∈ stageWeights parseLine file n i)
      ∧ (∀ i, i ≤ h + 1 → ∀ row ∈ stageWeights parseLine file n i,
          ∃ u ∈ units2, u.inputs = stageInput (stageWeights parseLine file n)
              (sequentialEval (stageWeights parseLine file n)
                first.initial_inputs h) i
            ∧ u.weights = row) := by
  have hrun1 := runStages_pipeline _ _ h n sched1 hws1 hto1 (h + 2) 0 (by omega) []
  obtain ⟨units1, hu1, hall1, _⟩ := passUnits_pipeline _ _ h n sched1 hws1 hto1 (h + 2) 0
    (by omega)
  obtain ⟨units2, hu2, hall2, hex2⟩ := passUnits_pipeline _ _ h n sched2 hws2 hto2 (h + 2) 0
    (by omega)
  rw [List.drop_zero, pipesAfter_zero] at hrun1 hu1 hu2
  obtain ⟨hb1, _⟩ := pipesAfter_backward (stageWeights parseLine file n)
    first.initial_inputs h
  have hrt := readFromPipe_writeToPipe (sequentialEval (stageWeights parseLine file n)
    first.initial_inputs h) [] (by simp [sequentialEval, backwardOf])
  rw [List.append_nil] at hrt
  refine ⟨units1, units2, ?_, ?_, ?_, ?_⟩
  · simp only [mainUnits, hfirst, (forkFirstPass_stages parseLine file h n first hfirst).1, hrun1,
      hu1, hb1, hrt, forkSecondPass_stages parseLine file h n first hfirst, hu2]
  · intro u hu
    obtain ⟨i, _, h2, h3, h4⟩ := hall1 u hu
    exact ⟨i, h2, h3, h4⟩
  · intro u hu
    obtain ⟨i, _, h2, h3, h4⟩ := hall2 u hu
    exact ⟨i, h2, h3, h4⟩
  · intro i hi row hrow
    exact hex2 i (by omega) hi row hrow

theorem wellSized_of_wellFormed (weight : Nat → List (List D)) (x : List D) (m h n : Nat)
    (hwf : WellFormed weight m h n) (hx : x.length ≤ m) : WellSized weight x h n := by
  obtain ⟨hn, hw0, hwk, hrows0, hrows1, hrowsk⟩ := hwf
  refine ⟨hn, hw0, hwk, ?_, ?_, ?_⟩
  · intro row hrow; rw [hrows0 row hrow]; exact hx
  · intro row hrow; rw [hrows1 row hrow]
  · intro k h1 h2 row hrow; rw [hrowsk k h1 h2 row hrow]

theorem stageInput_row_length [Zero D] [Add D] [Mul D] (weight : Nat → List (List D))
    (x : List D) (m h n : Nat) (hwf : WellFormed weight m h n) (i : Nat) (hi : i ≤ h + 1)
    (row : List D) (hrow : row ∈ weight i) :
    (stageInput weight x i).length = if i = 0 then x.length else row.length := by
  obtain ⟨_, hw0, hwk, hrows0, hrows1, hrowsk⟩ := hwf
  cases i with
  | zero => simp [stageInput]
  | succ j =>
    simp only [stageInput, afterStage_length, Nat.succ_ne_zero, if_false]
    cases j with
    | zero => rw [hw0, hrows1 row hrow]
    | succ j' =>
      rw [hwk (j' + 1) (by omega) (by omega), hrowsk (j' + 1 + 1) (by omega) hi row hrow]

end Pipeline

section ChannelOps

theorem hidden_ops_count (h i : Nat) :
    ((List.range h).flatMap fun j =>
        [ChanOp.read (Chan.forward j), ChanOp.write (Chan.forward (j + 1))]).count
        (ChanOp.read (Chan.forward i)) = (if i < h then 1 else 0)
      ∧ ((List.range h).flatMap fun j =>
        [ChanOp.read (Chan.forward j), ChanOp.write (Chan.forward (j + 1))]).count
        (ChanOp.write (Chan.forward i)) = (if 1 ≤ i ∧ i ≤ h then 1 else 0)
      ∧ ((List.range h).flatMap fun j =>
        [ChanOp.read (Chan.forward j), ChanOp.write (Chan.forward (j + 1))]).count
        (ChanOp.read Chan.backward) = 0
      ∧ ((List.range h).flatMap fun j =>
        [ChanOp.read (Chan.forward j), ChanOp.write (Chan.forward (j + 1))]).count
        (ChanOp.write Chan.backward) = 0 := by
  induction h with
  | zero =>
    have hne : ¬ (1 ≤ i ∧ i ≤ 0) := by omega
    refine ⟨by simp, ?_, by simp, by simp⟩
    rw [if_neg hne]
    simp
  | succ h ih =>
    obtain ⟨h1, h2, h3, h4⟩ := ih
    simp only [List.range_succ, List.flatMap_append, List.flatMap_cons, List.flatMap_nil,
      List.append_nil, List.count_append, h1, h2, h3, h4, List.count_cons, List.count_nil,
      beq_iff_eq, ChanOp.read.injEq, ChanOp.write.injEq, Chan.forward.injEq, reduceCtorEq,
      if_false, Nat.add_zero, Nat.zero_add]
    refine ⟨?_, ?_, trivial, trivial⟩
    · by_cases hi : i < h
      · have : ¬ h = i := by omega
        have : i < h + 1 := by omega
        simp [*]
      · by_cases hih : h = i
        · subst hih; simp
        · have : ¬ i < h + 1 := by omega
          simp [*]
    · by_cases hi : 1 ≤ i ∧ i ≤ h
      · have : ¬ h + 1 = i := by omega
        have : 1 ≤ i ∧ i ≤ h + 1 := by omega
        simp [*]
      · by_cases hih : h + 1 = i
        · subst hih; simp
        · have : ¬ (1 ≤ i ∧ i ≤ h + 1) := by omega
          simp [*]

theorem pipeline_ops {D : Type} (weight : Nat → List (List D)) (x : List D) (h n : Nat) :
    (pipelineStages weight x h n).flatMap Stage.ops
      = ChanOp.write (Chan.forward 0)
        :: ((List.range h).flatMap fun j =>
            [ChanOp.read (Chan.forward j), ChanOp.write (Chan.forward (j + 1))])
        ++ [ChanOp.read (Chan.forward h), ChanOp.write Chan.backward] := by
  have hmid : (List.range h).flatMap (fun j => Stage.ops
      (Stage.layer j (if j = h then Chan.backward else Chan.forward (j + 1)) n (weight (j + 1))
        (decide (j = h))))
      = (List.range h).flatMap fun j =>
          [ChanOp.read (Chan.forward j), ChanOp.write (Chan.forward (j + 1))] := by
    apply List.flatMap_congr
    intro j hj
    have hne : j ≠ h := Nat.ne_of_lt (List.mem_range.1 hj)
    simp [Stage.ops, hne]
  rw [pipelineStages, List.flatMap_cons, List.flatMap_map, List.range_succ, List.flatMap_append,
    hmid]
  simp [Stage.ops]

theorem pipeline_ops_count {D : Type} (weight : Nat → List (List D)) (x : List D) (h n i : Nat)
    (hi : i ≤ h) :
    ((pipelineStages weight x h n).flatMap Stage.ops).count (ChanOp.write (Chan.forward i)) = 1
      ∧ ((pipelineStages weight x h n).flatMap Stage.ops).count (ChanOp.read (Chan.forward i))
        = 1
      ∧ ((pipelineStages weight x h n).flatMap Stage.ops).count (ChanOp.write Chan.backward) = 1
      ∧ ((pipelineStages weight x h n).flatMap Stage.ops).count (ChanOp.read Chan.backward)
        = 0 := by
  obtain ⟨h1, h2, h3, h4⟩ := hidden_ops_count h i
  rw [pipeline_ops]
  simp only [List.cons_append, List.count_cons, List.count_append, h1, h2,
    (hidden_ops_count h i).2.2.1, (hidden_ops_count h i).2.2.2, List.count_nil, beq_iff_eq,
    ChanOp.read.injEq, ChanOp.write.injEq, Chan.forward.injEq, reduceCtorEq, if_false,
    Nat.add_zero, Nat.zero_add]
  refine ⟨?_, ?_, by simp, by simp⟩
  · by_cases h0 : i = 0
    · subst h0; simp
    · have : 1 ≤ i ∧ i ≤ h := by omega
      have : ¬ 0 = i := by omega
      simp [*]
  · by_cases hih : i = h
    · subst hih; simp
    · have : i < h := by omega
      have : ¬ h = i := by omega
      simp [*]

theorem main_backward_pipes {L D : Type} [DecidableEq D] [Zero D] [One D] [Add D] [Sub D]
    [Mul D] [Div D] [OfNat D 2] (parseLine : L → List D) (file : List L) (h n : Nat)
    (sched1 sched2 : Nat → List Nat) (r : MainResult D)
    (hmain : main parseLine file h n sched1 sched2 = some r) :
    r.first_pipes.backward_pipe = []
      ∧ ∃ v : List D, v.length = 2 ∧ r.second_pipes.backward_pipe = writeToPipe [] v := by
  obtain ⟨first, pipes1, backward_rest, second, pipes2, last2, hfirst, hrun, hread, hsecond,
    hrun2, _, hp1, _, hp2⟩ := main_some parseLine file h n sched1 sched2 r hmain
  obtain ⟨hidden, hhid, _, _, _, hst⟩ := forkFirstPass_some parseLine file h n first hfirst
  have hpre : ∀ (x : List D) (iw : List (List D)),
      ∀ stage ∈ Stage.input 0 x iw :: hidden.1, stage.outbound ≠ Chan.backward := by
    intro x iw stage hstage
    rcases List.mem_cons.1 hstage with rfl | hstage
    · simp [Stage.outbound]
    · obtain ⟨j, _, _, hout⟩ := forkHidden_wiring parseLine file _ _ _ hidden hhid stage hstage
      simp [hout]
  rw [hst] at hrun
  obtain ⟨_, _, hread1⟩ := pass_backward sched1 _ h n _ _ pipes1 r.terminal_sent (hpre _ _) hrun
  rw [hread1, Option.some.injEq, Prod.mk.injEq] at hread
  rw [forkSecondPass_some parseLine file h n hidden hhid, Option.some.injEq] at hsecond
  rw [← hsecond] at hrun2
  obtain ⟨hlen2, hback2, _⟩ := pass_backward sched2 _ h n _ _ pipes2 last2 (hpre _ _) hrun2
  refine ⟨?_, last2, hlen2, ?_⟩
  · rw [hp1]
    exact hread.2.symm
  · rw [hp2]
    exact hback2

end ChannelOps

section ChainScenario

theorem chain_wellFormed :
    WellFormed (stageWeights id 
      [[(1 : ℚ), 2], [0.5, 0.5], [1, 0], [1, 1], [1, 1], [1, 1], [1, 1, 1], [1, 1, 1], [1, 1, 1]] 3) 2 1 3 := by
  refine ⟨by decide, by simp [stageWeights], ?_, ?_, ?_, ?_⟩
  · intro k h1 h2
    interval_cases k <;> simp [stageWeights]
  · intro row hrow
    simp [stageWeights] at hrow
    rcases hrow with rfl | rfl <;> rfl
  · intro row hrow
    simp [stageWeights] at hrow
    subst hrow
    rfl
  · intro k h1 h2 row hrow
    interval_cases k
    simp [stageWeights] at hrow
    subst hrow
    rfl

theorem chain_threadOrders : ThreadOrders (fun k => List.range (if k = 0 then 2 else 3)) 1 3 := by
  refine ⟨List.Perm.refl _, ?_⟩
  intro k h1 h2
  have hk : k ≠ 0 := by omega
  simp [hk]

theorem chain_whole_value :
    sequentialEval (stageWeights id 
      [[(1 : ℚ), 2], [0.5, 0.5], [1, 0], [1, 1], [1, 1], [1, 1], [1, 1, 1], [1, 1, 1], [1, 1, 1]] 3) [1, 2] 1 = [264.875, 241.875] := by
  norm_num [sequentialEval, afterStage, layerMap, dotProduct, backwardOf, outputSum,
    stageWeights]

theorem chain_short_value :
    backwardOf (outputSum (layerMap (stageWeights id 
      [[(1 : ℚ), 2], [0.5, 0.5], [1, 0], [1, 1], [1, 1], [1, 1], [1, 1, 1], [1, 1, 1], [1, 1, 1]] 3 2)
      ((afterStage (stageWeights id 
      [[(1 : ℚ), 2], [0.5, 0.5], [1, 0], [1, 1], [1, 1], [1, 1], [1, 1, 1], [1, 1, 1], [1, 1, 1]] 3) [1, 2] 1).take 2 ++ List.replicate (3 - 2) 0)))
      = [120.5, 105] := by
  norm_num [afterStage, layerMap, dotProduct, backwardOf, outputSum, stageWeights,
    List.replicate]

theorem flat_threadOrders : ThreadOrders (fun k => List.range (2 - k)) 0 1 := by
  refine ⟨List.Perm.refl _, ?_⟩
  intro k h1 h2
  have hk : k = 1 := by omega
  subst hk
  exact List.Perm.refl _

theorem scenario_wellFormed :
    WellFormed (stageWeights id [[(1 : ℚ), 2], [0.5, 0.5], [1, 0], [1, 1]] 1) 2 0 1 := by
  refine ⟨by decide, by simp [stageWeights], ?_, ?_, ?_, ?_⟩
  · intro k h1 h2
    interval_cases k
    simp [stageWeights]
  · intro row hrow
    simp [stageWeights] at hrow
    rcases hrow with rfl | rfl <;> rfl
  · intro row hrow
    simp [stageWeights] at hrow
    subst hrow
    rfl
  · intro k h1 h2
    omega

theorem three_inputs_wellFormed :
    WellFormed (stageWeights id [[(1 : ℚ), 2, 3], [1, 1, 1], [1, 1, 1], [1, 1]] 1) 3 0 1 := by
  refine ⟨by decide, by simp [stageWeights], ?_, ?_, ?_, ?_⟩
  · intro k h1 h2
    interval_cases k
    simp [stageWeights]
  · intro row hrow
    simp [stageWeights] at hrow
    subst hrow
    rfl
  · intro row hrow
    simp [stageWeights] at hrow
    subst hrow
    rfl
  · intro k h1 h2
    omega

theorem chain_firstPass :
    ∃ first, forkFirstPass id
        [[(1 : ℚ), 2], [0.5, 0.5], [1, 0], [1, 1], [1, 1], [1, 1], [1, 1, 1], [1, 1, 1],
          [1, 1, 1]] 1 3 = some first
      ∧ first.initial_inputs = [1, 2] := by
  obtain ⟨first, hfirst⟩ := forkFirstPass_eq id
    [[(1 : ℚ), 2], [0.5, 0.5], [1, 0], [1, 1], [1, 1], [1, 1], [1, 1, 1], [1, 1, 1], [1, 1, 1]]
    1 3 (by decide) (by decide) (by decide)
  obtain ⟨_, _, _, _, hin, _⟩ := forkFirstPass_some _ _ _ _ first hfirst
  exact ⟨first, hfirst, hin⟩

theorem three_inputs_firstPass :
    ∃ first, forkFirstPass id [[(1 : ℚ), 2, 3], [1, 1, 1], [1, 1, 1], [1, 1]] 0 1 = some first
      ∧ first.initial_inputs = [1, 2, 3] := by
  obtain ⟨first, hfirst⟩ := forkFirstPass_eq id
    [[(1 : ℚ), 2, 3], [1, 1, 1], [1, 1, 1], [1, 1]] 0 1 (by decide) (by decide) (by decide)
  obtain ⟨_, _, _, _, hin, _⟩ := forkFirstPass_some _ _ _ _ first hfirst
  exact ⟨first, hfirst, hin⟩

theorem overflow_firstPass :
    forkFirstPass id [[(1 : ℚ), 2], [0.5, 0.5], [1, 0], [1, 1]] 0 2147483647 = none := by
  simp only [forkFirstPass, forkHidden, ite_self,
    readWeights_eq id [[(1 : ℚ), 2], [0.5, 0.5], [1, 0], [1, 1]] 1 2 (by decide) (by decide),
    readWeights_overflow id [[(1 : ℚ), 2], [0.5, 0.5], [1, 0], [1, 1]] (1 + 2) 2147483647
      (by decide) (by decide)]

end ChainScenario

/-! ## The claims -/

section Claims

/-- C1: for an input vector and a weight vector of the same length `n` (any
`n`, so every `n ≥ 1`), `neuron_compute` returns the unit record with `output`
set to the products `inputs[i] * weights[i]` added up from `0` in index order,
and with `inputs`, `weights` and `neuron_id` as they were. -/
theorem neuron_compute_dot_product {D : Type} [Zero D] [Add D] [Mul D] (data : NeuronData D)
    (hlen : data.inputs.length = data.weights.length) :
    neuron_compute data
      = some { inputs := data.inputs, weights := data.weights,
               output := (List.zipWith (fun x w => x * w) data.inputs data.weights).foldl
                 (fun sum p => sum + p) 0,
               neuron_id := data.neuron_id } :=
  neuron_compute_of_le data (le_of_eq hlen)

/-- C1 at the unit with inputs `[1.0, 2.0]` and weights `[0.5, 0.5]`: the output
is `1.5`. -/
theorem neuron_compute_dot_product_witness :
    neuron_compute ({ inputs := [1, 2], weights := [0.5, 0.5], output := 0, neuron_id := 7 } :
        NeuronData ℚ)
      = some { inputs := [1, 2], weights := [0.5, 0.5], output := 1.5, neuron_id := 7 } := by
  rw [neuron_compute_dot_product _ rfl]
  norm_num

/-- C2: in a stage with `n` units (`n = 2` in `inputLayerProcess`,
`n = num_neurons` in `layerProcess`), a weight matrix of `n` rows each as long
as the stage input, and the unit threads completing in any order `sched` (any
permutation of the unit indices), the collected vector `outputs` has `n`
elements, element `i` being the dot product of the stage input with row `i`;
it is the vector `inputLayerProcess` writes to its pipe, and the vector a
non-terminal `layerProcess` writes after reading the stage input. -/
theorem stage_outputs_in_unit_order {D : Type} [DecidableEq D] [Zero D] [One D] [Add D] [Sub D]
    [Mul D] [Div D] [OfNat D 2] (sched : List Nat) (inputs : List D)
    (weights : List (List D)) (n : Nat) (hperm : sched.Perm (List.range n))
    (hrows : weights.length = n) (hsize : ∀ row ∈ weights, row.length = inputs.length) :
    stageOutputs sched inputs weights n = some (weights.map fun row => dotProduct inputs row)
      ∧ (weights.map fun row => dotProduct inputs row).length = n
      ∧ (∀ i, i < n → (weights.map fun row => dotProduct inputs row)[i]?
          = (weights[i]?).map fun row => dotProduct inputs row)
      ∧ (n = 2 → ∀ pipe_fd : Pipe D, inputLayerProcess sched pipe_fd inputs weights
          = some (writeToPipe pipe_fd (weights.map fun row => dotProduct inputs row)))
      ∧ (∀ (read_fd read_rest write_fd : Pipe D) (dummy : List D),
          readFromPipe read_fd = some (inputs, read_rest) →
          layerProcess sched read_fd write_fd n weights false dummy
            = some (read_rest, writeToPipe write_fd (weights.map fun row => dotProduct inputs row),
                dummy)) := by
  subst hrows
  have hout := stageOutputs_eq sched inputs weights hperm
    (fun row hrow => le_of_eq (hsize row hrow).symm)
  refine ⟨hout, by simp, fun i _ => by simp, ?_, ?_⟩
  · intro h2 pipe_fd
    rw [h2] at hout
    simp [inputLayerProcess, hout]
  · intro read_fd read_rest write_fd dummy hread
    simp [layerProcess, hread, hout]

/-- C2 at the input stage of the end-to-end scenario: input `[1.0, 2.0]` and
weights `[[0.5, 0.5], [1.0, 0.0]]` give `[1.5, 1.0]`, here with unit 1
completing before unit 0. -/
theorem stage_outputs_in_unit_order_witness :
    stageOutputs [1, 0] [(1 : ℚ), 2] [[0.5, 0.5], [1, 0]] 2 = some [1.5, 1]
      ∧ inputLayerProcess [1, 0] [] [(1 : ℚ), 2] [[0.5, 0.5], [1, 0]]
          = some (writeToPipe [] [1.5, 1]) := by
  have h := stage_outputs_in_unit_order [1, 0] [(1 : ℚ), 2] [[0.5, 0.5], [1, 0]] 2
    (by decide) rfl (by simp)
  have e : ([[0.5, 0.5], [1, 0]] : List (List ℚ)).map (fun row => dotProduct [(1 : ℚ), 2] row)
      = [1.5, 1] := by
    norm_num [dotProduct]
  rw [e] at h
  exact ⟨h.1, h.2.2.2.1 rfl []⟩

/-- C3 (amended): for every vector `v` of fewer than `2^31` doubles, the empty
vector included, `writeToPipe` on a fresh pipe puts `4 + 8 * len v` bytes into
it, and `readFromPipe` on that pipe, the bytes delivered as written, returns
`v` and leaves in the pipe exactly what follows those bytes. -/
theorem pipe_round_trip {D : Type} [DecidableEq D] [Zero D] (v : List D) (later : Pipe D)
    (hlen : v.length < 2147483648) :
    readFromPipe (writeToPipe [] v) = some (v, [])
      ∧ readFromPipe (writeToPipe [] v ++ later) = some (v, later)
      ∧ (writeToPipe ([] : Pipe D) v).flatten.length = 4 + 8 * v.length := by
  refine ⟨?_, readFromPipe_writeToPipe v later hlen, writeToPipe_bytes v hlen⟩
  have h := readFromPipe_writeToPipe v [] hlen
  simpa using h

/-- C3 (amended) at the vectors `[]` and `[1.5, 1.0]`. -/
theorem pipe_round_trip_witness :
    readFromPipe (writeToPipe [] ([] : List ℚ)) = some ([], [])
      ∧ readFromPipe (writeToPipe [] [(1.5 : ℚ), 1]) = some ([1.5, 1], [])
      ∧ (writeToPipe ([] : Pipe ℚ) [1.5, 1]).flatten.length = 20 :=
  ⟨(pipe_round_trip ([] : List ℚ) [] (by decide)).1,
   (pipe_round_trip [(1.5 : ℚ), 1] [] (by decide)).1,
   (pipe_round_trip [(1.5 : ℚ), 1] [] (by decide)).2.2⟩

/-- C3 as stated fails at a vector of `2^31` doubles: its length becomes the
`int` `-2147483648`, `writeToPipe` writes the four length bytes only, and
`readFromPipe` returns no vector. -/
theorem pipe_round_trip_counterexample :
    (writeToPipe ([] : Pipe ℚ) (List.replicate 2147483648 0)).flatten.length = 4
      ∧ readFromPipe (writeToPipe [] (List.replicate 2147483648 (0 : ℚ))) = none := by
  have hlen : (List.replicate 2147483648 (0 : ℚ)).length = 2147483648 :=
    List.length_replicate _ _
  have hsize : toInt32 (List.replicate 2147483648 (0 : ℚ)).length = -2147483648 := by
    rw [hlen]; rfl
  have hw : writeToPipe ([] : Pipe ℚ) (List.replicate 2147483648 0)
      = [encodeInt (-2147483648)] := by
    rw [writeToPipe_of_nonpos _ _ (by rw [hsize]; decide), hsize]; rfl
  have hdec := decodeInt_encodeInt (D := ℚ) (-2147483648) (by norm_num) (by norm_num)
  rw [hw]
  refine ⟨rfl, ?_⟩
  simp [readFromPipe, sysRead, encodeInt_length, hdec]

/-- C4: a `layerProcess` call whose read yields the stage input and whose
units yield the output vector `outputs` writes, with `is_output = false`,
exactly `outputs` to its outbound pipe, and, with `is_output = true` and any
number of units, exactly the two values `(s*s + s + 1) / 2` and `(s*s - s) / 2`,
`s` being the elements of `outputs` added up from `0`; that two-element
message is what a reader of the pipe gets. -/
theorem layerProcess_message {D : Type} [DecidableEq D] [Zero D] [One D] [Add D] [Sub D]
    [Mul D] [Div D] [OfNat D 2] (sched : List Nat) (read_fd read_rest write_fd : Pipe D)
    (num_neurons : Nat) (weights : List (List D)) (dummy inputs outputs : List D) (s : D)
    (hread : readFromPipe read_fd = some (inputs, read_rest))
    (hout : stageOutputs sched inputs weights num_neurons = some outputs)
    (hs : s = outputs.foldl (fun sum val => sum + val) 0) :
    layerProcess sched read_fd write_fd num_neurons weights false dummy
        = some (read_rest, writeToPipe write_fd outputs, dummy)
      ∧ layerProcess sched read_fd write_fd num_neurons weights true dummy
        = some (read_rest, writeToPipe write_fd [(s * s + s + 1) / 2, (s * s - s) / 2],
            [(s * s + s + 1) / 2, (s * s - s) / 2])
      ∧ [(s * s + s + 1) / 2, (s * s - s) / 2].length = 2
      ∧ readFromPipe (writeToPipe [] [(s * s + s + 1) / 2, (s * s - s) / 2])
        = some ([(s * s + s + 1) / 2, (s * s - s) / 2], []) := by
  subst hs
  refine ⟨?_, ?_, rfl, ?_⟩
  · simp [layerProcess, hread, hout]
  · simp [layerProcess, hread, hout, backwardOf, outputSum]
  · have h := readFromPipe_writeToPipe
      [(outputs.foldl (fun sum val => sum + val) 0
                  * outputs.foldl (fun sum val => sum + val) 0
                  + outputs.foldl (fun sum val => sum + val) 0 + 1) / 2,
               (outputs.foldl (fun sum val => sum + val) 0
                  * outputs.foldl (fun sum val => sum + val) 0
                  - outputs.foldl (fun sum val => sum + val) 0) / 2] [] (by simp)
    simpa using h

/-- C4 at a stage of three units with outputs `[1.0, 0.5, 1.0]`, whose sum is
`2.5`: the hidden call writes the three outputs, the terminal call writes
`[4.875, 1.875]`. -/
theorem layerProcess_message_witness :
    layerProcess [2, 0, 1] (writeToPipe [] [(1 : ℚ)]) [] 3 [[1], [0.5], [1]] false []
        = some ([], writeToPipe [] [1, 0.5, 1], [])
      ∧ layerProcess [2, 0, 1] (writeToPipe [] [(1 : ℚ)]) [] 3 [[1], [0.5], [1]] true []
        = some ([], writeToPipe [] [4.875, 1.875], [4.875, 1.875]) := by
  have hread : readFromPipe (writeToPipe [] [(1 : ℚ)]) = some ([1], []) := by
    simpa using readFromPipe_writeToPipe [(1 : ℚ)] [] (by decide)
  have hout : stageOutputs [2, 0, 1] [(1 : ℚ)] [[1], [0.5], [1]] 3 = some [1, 0.5, 1] :=
    (stageOutputs_eq [2, 0, 1] [(1 : ℚ)] [[1], [0.5], [1]] (by decide) (by simp)).trans
      (by norm_num [dotProduct])
  have h := layerProcess_message [2, 0, 1] (writeToPipe [] [(1 : ℚ)]) [] [] 3
    [[1], [0.5], [1]] [] [1] [1, 0.5, 1] 2.5 hread hout (by norm_num)
  refine ⟨h.1, ?_⟩
  rw [h.2.1]
  norm_num

/-- C5 (amended): with initial input `[1.0, 2.0]`, input-stage weights
`[[0.5, 0.5], [1.0, 0.0]]`, zero hidden layers and a terminal stage of one unit
with weight row `[1.0, 1.0]`, for every completion order of the unit threads
the input stage outputs `[1.5, 1.0]`, the terminal raw sum is `2.5`, and the
backward values the terminal stage sends, the driver reads in pass one, and
that are the input vector of pass two's input stage are `[4.875, 1.875]`. -/
theorem end_to_end_backward_values {L : Type} (parseLine : L → List ℚ) (file : List L)
    (sched1 sched2 : Nat → List Nat)
    (hfile : file.map parseLine = [[1, 2], [0.5, 0.5], [1, 0], [1, 1]])
    (h10 : (sched1 0).Perm [0, 1]) (h11 : (sched1 1).Perm [0])
    (h20 : (sched2 0).Perm [0, 1]) (h21 : (sched2 1).Perm [0]) :
    ∃ r, main parseLine file 0 1 sched1 sched2 = some r
      ∧ r.first_stages = [Stage.input 0 [1, 2] [[0.5, 0.5], [1, 0]],
          Stage.layer 0 Chan.backward 1 [[1, 1]] true]
      ∧ stageOutputs (sched1 0) [(1 : ℚ), 2] [[0.5, 0.5], [1, 0]] 2 = some [1.5, 1]
      ∧ stageOutputs (sched1 1) [(1.5 : ℚ), 1] [[1, 1]] 1 = some [2.5]
      ∧ outputSum [(2.5 : ℚ)] = 2.5
      ∧ backwardOf (2.5 : ℚ) = [4.875, 1.875]
      ∧ r.terminal_sent = [4.875, 1.875]
      ∧ r.backward_values = [4.875, 1.875]
      ∧ r.second_stages.head? = some (Stage.input 0 [4.875, 1.875] [[0.5, 0.5], [1, 0]]) := by
  rw [main_map, hfile, main_scenario sched1 sched2 h10 h11 h20 h21]
  refine ⟨_, rfl, rfl, ?_, ?_, ?_, backwardOf_scenario, rfl, rfl, rfl⟩
  · exact (stageOutputs_eq (sched1 0) [(1 : ℚ), 2] [[0.5, 0.5], [1, 0]] h10 (by simp)).trans
      (by norm_num [dotProduct])
  · exact (stageOutputs_eq (sched1 1) [(1.5 : ℚ), 1] [[1, 1]] h11 (by simp)).trans
      (by norm_num [dotProduct])
  · norm_num [outputSum]

/-- C5 (amended) on the four-line file of the scenario, the units of each
stage completing in index order. -/
theorem end_to_end_backward_values_witness :
    ∃ r, main id [[(1 : ℚ), 2], [0.5, 0.5], [1, 0], [1, 1]] 0 1
          (fun k => List.range (2 - k)) (fun k => List.range (2 - k)) = some r
      ∧ r.terminal_sent = [4.875, 1.875]
      ∧ r.backward_values = [4.875, 1.875]
      ∧ r.second_stages.head? = some (Stage.input 0 [4.875, 1.875] [[0.5, 0.5], [1, 0]]) := by
  obtain ⟨r, hr, _, _, _, _, _, h1, h2, h3⟩ :=
    end_to_end_backward_values id [[(1 : ℚ), 2], [0.5, 0.5], [1, 0], [1, 1]]
      (fun k => List.range (2 - k)) (fun k => List.range (2 - k)) rfl
      (List.Perm.refl _) (List.Perm.refl _) (List.Perm.refl _) (List.Perm.refl _)
  exact ⟨r, hr, h1, h2, h3⟩

/-- C5 as stated fails: in the scenario the driver reads `[4.875, 1.875]`
from the backward channel, not `[5.125, 2.25]`. -/
theorem end_to_end_counterexample :
    (main id [[(1 : ℚ), 2], [0.5, 0.5], [1, 0], [1, 1]] 0 1
        (fun k => List.range (2 - k)) (fun k => List.range (2 - k))).map
        (fun r => r.backward_values) = some [4.875, 1.875]
      ∧ ([4.875, 1.875] : List ℚ) ≠ [5.125, 2.25] := by
  rw [main_scenario _ _ (List.Perm.refl _) (List.Perm.refl _) (List.Perm.refl _)
    (List.Perm.refl _)]
  refine ⟨rfl, ?_⟩
  norm_num

/-- C6 (amended): no fault is signalled for a weight row longer than the
stage input: the unit outputs the dot product of the input with the first
`len(inputs)` weights, and a stage all of whose rows are at least as long as
its input collects those truncated products.  For a weight row shorter than
the input, `weights[i]` is read out of bounds and the unit has no defined
output. -/
theorem row_length_mismatch {D : Type} [Zero D] [Add D] [Mul D] (data : NeuronData D)
    (sched : List Nat) (inputs : List D) (weights : List (List D)) :
    (data.inputs.length < data.weights.length →
        neuron_compute data = some { data with
          output := dotProduct data.inputs (data.weights.take data.inputs.length) })
      ∧ (data.weights.length < data.inputs.length → neuron_compute data = none)
      ∧ (sched.Perm (List.range weights.length) →
          (∀ row ∈ weights, inputs.length ≤ row.length) →
          stageOutputs sched inputs weights weights.length
            = some (weights.map fun row => dotProduct inputs (row.take inputs.length))) := by
  refine ⟨fun h => ?_, neuron_compute_of_lt data, fun hperm hrows => ?_⟩
  · rw [dotProduct_take]
    exact neuron_compute_of_le data (le_of_lt h)
  · simp only [dotProduct_take]
    exact stageOutputs_eq sched inputs weights hperm hrows

/-- C6 (amended) at the input `[1.0]` with the weight row `[1.0, 5.0]`, and at
the input `[1.0, 2.0]` with the weight row `[1.0]`. -/
theorem row_length_mismatch_witness :
    neuron_compute ({ inputs := [1], weights := [1, 5], output := 0, neuron_id := 0 } :
        NeuronData ℚ)
      = some { inputs := [1], weights := [1, 5], output := 1, neuron_id := 0 }
      ∧ neuron_compute ({ inputs := [1, 2], weights := [1], output := 0, neuron_id := 0 } :
        NeuronData ℚ) = none := by
  refine ⟨?_, ?_⟩
  · rw [(row_length_mismatch ({ inputs := [1], weights := [1, 5], output := 0, neuron_id := 0 } :
      NeuronData ℚ) [] [] []).1 (by decide)]
    norm_num [dotProduct]
  · exact (row_length_mismatch
      ({ inputs := [1, 2], weights := [1], output := 0, neuron_id := 0 } : NeuronData ℚ)
      [] [] []).2.1 (by decide)

/-- C6 as stated fails: with the input `[1.0]` and the weight row `[1.0, 5.0]`
the unit returns the output `1.0`, the product over the truncated pairing, and
the stage collects it. -/
theorem row_length_mismatch_counterexample :
    neuron_compute ({ inputs := [1], weights := [1, 5], output := 0, neuron_id := 0 } :
        NeuronData ℚ)
      = some { inputs := [1], weights := [1, 5], output := 1, neuron_id := 0 }
      ∧ stageOutputs [0] [(1 : ℚ)] [[1, 5]] 1 = some [1] := by
  constructor
  · rw [neuron_compute_of_le _ (by decide)]
    norm_num [dotProduct]
  · exact (stageOutputs_eq [0] [(1 : ℚ)] [[1, 5]] (by decide) (by simp)).trans
      (by norm_num [dotProduct])

/-- C7: in every run of `main` that reaches the second pass, the output child
of the first pass wrote one two-element vector to the backward pipe, the
driver's `readFromPipe` on that pipe returned exactly that vector, leaving the
pipe empty, and the input child of the second pass is forked with exactly that
vector as its `initial_inputs` (and with the input weights of the first
pass, the rows `readWeights` returned for the lines from line 1). -/
theorem backward_values_seed_second_pass {L D : Type} [DecidableEq D] [Zero D] [One D] [Add D]
    [Sub D] [Mul D] [Div D] [OfNat D 2] (parseLine : L → List D) (file : List L)
    (num_hidden_layers neurons_per_layer : Nat) (sched1 sched2 : Nat → List Nat)
    (r : MainResult D)
    (hmain : main parseLine file num_hidden_layers neurons_per_layer sched1 sched2 = some r) :
    r.terminal_sent.length = 2
      ∧ r.backward_values = r.terminal_sent
      ∧ ∃ first input_weights,
          forkFirstPass parseLine file num_hidden_layers neurons_per_layer = some first
          ∧ r.first_stages = first.stages
          ∧ readWeights parseLine file 1 2 = some input_weights
          ∧ r.second_stages.head? = some (Stage.input 0 r.backward_values input_weights)
          ∧ ∃ pipes1,
              runStages sched1 0 first.stages
                  { forward_pipes := createPipes (1 + num_hidden_layers + 1),
                    backward_pipe := [] } []
                = some (pipes1, r.terminal_sent)
              ∧ pipes1.backward_pipe = writeToPipe [] r.terminal_sent
              ∧ readFromPipe pipes1.backward_pipe = some (r.backward_values, []) := by
  obtain ⟨first, pipes1, backward_rest, second, pipes2, last2, hfirst, hrun, hread, hsecond,
    _, hs1, _, hs2, _⟩ := main_some parseLine file num_hidden_layers neurons_per_layer sched1
      sched2 r hmain
  obtain ⟨hidden, hhid, hiw, _, _, hst⟩ := forkFirstPass_some parseLine file num_hidden_layers
    neurons_per_layer first hfirst
  have hpre : ∀ stage ∈ Stage.input 0 first.initial_inputs first.input_weights :: hidden.1,
      stage.outbound ≠ Chan.backward := by
    intro stage hstage
    rcases List.mem_cons.1 hstage with rfl | hstage
    · simp [Stage.outbound]
    · obtain ⟨j, _, _, hout⟩ := forkHidden_wiring parseLine file _ _ _ hidden hhid stage hstage
      simp [hout]
  have hrun1 := hrun
  rw [hst] at hrun1
  obtain ⟨hlen, hback, hread1⟩ := pass_backward sched1 _ num_hidden_layers neurons_per_layer
    _ _ pipes1 r.terminal_sent hpre hrun1
  have hbv : r.backward_values = r.terminal_sent := by
    rw [hread1, Option.some.injEq, Prod.mk.injEq] at hread
    exact hread.1.symm
  rw [forkSecondPass_some parseLine file num_hidden_layers neurons_per_layer hidden hhid,
    Option.some.injEq] at hsecond
  refine ⟨hlen, hbv, first, first.input_weights, hfirst, hs1, hiw, ?_, pipes1, hrun, hback, ?_⟩
  · rw [hs2, ← hsecond]
    rfl
  · rw [hbv]
    exact hread1

/-- C7 on the four-line file of the end-to-end scenario. -/
theorem backward_values_seed_second_pass_witness :
    ∃ r, main id [[(1 : ℚ), 2], [0.5, 0.5], [1, 0], [1, 1]] 0 1
          (fun k => List.range (2 - k)) (fun k => List.range (2 - k)) = some r
      ∧ r.terminal_sent.length = 2
      ∧ r.backward_values = r.terminal_sent
      ∧ ∃ input_weights,
          readWeights id [[(1 : ℚ), 2], [0.5, 0.5], [1, 0], [1, 1]] 1 2 = some input_weights
          ∧ r.second_stages.head? = some (Stage.input 0 r.backward_values input_weights) := by
  have hmain := main_scenario (fun k => List.range (2 - k)) (fun k => List.range (2 - k))
    (List.Perm.refl _) (List.Perm.refl _) (List.Perm.refl _) (List.Perm.refl _)
  obtain ⟨h1, h2, _, input_weights, _, _, h3, h4, _⟩ :=
    backward_values_seed_second_pass id [[(1 : ℚ), 2], [0.5, 0.5], [1, 0], [1, 1]] 0 1
      (fun k => List.range (2 - k)) (fun k => List.range (2 - k)) _ hmain
  exact ⟨_, hmain, h1, h2, input_weights, h3, h4⟩

/-- C8 (amended): for every number `H` of hidden layers and unit count `n ≥ 1`
whose line numbers fit the program's `int`, `3 + (H + 1) * n < 2^31`, and an
unchanged file of fewer than `2^31` lines, the line arithmetic of both passes
is defined and the children forked in pass one and in pass two both number
`H + 2`, have the unit counts `(2, n, ..., n)`, and have the same
weight matrices: the input stage the parses of file lines 1..2, hidden stage
`k + 1` those of lines `3 + k*n .. 3 + (k+1)*n - 1`, the output stage those of
lines `3 + H*n .. 3 + (H+1)*n - 1` (as far as the file has these lines); they
are wired to the same pipes, and all children but the input child, which
differs in its input vector only, are the same. -/
theorem second_pass_same_topology {L D : Type} (parseLine : L → List D) (file : List L)
    (num_hidden_layers neurons_per_layer : Nat) (backward_values : List D)
    (hn : 1 ≤ neurons_per_layer) (hfile : file.length < 2147483648)
    (hlines : 3 + (num_hidden_layers + 1) * neurons_per_layer < 2147483648) :
    ∃ first second,
      forkFirstPass parseLine file num_hidden_layers neurons_per_layer = some first
      ∧ forkSecondPass parseLine file num_hidden_layers neurons_per_layer backward_values
          first.input_weights first.output_weights = some second
      ∧ first.stages.length = num_hidden_layers + 2
      ∧ first.stages.map Stage.unitCount
        = 2 :: List.replicate (num_hidden_layers + 1) neurons_per_layer
      ∧ first.stages.map Stage.weightMatrix
        = ((file.drop 1).take 2).map parseLine
          :: ((List.range num_hidden_layers).map fun k =>
              ((file.drop (3 + k * neurons_per_layer)).take neurons_per_layer).map parseLine)
          ++ [((file.drop (3 + num_hidden_layers * neurons_per_layer)).take
              neurons_per_layer).map parseLine]
      ∧ first.stages.head?
        = some (Stage.input 0 first.initial_inputs (((file.drop 1).take 2).map parseLine))
      ∧ second.head?
        = some (Stage.input 0 backward_values (((file.drop 1).take 2).map parseLine))
      ∧ second.tail = first.stages.tail
      ∧ second.length = num_hidden_layers + 2
      ∧ second.map
          (fun stage => (stage.unitCount, stage.weightMatrix, stage.inbound, stage.outbound))
        = first.stages.map
          (fun stage => (stage.unitCount, stage.weightMatrix, stage.inbound, stage.outbound)) := by
  have hlayers : num_hidden_layers + 2 < 2147483648 := by
    have := Nat.le_mul_of_pos_right (num_hidden_layers + 1) hn
    omega
  obtain ⟨first, hfirst⟩ := forkFirstPass_eq parseLine file num_hidden_layers neurons_per_layer
    hfile hlayers hlines
  obtain ⟨hst, _, _⟩ := forkFirstPass_stages parseLine file num_hidden_layers neurons_per_layer
    first hfirst
  have hsecond := forkSecondPass_stages parseLine file num_hidden_layers neurons_per_layer
    first hfirst backward_values
  obtain ⟨hhead, htail, hshape⟩ := pipelineStages_same_shape
    (stageWeights parseLine file neurons_per_layer) first.initial_inputs backward_values
    num_hidden_layers neurons_per_layer
  refine ⟨first, _, hfirst, hsecond, ?_, ?_, ?_, ?_, hhead, ?_, ?_, ?_⟩
  · rw [hst, pipelineStages_length]
  · rw [hst, pipelineStages_unitCount]
  · rw [hst, pipelineStages_weightMatrix, List.range_succ, List.map_append]
    rfl
  · rw [hst]
    rfl
  · rw [hst]
    exact htail
  · rw [pipelineStages_length]
  · rw [hst]
    exact hshape

/-- C8 (amended) on the four-line file of the end-to-end scenario with no
hidden layer and one output unit. -/
theorem second_pass_same_topology_witness :
    ∃ first second,
      forkFirstPass id [[(1 : ℚ), 2], [0.5, 0.5], [1, 0], [1, 1]] 0 1 = some first
      ∧ forkSecondPass id [[(1 : ℚ), 2], [0.5, 0.5], [1, 0], [1, 1]] 0 1 [4.875, 1.875]
          first.input_weights first.output_weights = some second
      ∧ first.stages.map Stage.weightMatrix = [[[0.5, 0.5], [1, 0]], [[1, 1]]]
      ∧ second.map Stage.weightMatrix = [[[0.5, 0.5], [1, 0]], [[1, 1]]]
      ∧ second.tail = first.stages.tail := by
  obtain ⟨first, second, h1, h2, _, _, h3, _, _, h4, _, h5⟩ :=
    second_pass_same_topology id [[(1 : ℚ), 2], [0.5, 0.5], [1, 0], [1, 1]] 0 1
      [4.875, 1.875] (by decide) (by decide) (by decide)
  have h6 := congrArg (List.map fun q : Nat × List (List ℚ) × Option Nat × Chan => q.2.1) h5
  simp only [List.map_map, Function.comp_def] at h6
  refine ⟨first, second, h1, h2, ?_, ?_, h4⟩
  · rw [h3]
    simp
  · show second.map (fun stage => stage.weightMatrix) = _
    rw [h6]
    show first.stages.map Stage.weightMatrix = _
    rw [h3]
    simp

/-- C8 as stated fails: with no hidden layer and `n = 2147483647` output units
on the four-line file of the end-to-end scenario, the output stage's
`readWeights(filename, 3, n)` adds `3 + n` in `int` at file line 3, which
overflows: the line arithmetic has no defined value and no pipeline with the
stated weight matrices is built. -/
theorem second_pass_same_topology_counterexample :
    1 ≤ 2147483647
      ∧ readWeights id [[(1 : ℚ), 2], [0.5, 0.5], [1, 0], [1, 1]] 3 2147483647 = none
      ∧ forkFirstPass id [[(1 : ℚ), 2], [0.5, 0.5], [1, 0], [1, 1]] 0 2147483647 = none
      ∧ ∀ sched1 sched2 : Nat → List Nat,
          main id [[(1 : ℚ), 2], [0.5, 0.5], [1, 0], [1, 1]] 0 2147483647 sched1 sched2
            = none := by
  refine ⟨by decide, readWeights_overflow _ _ _ _ (by decide) (by decide), overflow_firstPass,
    ?_⟩
  intro sched1 sched2
  simp only [main, overflow_firstPass]

/-- C9 (amended): for every file of fewer than `2^31` lines and every
`start_line` and `num_lines` with `start_line + num_lines < 2^31`,
`readWeights` returns the parses of those file lines numbered `start_line` to
`start_line + num_lines - 1` that exist, in file order: row `k` is the parse of
line `start_line + k`, and there are `min num_lines (lines - start_line)` rows,
which is `num_lines` exactly when the file has at least
`start_line + num_lines` lines or `num_lines` is `0`.  When the sum of the
`int`s `start_line` and `num_lines` is `2^31` or more and the file has a line
`start_line`, the sum overflows and `readWeights` has no defined result. -/
theorem readWeights_rows {L D : Type} (parseLine : L → List D) (file : List L)
    (start_line num_lines : Nat) (hfile : file.length < 2147483648) :
    (start_line + num_lines < 2147483648 →
        ∃ rows, readWeights parseLine file start_line num_lines = some rows
          ∧ rows = ((file.drop start_line).take num_lines).map parseLine
          ∧ rows.length = min num_lines (file.length - start_line)
          ∧ (∀ k, k < rows.length → rows[k]? = (file[start_line + k]?).map parseLine)
          ∧ (rows.length = num_lines
              ↔ (start_line + num_lines ≤ file.length ∨ num_lines = 0)))
      ∧ (start_line < file.length → num_lines < 2147483648 →
          2147483648 ≤ start_line + num_lines →
          readWeights parseLine file start_line num_lines = none) := by
  refine ⟨fun hsum => ?_, fun hline _ hover => readWeights_overflow _ _ _ _ hline hover⟩
  have hlen : (((file.drop start_line).take num_lines).map parseLine).length
      = min num_lines (file.length - start_line) := by
    simp
  refine ⟨_, readWeights_eq _ _ _ _ hfile hsum, rfl, hlen, ?_, ?_⟩
  · intro k hk
    rw [hlen] at hk
    have hk1 : k < num_lines := lt_of_lt_of_le hk (min_le_left _ _)
    simp [List.getElem?_take, hk1]
  · rw [hlen]
    constructor
    · intro h
      have := min_le_right num_lines (file.length - start_line)
      omega
    · intro h
      rcases h with h | h
      · exact min_eq_left (by omega)
      · simp [h]

/-- C9 (amended) on the four-line file of the end-to-end scenario: the two
rows from line 1 are the input-stage weights. -/
theorem readWeights_rows_witness :
    readWeights id [[(1 : ℚ), 2], [0.5, 0.5], [1, 0], [1, 1]] 1 2
      = some [[0.5, 0.5], [1, 0]] := by
  obtain ⟨rows, h1, h2, _⟩ :=
    (readWeights_rows id [[(1 : ℚ), 2], [0.5, 0.5], [1, 0], [1, 1]] 1 2 (by decide)).1
      (by decide)
  rw [h1, h2]
  rfl

/-- C9 as stated fails: on the four-line file of the end-to-end scenario a
request for one row at line 4 returns no row. -/
theorem readWeights_rows_counterexample :
    readWeights id [[(1 : ℚ), 2], [0.5, 0.5], [1, 0], [1, 1]] 4 1 = some []
      ∧ ([] : List (List ℚ)).length ≠ 1 := by
  refine ⟨?_, by decide⟩
  rw [readWeights_eq _ _ _ _ (by decide) (by decide)]
  rfl

/-- C10 (what the code does): for every number `H` of hidden layers, in every
run whose `int` line arithmetic is defined, `main` creates `H + 2` forward pipes per
pass, not `H + 1`; the children of either pass read the forward pipes `0..H`
and write the forward pipes `0..H` and the backward pipe, no child reads or
writes forward pipe `H + 1`, and in every completed run that pipe is still as
`pipe()` created it at the end of each pass. -/
theorem forward_pipe_allocation {L D : Type} [DecidableEq D] [Zero D] [One D] [Add D] [Sub D]
    [Mul D] [Div D] [OfNat D 2] (parseLine : L → List D) (file : List L)
    (num_hidden_layers neurons_per_layer : Nat) (backward_values : List D)
    (first : FirstPass D)
    (hfirst : forkFirstPass parseLine file num_hidden_layers neurons_per_layer = some first) :
    (createPipes (1 + num_hidden_layers + 1) : List (Pipe D)).length = num_hidden_layers + 2
      ∧ (∀ stage ∈ first.stages,
          stage.inbound ≠ some (num_hidden_layers + 1)
            ∧ stage.outbound ≠ Chan.forward (num_hidden_layers + 1))
      ∧ (∃ second,
          forkSecondPass parseLine file num_hidden_layers neurons_per_layer backward_values
              first.input_weights first.output_weights = some second
            ∧ ∀ stage ∈ second,
                stage.inbound ≠ some (num_hidden_layers + 1)
                  ∧ stage.outbound ≠ Chan.forward (num_hidden_layers + 1))
      ∧ first.stages.map Stage.outbound
        = ((List.range (num_hidden_layers + 1)).map Chan.forward) ++ [Chan.backward]
      ∧ first.stages.map Stage.inbound
        = none :: (List.range (num_hidden_layers + 1)).map some
      ∧ (∀ (sched1 sched2 : Nat → List Nat) (r : MainResult D),
          main parseLine file num_hidden_layers neurons_per_layer sched1 sched2 = some r →
          r.first_pipes.forward_pipes[num_hidden_layers + 1]? = some []
            ∧ r.second_pipes.forward_pipes[num_hidden_layers + 1]? = some []) := by
  obtain ⟨hst, _, _⟩ := forkFirstPass_stages parseLine file num_hidden_layers neurons_per_layer
    first hfirst
  have hsec := forkSecondPass_stages parseLine file num_hidden_layers neurons_per_layer
    first hfirst
  have hfresh : (createPipes (1 + num_hidden_layers + 1) : List (Pipe D))[num_hidden_layers + 1]?
      = some [] := by
    simp only [createPipes]
    rw [List.getElem?_replicate]
    simp
  refine ⟨by simp [createPipes]; omega, ?_, ⟨_, hsec backward_values, ?_⟩, ?_, ?_, ?_⟩
  · rw [hst]
    exact pipelineStages_unused _ _ _ _
  · exact pipelineStages_unused _ _ _ _
  · rw [hst, pipelineStages_outbound]
  · rw [hst, pipelineStages_inbound]
  · intro sched1 sched2 r hmain
    obtain ⟨first', pipes1, backward_rest, second, pipes2, last2, hfirst', hrun, _, hsecond,
      hrun2, _, hp1, _, hp2⟩ := main_some parseLine file num_hidden_layers neurons_per_layer
        sched1 sched2 r hmain
    rw [hfirst, Option.some.injEq] at hfirst'
    subst hfirst'
    rw [hsec, Option.some.injEq] at hsecond
    rw [hst] at hrun
    rw [← hsecond] at hrun2
    have h1 := runStages_untouched sched1 _ 0 _ pipes1 [] r.terminal_sent (num_hidden_layers + 1)
      (pipelineStages_unused _ _ _ _) hrun
    have h2 := runStages_untouched sched2 _ 0 _ pipes2 [] last2 (num_hidden_layers + 1)
      (pipelineStages_unused _ _ _ _) hrun2
    rw [hp1, hp2]
    exact ⟨h1.trans hfresh, h2.trans hfresh⟩

/-- C10 at `num_hidden_layers = 0` on the four-line file of the end-to-end
scenario: two forward pipes exist in each pass and the second is never used. -/
theorem forward_pipe_allocation_witness :
    ∃ r, main id [[(1 : ℚ), 2], [0.5, 0.5], [1, 0], [1, 1]] 0 1
          (fun k => List.range (2 - k)) (fun k => List.range (2 - k)) = some r
      ∧ r.first_pipes.forward_pipes.length = 2
      ∧ r.first_pipes.forward_pipes[1]? = some []
      ∧ r.second_pipes.forward_pipes[1]? = some [] := by
  have hmain := main_scenario (fun k => List.range (2 - k)) (fun k => List.range (2 - k))
    (List.Perm.refl _) (List.Perm.refl _) (List.Perm.refl _) (List.Perm.refl _)
  have h := (forward_pipe_allocation id [[(1 : ℚ), 2], [0.5, 0.5], [1, 0], [1, 1]] 0 1
    [] _ scenario_firstPass).2.2.2.2.2 _ _ _ hmain
  exact ⟨_, hmain, rfl, h.1, h.2⟩

/-- C11 (what the code does): for every number `H` of hidden layers, unit count
`n`, input vector and well-formed weight matrices, in a run whose `int` line
arithmetic is defined, the children of a pass are wired in a chain (child `k`
reads the pipe child `k - 1` writes, and has the weight matrix read from the
file lines of stage `k`), and when the transport hands every message to its
reader whole, then for every sequence of scheduler turns the run does not
fail, and once every child has exited the driver's `readFromPipe` on the
backward pipe returns `T(L_{H+1}(... L_0(input) ...))`; the turns
`0, 1, ..., H+1` are such a run, and it is what `main` reads after its first
pass.
When the pipe buffer holds only `k < n` elements (here for `H = 1`), the output
child's single `read` gets the first `k` outputs of the hidden child, the
other `n - k` stay `0.0`, and the driver reads `T(L_2(...))` of that vector
instead. -/
theorem stage_pipeline_schedules {L D : Type} [DecidableEq D] [Zero D] [One D] [Add D] [Sub D]
    [Mul D] [Div D] [OfNat D 2] (parseLine : L → List D) (file : List L)
    (num_hidden_layers neurons_per_layer : Nat) (sched : Nat → List Nat)
    (first : FirstPass D)
    (hfirst : forkFirstPass parseLine file num_hidden_layers neurons_per_layer = some first)
    (hwf : WellFormed (stageWeights parseLine file neurons_per_layer)
      first.initial_inputs.length num_hidden_layers neurons_per_layer)
    (hto : ThreadOrders sched num_hidden_layers neurons_per_layer) :
    (first.stages.map Stage.inbound
        = none :: (List.range (num_hidden_layers + 1)).map some
      ∧ first.stages.map Stage.outbound
        = (List.range (num_hidden_layers + 1)).map Chan.forward ++ [Chan.backward]
      ∧ first.stages.map Stage.weightMatrix
        = stageWeights parseLine file neurons_per_layer 0
          :: (List.range (num_hidden_layers + 1)).map fun j =>
              stageWeights parseLine file neurons_per_layer (j + 1))
      ∧ (∀ order : List Nat, ∃ state,
          runSchedule wholeDelivery sched first.stages order
              { pipes := { forward_pipes := createPipes (1 + num_hidden_layers + 1),
                           backward_pipe := [] },
                exited := [] } = some state
            ∧ ((∀ i, i < num_hidden_layers + 2 → i ∈ state.exited) →
                readFromPipe state.pipes.backward_pipe
                  = some (sequentialEval (stageWeights parseLine file neurons_per_layer)
                      first.initial_inputs num_hidden_layers, [])))
      ∧ (∀ (sched2 : Nat → List Nat) (r : MainResult D),
          main parseLine file num_hidden_layers neurons_per_layer sched sched2 = some r →
          r.backward_values
            = sequentialEval (stageWeights parseLine file neurons_per_layer)
                first.initial_inputs num_hidden_layers)
      ∧ (∃ state,
          runSchedule wholeDelivery sched first.stages (List.range (num_hidden_layers + 2))
              { pipes := { forward_pipes := createPipes (1 + num_hidden_layers + 1),
                           backward_pipe := [] },
                exited := [] } = some state
            ∧ ∀ i, i < num_hidden_layers + 2 → i ∈ state.exited)
      ∧ (num_hidden_layers = 1 → ∀ k, 2 ≤ k → k < neurons_per_layer → ∃ state,
          runSchedule (pipeBuffer (8 * k)) sched first.stages [0, 1, 2]
              { pipes := { forward_pipes := createPipes (1 + 1 + 1), backward_pipe := [] },
                exited := [] } = some state
            ∧ state.exited = [2, 1, 0]
            ∧ readFromPipe state.pipes.backward_pipe
              = some (backwardOf (outputSum (layerMap
                  (stageWeights parseLine file neurons_per_layer 2)
                  ((afterStage (stageWeights parseLine file neurons_per_layer)
                      first.initial_inputs 1).take k
                    ++ List.replicate (neurons_per_layer - k) 0))), [])) := by
  have hws := wellSized_of_wellFormed _ first.initial_inputs _ _ _ hwf (le_refl _)
  have hstages := (forkFirstPass_stages parseLine file num_hidden_layers neurons_per_layer
    first hfirst).1
  refine ⟨⟨?_, ?_, ?_⟩, ?_, ?_, ?_, ?_⟩
  · rw [hstages, pipelineStages_inbound]
  · rw [hstages, pipelineStages_outbound]
  · rw [hstages, pipelineStages_weightMatrix]
  · intro order
    rw [hstages]
    obtain ⟨state, hrun, hall⟩ := schedule_refines_sequential _ _ num_hidden_layers
      neurons_per_layer sched hws hto order
    exact ⟨state, hrun, fun hex => (hall hex).2.2⟩
  · intro sched2 r hmain
    exact (main_first_read parseLine file num_hidden_layers neurons_per_layer sched sched2
      first hfirst hws hto r hmain).2
  · rw [hstages]
    obtain ⟨exited', hex, hrun⟩ := runSchedule_pipeline_order _ _ num_hidden_layers
      neurons_per_layer sched hws hto (num_hidden_layers + 2) 0 (by omega) [] (by simp)
    rw [pipesAfter_zero, ← List.range_eq_range'] at hrun
    exact ⟨_, hrun, fun i hi => (hex i).2 hi⟩
  · intro h1 k hk hkn
    subst h1
    rw [hstages]
    obtain ⟨state, hrun, hex, _, hread⟩ := short_delivery_run _ _ neurons_per_layer k sched hws
      hto hk hkn
    exact ⟨state, hrun, hex, hread⟩

/-- C11 on a nine-line file with one hidden layer of three units, the children
scheduled in pipeline order: with every message delivered whole the driver
reads `[264.875, 241.875]`, the sequential evaluation; with a pipe buffer of 16
bytes it reads `[120.5, 105.0]`. -/
theorem stage_pipeline_schedules_witness :
    ∃ first, forkFirstPass id
        [[(1 : ℚ), 2], [0.5, 0.5], [1, 0], [1, 1], [1, 1], [1, 1], [1, 1, 1], [1, 1, 1],
          [1, 1, 1]] 1 3 = some first
      ∧ (∃ state, runSchedule wholeDelivery (fun k => List.range (if k = 0 then 2 else 3))
          first.stages [0, 1, 2]
          { pipes := { forward_pipes := createPipes (1 + 1 + 1), backward_pipe := [] },
            exited := [] } = some state
        ∧ readFromPipe state.pipes.backward_pipe = some ([264.875, 241.875], []))
      ∧ (∃ state, runSchedule (pipeBuffer (8 * 2)) (fun k => List.range (if k = 0 then 2 else 3))
          first.stages [0, 1, 2]
          { pipes := { forward_pipes := createPipes (1 + 1 + 1), backward_pipe := [] },
            exited := [] } = some state
        ∧ readFromPipe state.pipes.backward_pipe = some ([120.5, 105], [])) := by
  obtain ⟨first, hfirst, hin⟩ := chain_firstPass
  have hwf : WellFormed (stageWeights id
      [[(1 : ℚ), 2], [0.5, 0.5], [1, 0], [1, 1], [1, 1], [1, 1], [1, 1, 1], [1, 1, 1],
        [1, 1, 1]] 3) first.initial_inputs.length 1 3 := by
    rw [hin]
    exact chain_wellFormed
  obtain ⟨_, hwhole, _, ⟨state, hrun, hall⟩, hshort⟩ :=
    stage_pipeline_schedules id
      [[(1 : ℚ), 2], [0.5, 0.5], [1, 0], [1, 1], [1, 1], [1, 1], [1, 1, 1], [1, 1, 1],
        [1, 1, 1]] 1 3 (fun k => List.range (if k = 0 then 2 else 3)) first hfirst hwf
      chain_threadOrders
  refine ⟨first, hfirst, ?_, ?_⟩
  · obtain ⟨state1, hrun1, hread⟩ := hwhole (List.range (1 + 2))
    rw [hrun] at hrun1
    simp only [Option.some.injEq] at hrun1
    subst hrun1
    refine ⟨state, hrun, ?_⟩
    rw [hread hall, hin]
    exact congrArg (fun v => some (v, ([] : Pipe ℚ))) chain_whole_value
  · obtain ⟨state1, hrun1, _, hread⟩ := hshort rfl 2 (le_refl _) (by decide)
    refine ⟨state1, hrun1, ?_⟩
    rw [hread, hin]
    exact congrArg (fun v => some (v, ([] : Pipe ℚ))) chain_short_value

/-- C12 (amended): in every run whose `int` line arithmetic is defined and
whose weight matrices are well-formed for pass one with an initial input
vector of length `m ≥ 2` (input-stage rows of length `m`, rows of the stage
after it of length 2, rows of every later stage of length `n`), every unit
record built in pass one has `inputs` and `weights` of the same length; in pass two every unit pairs either vectors of the same
length or, in the input stage, the two backward values with a weight row of
length `m`; so for `m = 2` every unit record of both passes has `inputs` and
`weights` of the same length. -/
theorem unit_lengths_match {L D : Type} [DecidableEq D] [Zero D] [One D] [Add D] [Sub D]
    [Mul D] [Div D] [OfNat D 2] (parseLine : L → List D) (file : List L)
    (num_hidden_layers neurons_per_layer : Nat) (sched1 sched2 : Nat → List Nat)
    (first : FirstPass D)
    (hfirst : forkFirstPass parseLine file num_hidden_layers neurons_per_layer = some first)
    (hwf : WellFormed (stageWeights parseLine file neurons_per_layer)
      first.initial_inputs.length num_hidden_layers neurons_per_layer)
    (hm : 2 ≤ first.initial_inputs.length)
    (hto1 : ThreadOrders sched1 num_hidden_layers neurons_per_layer)
    (hto2 : ThreadOrders sched2 num_hidden_layers neurons_per_layer) :
    ∃ units1 units2,
      mainUnits parseLine file num_hidden_layers neurons_per_layer sched1 sched2
          = some (units1, units2)
        ∧ (∀ u ∈ units1, u.inputs.length = u.weights.length)
        ∧ (∀ u ∈ units2, u.inputs.length = u.weights.length
            ∨ (u.inputs.length = 2 ∧ u.weights.length = first.initial_inputs.length))
        ∧ (first.initial_inputs.length = 2 →
            ∀ u ∈ units1 ++ units2, u.inputs.length = u.weights.length) := by
  have hseq : (sequentialEval (stageWeights parseLine file neurons_per_layer)
      first.initial_inputs num_hidden_layers).length = 2 := by
    simp [sequentialEval, backwardOf]
  have hws1 := wellSized_of_wellFormed _ first.initial_inputs _ _ _ hwf (le_refl _)
  have hws2 := wellSized_of_wellFormed _
    (sequentialEval (stageWeights parseLine file neurons_per_layer)
      first.initial_inputs
      num_hidden_layers) _ _ _ hwf (by rw [hseq]; exact hm)
  obtain ⟨units1, units2, hrun, hall1, hall2, _⟩ := mainUnits_eval parseLine file
    num_hidden_layers neurons_per_layer sched1 sched2 first hfirst hws1 hto1 hws2 hto2
  have h1 : ∀ u ∈ units1, u.inputs.length = u.weights.length := by
    intro u hu
    obtain ⟨i, hi, hin, hw⟩ := hall1 u hu
    rw [hin, stageInput_row_length _ _ _ _ _ hwf i hi _ hw]
    split
    · rename_i h0
      subst h0
      exact (hwf.2.2.2.1 _ hw).symm
    · rfl
  have h2 : ∀ u ∈ units2, u.inputs.length = u.weights.length
      ∨ (u.inputs.length = 2
        ∧ u.weights.length = first.initial_inputs.length) := by
    intro u hu
    obtain ⟨i, hi, hin, hw⟩ := hall2 u hu
    rw [hin, stageInput_row_length _ _ _ _ _ hwf i hi _ hw]
    split
    · rename_i h0
      subst h0
      exact Or.inr ⟨hseq, hwf.2.2.2.1 _ hw⟩
    · exact Or.inl rfl
  refine ⟨units1, units2, hrun, h1, h2, ?_⟩
  intro hm2 u hu
  rcases List.mem_append.1 hu with hu | hu
  · exact h1 u hu
  · rcases h2 u hu with h | ⟨ha, hb⟩
    · exact h
    · rw [ha, hb, hm2]

/-- C12 (amended) on the four-line file of the end-to-end scenario, whose
initial input vector has two elements. -/
theorem unit_lengths_match_witness :
    ∃ units1 units2,
      mainUnits id [[(1 : ℚ), 2], [0.5, 0.5], [1, 0], [1, 1]] 0 1
          (fun k => List.range (2 - k)) (fun k => List.range (2 - k)) = some (units1, units2)
        ∧ ∀ u ∈ units1 ++ units2, u.inputs.length = u.weights.length := by
  obtain ⟨units1, units2, hrun, _, _, hall⟩ :=
    unit_lengths_match id [[(1 : ℚ), 2], [0.5, 0.5], [1, 0], [1, 1]] 0 1
      (fun k => List.range (2 - k)) (fun k => List.range (2 - k)) _ scenario_firstPass
      scenario_wellFormed (le_refl _) flat_threadOrders flat_threadOrders
  exact ⟨units1, units2, hrun, hall rfl⟩

/-- C12 as stated fails for an initial input vector of length 3: the weight
matrices of the four-line file below are well-formed for pass one, and in
pass two a unit of the input stage pairs the two backward values with a
weight row of length 3. -/
theorem unit_lengths_match_counterexample :
    WellFormed (stageWeights id [[(1 : ℚ), 2, 3], [1, 1, 1], [1, 1, 1], [1, 1]] 1) 3 0 1
      ∧ ∃ units1 units2,
          mainUnits id [[(1 : ℚ), 2, 3], [1, 1, 1], [1, 1, 1], [1, 1]] 0 1
              (fun k => List.range (2 - k)) (fun k => List.range (2 - k))
            = some (units1, units2)
          ∧ ∃ u ∈ units2, u.inputs.length = 2 ∧ u.weights.length = 3 := by
  refine ⟨three_inputs_wellFormed, ?_⟩
  obtain ⟨first, hfirst, hin⟩ := three_inputs_firstPass
  have hseq : (sequentialEval (stageWeights id [[(1 : ℚ), 2, 3], [1, 1, 1], [1, 1, 1], [1, 1]] 1)
      first.initial_inputs 0).length = 2 := by
    simp [sequentialEval, backwardOf]
  have hws1 := wellSized_of_wellFormed _ first.initial_inputs _ _ _
    three_inputs_wellFormed (by rw [hin]; decide)
  have hws2 := wellSized_of_wellFormed _
    (sequentialEval (stageWeights id [[(1 : ℚ), 2, 3], [1, 1, 1], [1, 1, 1], [1, 1]] 1)
      first.initial_inputs 0)
    _ _ _ three_inputs_wellFormed (by rw [hseq]; decide)
  obtain ⟨units1, units2, hrun, _, _, hex⟩ := mainUnits_eval id
    [[(1 : ℚ), 2, 3], [1, 1, 1], [1, 1, 1], [1, 1]] 0 1
    (fun k => List.range (2 - k)) (fun k => List.range (2 - k)) first hfirst hws1
    flat_threadOrders hws2 flat_threadOrders
  obtain ⟨u, hu, hin2, hw⟩ := hex 0 (by omega) [1, 1, 1]
    (by simp [stageWeights])
  refine ⟨units1, units2, hrun, u, hu, ?_, ?_⟩
  · rw [hin2]
    exact hseq
  · rw [hw]
    rfl

/-- C13 (amended): in a run whose `int` line arithmetic is defined, in either
pass every forward pipe `0..H` sees exactly one `writeToPipe` by its producer
and one `readFromPipe` by its consumer, and the backward pipe exactly one
`writeToPipe`.  In pass one the driver, after the
children, performs exactly one `readFromPipe` on the backward pipe, which
empties it; in pass two the driver performs none: the backward message of
pass two, a vector of two values, is still in the pipe when the driver closes
it. -/
theorem backward_pipe_reads {L D : Type} [DecidableEq D] [Zero D] [One D] [Add D] [Sub D]
    [Mul D] [Div D] [OfNat D 2] (parseLine : L → List D) (file : List L)
    (num_hidden_layers neurons_per_layer : Nat) (backward_values : List D)
    (first : FirstPass D)
    (hfirst : forkFirstPass parseLine file num_hidden_layers neurons_per_layer = some first) :
    ∃ second,
      forkSecondPass parseLine file num_hidden_layers neurons_per_layer backward_values
          first.input_weights first.output_weights = some second
      ∧ (∀ i, i ≤ num_hidden_layers →
        (firstPassOps first.stages).count (ChanOp.write (Chan.forward i)) = 1
          ∧ (firstPassOps first.stages).count (ChanOp.read (Chan.forward i)) = 1
          ∧ (secondPassOps second).count (ChanOp.write (Chan.forward i)) = 1
          ∧ (secondPassOps second).count (ChanOp.read (Chan.forward i)) = 1)
      ∧ (firstPassOps first.stages).count (ChanOp.write Chan.backward) = 1
      ∧ (firstPassOps first.stages).count (ChanOp.read Chan.backward) = 1
      ∧ (firstPassOps first.stages).getLast? = some (ChanOp.read Chan.backward)
      ∧ (secondPassOps second).count (ChanOp.write Chan.backward) = 1
      ∧ (secondPassOps second).count (ChanOp.read Chan.backward) = 0
      ∧ (∀ (sched1 sched2 : Nat → List Nat) (r : MainResult D),
          main parseLine file num_hidden_layers neurons_per_layer sched1 sched2 = some r →
          r.first_pipes.backward_pipe = []
            ∧ r.second_pipes.backward_pipe ≠ []
            ∧ ∃ v : List D, v.length = 2 ∧ r.second_pipes.backward_pipe = writeToPipe [] v) := by
  have hs1 := (forkFirstPass_stages parseLine file num_hidden_layers neurons_per_layer
    first hfirst).1
  have hs2 := forkSecondPass_stages parseLine file num_hidden_layers neurons_per_layer
    first hfirst backward_values
  have hc1 := fun i hi => pipeline_ops_count (stageWeights parseLine file neurons_per_layer)
    first.initial_inputs num_hidden_layers neurons_per_layer i hi
  have hc2 := fun i hi => pipeline_ops_count (stageWeights parseLine file neurons_per_layer)
    backward_values num_hidden_layers neurons_per_layer i hi
  refine ⟨_, hs2, ?_⟩
  rw [hs1]
  refine ⟨?_, ?_, ?_, ?_, ?_, ?_, ?_⟩
  · intro i hi
    obtain ⟨a1, a2, _, _⟩ := hc1 i hi
    obtain ⟨b1, b2, _, _⟩ := hc2 i hi
    simp [firstPassOps, secondPassOps, List.count_append, a1, a2, b1, b2]
  · simp [firstPassOps, List.count_append, (hc1 0 (Nat.zero_le _)).2.2.1]
  · simp [firstPassOps, List.count_append, (hc1 0 (Nat.zero_le _)).2.2.2]
  · simp [firstPassOps]
  · exact (hc2 0 (Nat.zero_le _)).2.2.1
  · exact (hc2 0 (Nat.zero_le _)).2.2.2
  · intro sched1 sched2 r hmain
    obtain ⟨h1, v, hv, hb⟩ := main_backward_pipes parseLine file num_hidden_layers
      neurons_per_layer sched1 sched2 r hmain
    exact ⟨h1, by rw [hb]; exact writeToPipe_ne_nil v, v, hv, hb⟩

/-- C13 (amended) on the four-line file of the end-to-end scenario: pass one
reads its backward pipe once, pass two writes its backward pipe once and
never reads it. -/
theorem backward_pipe_reads_witness :
    ∃ first second,
      forkFirstPass id [[(1 : ℚ), 2], [0.5, 0.5], [1, 0], [1, 1]] 0 1 = some first
      ∧ forkSecondPass id [[(1 : ℚ), 2], [0.5, 0.5], [1, 0], [1, 1]] 0 1 [4.875, 1.875]
          first.input_weights first.output_weights = some second
      ∧ (firstPassOps first.stages).count (ChanOp.read Chan.backward) = 1
      ∧ (secondPassOps second).count (ChanOp.write Chan.backward) = 1
      ∧ (secondPassOps second).count (ChanOp.read Chan.backward) = 0 := by
  obtain ⟨second, h1, _, _, h2, _, h3, h4, _⟩ :=
    backward_pipe_reads id [[(1 : ℚ), 2], [0.5, 0.5], [1, 0], [1, 1]] 0 1 [4.875, 1.875] _
      scenario_firstPass
  exact ⟨_, second, scenario_firstPass, h1, h2, h3, h4⟩

/-- C13 as stated fails for pass two: in the end-to-end scenario the driver
performs no `readFromPipe` on the backward pipe of pass two, and the message
`[38.65625, 29.90625]` the output child wrote is still in that pipe when `main`
returns. -/
theorem backward_pipe_reads_counterexample :
    (main id [[(1 : ℚ), 2], [0.5, 0.5], [1, 0], [1, 1]] 0 1
        (fun k => List.range (2 - k)) (fun k => List.range (2 - k))).map
        (fun r => ((secondPassOps r.second_stages).count (ChanOp.read Chan.backward),
          r.second_pipes.backward_pipe))
      = some (0, writeToPipe [] [38.65625, 29.90625])
      ∧ writeToPipe ([] : Pipe ℚ) [38.65625, 29.90625] ≠ [] := by
  rw [main_scenario _ _ (List.Perm.refl _) (List.Perm.refl _) (List.Perm.refl _)
    (List.Perm.refl _)]
  refine ⟨?_, writeToPipe_ne_nil _⟩
  simp [secondPassOps, Stage.ops]

/-- C14 (what the code does): `readFromPipe` calls `read` once for the data
and does not look at how many bytes it got.  When the transport hands the data
bytes of a vector `a ++ b` (fewer than `2^31` elements, not empty) to the reader
in two pieces, the bytes of `a` and the bytes of `b`, `readFromPipe` returns at
once the vector `a` followed by `len b` zeros, the tail of its zero-filled
buffer that no byte of the pipe reached, and leaves the bytes of `b` in the
pipe. -/
theorem short_read_zero_tail {D : Type} [DecidableEq D] [Zero D] (a b : List D)
    (hlen : (a ++ b).length < 2147483648) (hpos : 0 < (a ++ b).length) :
    ([encodeInt ((a ++ b).length : Int), a.flatMap doubleBytes, b.flatMap doubleBytes] :
        Pipe D).flatten = (writeToPipe ([] : Pipe D) (a ++ b)).flatten
      ∧ readFromPipe [encodeInt ((a ++ b).length : Int), a.flatMap doubleBytes,
          b.flatMap doubleBytes]
        = some (a ++ List.replicate b.length 0, [b.flatMap doubleBytes]) := by
  constructor
  · cases hab : a ++ b with
    | nil => rw [hab] at hpos; simp at hpos
    | cons d ds =>
      rw [writeToPipe_cons [] d ds (by rw [← hab]; exact hlen), ← hab]
      simp [List.flatMap_append]
  · have h := readFromPipe_short a b [] hlen hpos
    simpa using h

/-- C14 at the vector `[1.5, 1.0]` whose 16 data bytes arrive as 8 + 8: the
reader gets `[1.5, 0.0]`, not `[1.5, 1.0]`, and 8 bytes stay in the pipe. -/
theorem short_read_zero_tail_witness :
    ([encodeInt 2, doubleBytes (1.5 : ℚ), doubleBytes (1 : ℚ)] : Pipe ℚ).flatten
        = (writeToPipe ([] : Pipe ℚ) [1.5, 1]).flatten
      ∧ readFromPipe [encodeInt 2, doubleBytes (1.5 : ℚ), doubleBytes (1 : ℚ)]
        = some ([1.5, 0], [doubleBytes (1 : ℚ)])
      ∧ ([1.5, 0] : List ℚ) ≠ [1.5, 1] := by
  have h := short_read_zero_tail [(1.5 : ℚ)] [(1 : ℚ)] (by decide) (by decide)
  refine ⟨?_, ?_, by norm_num⟩
  · simpa using h.1
  · simpa using h.2

end Claims

end NeuralNet
